import Mathlib

/-!
Verification of the AST-transformation core of a hierarchical workflow
compiler (`src/wic/ast.py`).  Python YAML values are embedded as the
inductive type `Yaml`; Python `dict`s become insertion-ordered association
lists; fallible code (KeyError, raise, sys.exit) returns `Except String`.
-/

set_option maxHeartbeats 1000000

namespace Wic

/-- A YAML value as manipulated by the Python source: `None`, booleans,
integers, strings, lists and insertion-ordered string-keyed mappings. -/
inductive Yaml : Type where
  | null : Yaml
  | bool : Bool → Yaml
  | int : Int → Yaml
  | str : String → Yaml
  | list : List Yaml → Yaml
  | map : List (String × Yaml) → Yaml
deriving Repr

mutual

/-- Decidable equality on `Yaml` (the nested inductive defeats `deriving`). -/
def Yaml.decEq : (a b : Yaml) → Decidable (a = b)
  | .null, .null => isTrue rfl
  | .bool a, .bool b =>
    if h : a = b then isTrue (by rw [h]) else isFalse (fun hh => h (by injection hh))
  | .int a, .int b =>
    if h : a = b then isTrue (by rw [h]) else isFalse (fun hh => h (by injection hh))
  | .str a, .str b =>
    if h : a = b then isTrue (by rw [h]) else isFalse (fun hh => h (by injection hh))
  | .list a, .list b =>
    match Yaml.decEqList a b with
    | isTrue h => isTrue (by rw [h])
    | isFalse h => isFalse (fun hh => h (by injection hh))
  | .map a, .map b =>
    match Yaml.decEqMap a b with
    | isTrue h => isTrue (by rw [h])
    | isFalse h => isFalse (fun hh => h (by injection hh))
  | .null, .bool _ | .null, .int _ | .null, .str _ | .null, .list _ | .null, .map _
  | .bool _, .null | .bool _, .int _ | .bool _, .str _ | .bool _, .list _ | .bool _, .map _
  | .int _, .null | .int _, .bool _ | .int _, .str _ | .int _, .list _ | .int _, .map _
  | .str _, .null | .str _, .bool _ | .str _, .int _ | .str _, .list _ | .str _, .map _
  | .list _, .null | .list _, .bool _ | .list _, .int _ | .list _, .str _ | .list _, .map _
  | .map _, .null | .map _, .bool _ | .map _, .int _ | .map _, .str _ | .map _, .list _ =>
    isFalse (by intro h; exact Yaml.noConfusion h)

/-- Decidable equality on lists of `Yaml`. -/
def Yaml.decEqList : (a b : List Yaml) → Decidable (a = b)
  | [], [] => isTrue rfl
  | [], _ :: _ => isFalse (by intro h; exact List.noConfusion h)
  | _ :: _, [] => isFalse (by intro h; exact List.noConfusion h)
  | x :: xs, y :: ys =>
    match Yaml.decEq x y with
    | isTrue h1 =>
      match Yaml.decEqList xs ys with
      | isTrue h2 => isTrue (by rw [h1, h2])
      | isFalse h2 => isFalse (fun hh => h2 (by injection hh))
    | isFalse h1 => isFalse (fun hh => h1 (by injection hh))

/-- Decidable equality on `Yaml` association lists. -/
def Yaml.decEqMap : (a b : List (String × Yaml)) → Decidable (a = b)
  | [], [] => isTrue rfl
  | [], _ :: _ => isFalse (by intro h; exact List.noConfusion h)
  | _ :: _, [] => isFalse (by intro h; exact List.noConfusion h)
  | (k, x) :: xs, (k', y) :: ys =>
    if hk : k = k' then
      match Yaml.decEq x y with
      | isTrue h1 =>
        match Yaml.decEqMap xs ys with
        | isTrue h2 => isTrue (by rw [hk, h1, h2])
        | isFalse h2 => isFalse (fun hh => by
            injection hh with hh1 hh2; exact h2 hh2)
      | isFalse h1 => isFalse (fun hh => by
          injection hh with hh1 hh2
          exact h1 (congrArg Prod.snd hh1))
    else isFalse (fun hh => by
        injection hh with hh1 hh2
        exact hk (congrArg Prod.fst hh1))

end

instance : DecidableEq Yaml := Yaml.decEq

namespace Yaml

/-- First-match lookup in an association list (Python `d[k]` / `d.get(k)`;
the operations below keep keys unique, so first-match is exact). -/
def alookup (k : String) : List (String × Yaml) → Option Yaml
  | [] => none
  | (k', v) :: rest => if k' = k then some v else alookup k rest

/-- Python `d[k] = v`: replace the value in place if the key is present
(keeping its position), otherwise append the new binding. -/
def aset (k : String) (v : Yaml) : List (String × Yaml) → List (String × Yaml)
  | [] => [(k, v)]
  | (k', v') :: rest => if k' = k then (k, v) :: rest else (k', v') :: aset k v rest

/-- Python `del d[k]` (no error if absent; callers guard membership). -/
def adel (k : String) : List (String × Yaml) → List (String × Yaml)
  | [] => []
  | (k', v') :: rest => if k' = k then rest else (k', v') :: adel k rest

/-- Python `k in d` for a mapping. -/
def ahas (k : String) (m : List (String × Yaml)) : Bool :=
  (alookup k m).isSome

/-- Python `d.get(k, default)` on a `Yaml` expected to be a mapping. -/
def getD (y : Yaml) (k : String) (d : Yaml) : Yaml :=
  match y with
  | .map m => (alookup k m).getD d
  | _ => d

/-- Python `d.get(k)` returning an option. -/
def get? (y : Yaml) (k : String) : Option Yaml :=
  match y with
  | .map m => alookup k m
  | _ => none

/-- Python truthiness (`if x:`). -/
def truthy : Yaml → Bool
  | .null => false
  | .bool b => b
  | .int n => n ≠ 0
  | .str s => s ≠ ""
  | .list l => !l.isEmpty
  | .map m => !m.isEmpty

end Yaml

/-- `needle` is a prefix of `haystack` (character lists). -/
def prefixAt : List Char → List Char → Bool
  | [], _ => true
  | _ :: _, [] => false
  | a :: as, b :: bs => a = b && prefixAt as bs

/-- Contiguous-sublist (substring) test, Python `needle in haystack` on
strings, at the character level. -/
def containsSub (needle : List Char) : List Char → Bool
  | [] => needle.isEmpty
  | c :: rest => prefixAt needle (c :: rest) || containsSub needle rest

/-- Python `'/' in s`. -/
def hasSlash : List Char → Bool
  | [] => false
  | c :: t => c = '/' || hasSlash t

/-- Python `s.replace('/', '___')`: a single-character pattern replace is a
character-wise expansion. -/
def replSlash (cs : List Char) : List Char :=
  cs.flatMap (fun c => if c = '/' then ['_', '_', '_'] else [c])

/-- Python `s.split('___')`: split on the leftmost non-overlapping
occurrences of the three-character separator. -/
def split3Aux : Nat → List Char → List (List Char)
  | 0, cs => [cs]
  | fuel + 1, cs =>
    match cs with
    | [] => [[]]
    | c :: rest =>
      if c = '_' ∧ rest.take 2 = ['_', '_'] then
        [] :: split3Aux fuel (rest.drop 2)
      else
        (c :: (split3Aux fuel rest).headD []) :: (split3Aux fuel rest).tail

/-- Entry point: the string length bounds the number of scan steps. -/
def split3 (cs : List Char) : List (List Char) := split3Aux cs.length cs

/-- Python `'___'.join(pieces)`. -/
def join3 : List (List Char) → List Char
  | [] => []
  | p :: ps => p ++ (if ps.isEmpty then [] else '_' :: '_' :: '_' :: join3 ps)

/-- The scan underlying `split3`: does the string contain the separator
`___` as a substring? -/
def hasSep3 : List Char → Bool
  | [] => false
  | c :: rest => (c = '_' && rest.take 2 = ['_', '_']) || hasSep3 rest

/-- Does the piece end in an underscore?  (An empty piece does not.) -/
def endsUnd (p : List Char) : Bool := p.getLastD 'a' = '_'

/-- The invariant of Python `split` output: no piece contains the separator
and no piece other than the last ends in `_` (else the leftmost match would
have begun earlier). -/
def goodParts : List (List Char) → Prop
  | [] => True
  | p :: ps => hasSep3 p = false ∧ (ps ≠ [] → endsUnd p = false) ∧ goodParts ps

/-- Character-level body of `move_slash_last` (ast.py lines 497–513):
if `/` occurs, replace every `/` by `___`, split on `___`, and re-join with
the final separator restored to `/`. -/
def moveSlashLastChars (source_new : List Char) : List Char :=
  if hasSlash source_new then
    join3 (split3 (replSlash source_new)).dropLast ++
      '/' :: (split3 (replSlash source_new)).getLastD []
  else
    source_new

/-- `move_slash_last` from ast.py: move `/` to the last `___` position. -/
def move_slash_last (source_new : String) : String :=
  ⟨moveSlashLastChars source_new.data⟩

/-- Decimal digit character for `d < 10`. -/
def digitChar10 (d : Nat) : Char := Char.ofNat (48 + d)

/-- Big-endian decimal rendering accumulator; the first argument is fuel
(the value itself bounds the digit count). -/
def natToCharsAux : Nat → Nat → List Char → List Char
  | _, 0, acc => acc
  | 0, _ + 1, acc => acc
  | fuel + 1, n + 1, acc =>
    natToCharsAux fuel ((n + 1) / 10) (digitChar10 ((n + 1) % 10) :: acc)

/-- Decimal rendering of a natural number (Python `str(n)` for `n ≥ 0`). -/
def natToChars (n : Nat) : List Char :=
  if n = 0 then ['0'] else natToCharsAux n n []

/-- ASCII decimal digit test. -/
def isDig (c : Char) : Bool := 48 ≤ c.toNat && c.toNat ≤ 57

/-- Value of a big-endian digit string (Python `int(s)` for digit strings). -/
def digitsVal (ds : List Char) : Nat := ds.foldl (fun a c => a * 10 + (c.toNat - 48)) 0

/-- Inner body of the meta-key parser: `digits ++ ", " ++ key`. -/
def parseInner (inner : List Char) : Option (Nat × List Char) :=
  if inner.takeWhile isDig = [] then none
  else
    match inner.dropWhile isDig with
    | ',' :: ' ' :: k => some (digitsVal (inner.takeWhile isDig), k)
    | _ => none

/-- Modelled from the spec: parsing of the literal per-step meta key
`"(N, step_key)"` (§6 identifier conventions; the inverse of
`meta_step_key`, used by `utils.parse_int_string_tuple`, which is not under
`src/`). -/
def parseMetaKeyChars (cs : List Char) : Option (Nat × List Char) :=
  match cs with
  | '(' :: rest =>
    if rest.getLast? = some ')' then
      parseInner rest.dropLast
    else none
  | _ => none

/-- Modelled from the spec: the literal per-step meta key `"(N, step_key)"`
with a single space after the comma (§6 identifier conventions;
`utils.meta_step_key` is not under `src/`). -/
def metaKey (n : Nat) (k : String) : String :=
  ⟨'(' :: (natToChars n ++ ',' :: ' ' :: (k.data ++ [')']))⟩

/-- String-level meta-key parser. -/
def parseMetaKey (s : String) : Option (Nat × String) :=
  (parseMetaKeyChars s.data).map (fun nk => (nk.1, ⟨nk.2⟩))

/-- Decidable equality for `Except` results. -/
instance {ε α : Type} [DecidableEq ε] [DecidableEq α] :
    DecidableEq (Except ε α) := fun a b =>
  match a, b with
  | .ok x, .ok y =>
    if h : x = y then isTrue (by rw [h])
    else isFalse (fun hh => h (by injection hh))
  | .error e, .error e' =>
    if h : e = e' then isTrue (by rw [h])
    else isFalse (fun hh => h (by injection hh))
  | .ok _, .error _ => isFalse (fun hh => Except.noConfusion hh)
  | .error _, .ok _ => isFalse (fun hh => Except.noConfusion hh)

/-- Do the two values carry the same primitive YAML type? (§4.4 merge law) -/
def sameType : Yaml → Yaml → Bool
  | .null, .null => true
  | .bool _, .bool _ => true
  | .int _, .int _ => true
  | .str _, .str _ => true
  | .list _, .list _ => true
  | .map _, .map _ => true
  | _, _ => false

/-- Modelled from the spec: `mergedeep.merge(child, parent,
strategy=Strategy.TYPESAFE_REPLACE)` (§4.4 merge law — `mergedeep` is an
external library): deep-merge key-by-key; where both sides hold a mapping,
recurse; where both sides hold the same primitive type, the parent (second
argument) wins; where types differ, fail with `MergeTypeMismatch`.  The
result keeps the child's key order and appends parent-only keys in parent
order, matching Python dict update order.  `fuel` bounds the nesting
depth. -/
def mergeYaml : Nat → Yaml → Yaml → Except String Yaml
  | 0, _, _ => Except.error "fuel exhausted"
  | fuel + 1, .map a, .map b => do
    let m ← a.mapM (fun kv =>
      match Yaml.alookup kv.1 b with
      | some vb => do
        let v ← mergeYaml fuel kv.2 vb
        pure (kv.1, v)
      | none => pure kv)
    pure (Yaml.map (m ++ b.filter (fun kv => !(Yaml.ahas kv.1 a))))
  | _ + 1, x, y => if sameType x y then pure y else Except.error "MergeTypeMismatch"

/-- A step identifier `(stem, plugin namespace)`.  Modelled from the spec
§3 (`wic_types.StepId` is not under `src/`): two StepIds are equal iff both
components are equal. -/
structure StepId where
  stem : String
  plugin_ns : String
deriving DecidableEq, Repr

/-- A yml document together with its `StepId`.  Modelled from the spec §3
(`wic_types.YamlTree` is not under `src/`). -/
structure YamlTree where
  step_id : StepId
  tree : Yaml
deriving DecidableEq, Repr

/-- A structured step name `"{stem}__step-{i+1}_{key}"`.  Modelled from the
spec §4.1 (`utils.step_name_str` / `utils.parse_step_name_str` are not
under `src/`): `parse_step_name` is specified as the total inverse of
`step_name`, so the pair is embedded as a structured triple (§9 note:
"parse it once at the boundary and pass a structured (i, k) internally");
`idx` is the 0-based index. -/
structure StepName where
  stem : String
  idx : Nat
  key : String
deriving DecidableEq, Repr

/-- Modelled from the spec §4.1: `utils.step_name_str`. -/
def step_name_str (stem : String) (i : Nat) (key : String) : StepName :=
  ⟨stem, i, key⟩

/-- Modelled from the spec §4.1: `utils.parse_step_name_str`, the total
inverse of `step_name_str`. -/
def parse_step_name_str (sn : StepName) : String × Nat × String :=
  (sn.stem, sn.idx, sn.key)

/-- A namespace path into the AST (empty = root). -/
abbrev Namespaces := List StepName

/-- Modelled from the spec: `pathlib.Path(s).stem` — the name without its
last extension (§3: "the stem is the filename component without
extension"). -/
def pathStem (s : String) : String :=
  if s.data.contains '.' then
    ⟨(((s.data.reverse).dropWhile (fun c => c ≠ '.')).drop 1).reverse⟩
  else s

/-- Modelled from the spec: `utils.get_steps_keys` (not under `src/`) —
the step-key of each entry of the `steps` list (§3: an ordered sequence of
single-key mappings; the key of entry *i* is the step-key). -/
def get_steps_keys (steps : List Yaml) : List String :=
  steps.flatMap (fun s => match s with | .map m => m.map Prod.fst | _ => [])

/-- Modelled from the spec: `utils.get_subkeys` (not under `src/`) — the
step keys whose stem does not name a tool in the catalog (§4.3: "if *k*'s
stem resolves to a tool in the catalog, leave the step untouched; else *k*
must resolve to a subworkflow"). -/
def get_subkeys (steps_keys tools_stems : List String) : List String :=
  steps_keys.filter (fun k => !(tools_stems.contains (pathStem k)))

/-- Modelled from the spec: `utils.reindex_wic_steps wic_steps index offset`
(not under `src/`) — renames every per-step meta key `(m, km)` with
`m ≥ index` to `(m + offset, km)` (§4.6: the re-indexing is "pure
arithmetic on parsed keys"; both ast.py call sites pass 1-based indices and,
for splices of arity ≥ 1, non-negative offsets). -/
def reindex_wic_steps (wic_steps : List (String × Yaml)) (index offset : Nat) :
    List (String × Yaml) :=
  wic_steps.map (fun kv =>
    match parseMetaKey kv.1 with
    | some (m, km) => if index ≤ m then (metaKey (m + offset) km, kv.2) else kv
    | none => kv)

/-- Modelled from the spec: `utils.extract_backend` (not under `src/`) —
§4.6 case 1: the splice of a backend-bearing document extracts the chosen
backend body (the `backend` meta entry looked up in `backends`). -/
def extract_backend (wic : Yaml) : Except String (String × Yaml) :=
  match wic.get? "backend" with
  | some (.str back_name) =>
    match (wic.getD "backends" (.map [])).get? back_name with
    | some body => .ok (back_name, body)
    | none => .error "Error! backend not found"
  | _ => .error "Error! no backend selected"

/-- Python `x in y` for a string `x` against an arbitrary container. -/
def pyInStr (x : String) : Yaml → Except String Bool
  | .map m => pure (Yaml.ahas x m)
  | .list l => pure (l.contains (.str x))
  | .str s => pure (containsSub x.data s.data)
  | _ => .error "TypeError: argument is not iterable"

/-- One `in:`-mapping pass of `apply_args` (ast.py lines 431-434): replace
every value equal to the literal `"~argkey"` by `argval`. -/
def substIn (argkey : String) (argval : Yaml) (m : List (String × Yaml)) :
    List (String × Yaml) :=
  m.map (fun kv => if kv.2 = Yaml.str ("~" ++ argkey) then (kv.1, argval) else kv)

/-- The per-step body of the `apply_args` substitution loop (ast.py lines
426-434): use the step's `in:` mapping when truthy, else fall back to
`parentargs.in`; writes are visible only when the mapping actually exists
in the step (Python mutates the `.get` default `{}` invisibly otherwise). -/
def applyToStepVal (argkey : String) (argval : Yaml) (sv : Yaml) :
    Except String Yaml :=
  match sv with
  | .map svm =>
    let in1 := (Yaml.alookup "in" svm).getD (.map [])
    if in1.truthy then
      match in1 with
      | .map m => pure (.map (Yaml.aset "in" (.map (substIn argkey argval m)) svm))
      | _ => .error "AttributeError: items"
    else
      match Yaml.alookup "parentargs" svm with
      | none => pure sv
      | some (.map pam) =>
        match Yaml.alookup "in" pam with
        | none => pure sv
        | some (.map m2) =>
          pure (.map (Yaml.aset "parentargs"
            (.map (Yaml.aset "in" (.map (substIn argkey argval m2)) pam)) svm))
        | some _ => .error "AttributeError: items"
      | some _ => .error "AttributeError: get"
  | _ => .error "AttributeError: get"

/-- The indexed loop of `apply_args` over `enumerate(steps_keys)` (ast.py
lines 421-434). -/
def substStepsAux (argkey : String) (argval : Yaml) :
    Nat → List String → List Yaml → Except String (List Yaml)
  | _, [], steps => pure steps
  | i, key :: rest, steps => do
    let step ← match steps.get? i with
      | some s => pure s
      | none => Except.error "IndexError: steps"
    let sv ← match step with
      | .map m =>
        match Yaml.alookup key m with
        | some v => pure v
        | none => Except.error "KeyError: step key"
      | _ => Except.error "TypeError: step"
    let sv' ← applyToStepVal argkey argval sv
    let step' := match step with
      | .map m => Yaml.map (Yaml.aset key sv' m)
      | s => s
    substStepsAux argkey argval (i + 1) rest (steps.set i step')

/-- `apply_args` (ast.py lines 396-436): remove the `inputs` block and
apply each parent `in:` argument to every `~name` call site; a parent
argument whose name is not declared in `inputs` is fatal. -/
def apply_args (sub_yml_tree sub_parentargs : Yaml) : Except String Yaml := do
  let bodym ← match sub_yml_tree with
    | .map m => pure m
    | _ => Except.error "AttributeError: get"
  let inputs_workflow := (Yaml.alookup "inputs" bodym).getD (.map [])
  let bodym := Yaml.adel "inputs" bodym
  let steps ← match Yaml.alookup "steps" bodym with
    | some (.list l) => pure l
    | some _ => Except.error "TypeError: steps"
    | none => Except.error "KeyError: steps"
  let steps_keys := get_steps_keys steps
  let pain ← match sub_parentargs with
    | .map pm =>
      match Yaml.alookup "in" pm with
      | some (.map m) => pure m
      | some _ => Except.error "AttributeError: items"
      | none => pure ([] : List (String × Yaml))
    | _ => Except.error "AttributeError: get"
  let steps' ← pain.foldlM (fun st kv => do
      let inInputs ← pyInStr kv.1 inputs_workflow
      if inInputs then
        substStepsAux kv.1 kv.2 0 steps_keys st
      else
        Except.error ("Error while inlineing " ++ kv.1)) steps
  pure (.map (Yaml.aset "steps" (.list steps') bodym))

/-- Python `y[k] = v` at the top level of a mapping. -/
def setKeyTop (y : Yaml) (k : String) (v : Yaml) : Except String Yaml :=
  match y with
  | .map m => pure (.map (Yaml.aset k v m))
  | _ => Except.error "TypeError: item assignment"

/-- The terminal mutation of `inline_subworkflow_wic_tag` (ast.py lines
469-492), applied at the node holding the parent of the subworkflow being
inlined: re-index the sub's own meta steps by the 0-based position, delete
the replaced entry, re-index the following siblings by `len_substeps - 1`,
and merge (parent wins). -/
def wicTagSplice (fuel : Nat) (node : Yaml) (sub_index : Nat)
    (sub_step_name : String) (len_substeps : Nat) : Except String Yaml := do
  let key := metaKey (sub_index + 1) sub_step_name
  let sub_wic := ((node.getD "wic" (.map [])).getD "steps" (.map [])).getD
    key (.map [])
  let subSteps ← match (sub_wic.getD "wic" (.map [])).getD "steps" (.map []) with
    | .map m => pure m
    | _ => Except.error "AttributeError: items"
  let reindexedSub := reindex_wic_steps subSteps 1 sub_index
  let nodem ← match node with
    | .map m => pure m
    | _ => Except.error "AttributeError: get"
  let wicm ← match Yaml.alookup "wic" nodem with
    | some (.map m) => pure m
    | some _ => Except.error "TypeError: wic"
    | none => Except.error "KeyError: wic"
  let stepsm ← match Yaml.alookup "steps" wicm with
    | some (.map m) => pure m
    | some _ => Except.error "TypeError: steps"
    | none => Except.error "KeyError: steps"
  let stepsDel := Yaml.adel key stepsm
  let reindexedParent := reindex_wic_steps stepsDel (sub_index + 1) (len_substeps - 1)
  let merged ← mergeYaml fuel (.map reindexedSub) (.map reindexedParent)
  pure (.map (Yaml.aset "wic" (.map (Yaml.aset "steps" merged wicm)) nodem))

/-- The walk of `inline_subworkflow_wic_tag` down the path prefix (ast.py
lines 455-465), returning the updated node; any absent intermediate meta
node short-circuits with the node unchanged. -/
def wicTagWalk (fuel : Nat) : Yaml → List (Nat × String) → Nat → Except String Yaml
  | _, [], _ => Except.error "IndexError: namespaces"
  | node, [(i, k)], len_substeps => wicTagSplice fuel node i k len_substeps
  | node, (i, k) :: rest, len_substeps => do
    let child := ((node.getD "wic" (.map [])).getD "steps" (.map [])).getD
      (metaKey (i + 1) k) (.map [])
    let childWic ← match child with
      | .map cm => pure ((Yaml.alookup "wic" cm).getD (.map []))
      | _ => Except.error "AttributeError: get"
    let hasSteps ← pyInStr "steps" childWic
    if !hasSteps then
      pure node
    else do
      let child' ← wicTagWalk fuel child rest len_substeps
      match node with
      | .map nm =>
        match Yaml.alookup "wic" nm with
        | some (.map wm) =>
          match Yaml.alookup "steps" wm with
          | some (.map sm) =>
            if Yaml.ahas (metaKey (i + 1) k) sm then
              pure (.map (Yaml.aset "wic" (.map (Yaml.aset "steps"
                (.map (Yaml.aset (metaKey (i + 1) k) child' sm)) wm)) nm))
            else
              pure node
          | _ => pure node
        | _ => pure node
      | _ => pure node

/-- `inline_subworkflow_wic_tag` (ast.py lines 439-494): inline the wic
metadata of the subworkflow at the given path into its immediate parent's
`wic: steps:` mapping, and return the root `wic:` value with the in-place
update applied. -/
def inline_subworkflow_wic_tag (fuel : Nat) (wic_tag : Yaml)
    (namespaces : Namespaces) (len_substeps : Nat) : Except String Yaml := do
  let _ ← match wic_tag.get? "wic" with
    | some v => pure v
    | none => Except.error "KeyError: wic"
  let root ← wicTagWalk fuel wic_tag
    (namespaces.map (fun sn => (sn.idx, sn.key))) len_substeps
  match root.get? "wic" with
  | some v => pure v
  | none => Except.error "KeyError: wic"

/-- `inline_subworkflow` (ast.py lines 300-393): splice the subworkflow at
the given namespace path into its immediate parent (operating, per the
source, on a deep copy — value semantics here) and return the transformed
document with the splice arity.  `fuel` bounds the recursion through
backend bodies. -/
def inline_subworkflow : Nat → YamlTree → Namespaces →
    Except String (YamlTree × Nat)
  | 0, _, _ => Except.error "fuel exhausted"
  | fuel + 1, yaml_tree_tuple, namespaces => do
    if namespaces = [] then
      pure (yaml_tree_tuple, 0)
    else do
      -- (step_id, yaml_tree) = copy.deepcopy(yaml_tree_tuple)
      let step_id := yaml_tree_tuple.step_id
      let yaml_tree := yaml_tree_tuple.tree
      let yaml_name := step_id.stem
      let wicInner := yaml_tree.getD "wic" (.map [])
      let wicTop : Yaml := .map [("wic", wicInner)]
      let hasBack ← pyInStr "backends" wicInner
      if hasBack then
        if namespaces.length = 1 then do
          let (back_name, body) ← extract_backend wicInner
          let stepsv ← match body.get? "steps" with
            | some v => pure v
            | none => Except.error "KeyError: steps"
          pure (⟨⟨back_name, step_id.plugin_ns⟩, .map [("steps", stepsv)]⟩, 0)
        else do
          let backs ← match wicInner.getD "backends" (.map []) with
            | .map m => pure m
            | _ => Except.error "AttributeError: items"
          let backends_trees ← backs.mapM (fun kv => do
            let (bt, _) ← inline_subworkflow fuel
              ⟨⟨kv.1, step_id.plugin_ns⟩, kv.2⟩ namespaces
            pure (bt.step_id.stem, bt.tree))
          let newTree ← match yaml_tree with
            | .map m =>
              match Yaml.alookup "wic" m with
              | some (.map wm) => pure (Yaml.map (Yaml.aset "wic"
                  (.map (Yaml.aset "backends" (.map backends_trees) wm)) m))
              | some _ => Except.error "TypeError: item assignment"
              | none => Except.error "KeyError: wic"
            | _ => Except.error "TypeError: subscript"
          pure (⟨step_id, newTree⟩, 0)
      else do
        let steps ← match yaml_tree.get? "steps" with
          | some (.list l) => pure l
          | some _ => Except.error "TypeError: steps"
          | none => Except.error "KeyError: steps"
        let steps_keys := get_steps_keys steps
        let yaml_stem := pathStem yaml_name
        let step_names := ((List.range steps_keys.length).zip steps_keys).map
          (fun p => step_name_str yaml_stem p.1 p.2)
        let ns0 ← match namespaces.head? with
          | some sn => pure sn
          | none => Except.error "IndexError: namespaces"
        if ns0 ∉ step_names then
          Except.error "Error! namespace head not in step_names"
        else do
          let i := (parse_step_name_str ns0).2.1
          let step_key := (parse_step_name_str ns0).2.2
          let stepv ← match steps.get? i with
            | some (.map m) => pure m
            | some _ => Except.error "TypeError: step"
            | none => Except.error "IndexError: steps"
          let entry ← match Yaml.alookup step_key stepv with
            | some v => pure v
            | none => Except.error "KeyError: step_key"
          let sub_yml_tree ← match entry.get? "subtree" with
            | some v => pure v
            | none => Except.error "KeyError: subtree"
          let sub_parentargs ← match entry.get? "parentargs" with
            | some v => pure v
            | none => Except.error "KeyError: parentargs"
          if namespaces.length = 1 then do
            -- ~ syntax, then inline the sub-steps (ast.py lines 350-360)
            let sub_applied ← apply_args sub_yml_tree sub_parentargs
            let sub_steps ← match sub_applied.get? "steps" with
              | some (.list l) => pure l
              | some _ => Except.error "TypeError: steps"
              | none => Except.error "KeyError: steps"
            let newSteps := steps.take i ++ sub_steps ++ steps.drop (i + 1)
            let len_substeps := sub_steps.length
            let yaml_tree1 ← setKeyTop yaml_tree "steps" (.list newSteps)
            -- wic tag bookkeeping (ast.py lines 362-377)
            let parent_wic_tag := (((wicTop.getD "wic" (.map [])).getD "steps"
              (.map [])).getD (metaKey (i + 1) step_key) (.map [])).getD
              "wic" (.map [])
            let sub_wic_tag := sub_applied.getD "wic" (.map [])
            let wicInner2 ← match wicTop.getD "wic" (.map []) with
              | .map m => pure m
              | _ => Except.error "TypeError: wic"
            let stepsTag ← match Yaml.alookup "steps" wicInner2 with
              | some (.map m) => pure m
              | some _ => Except.error "TypeError: wic steps"
              | none => pure ([] : List (String × Yaml))
            let entryTag ← match Yaml.alookup (metaKey (i + 1) step_key) stepsTag with
              | some (.map m) => pure m
              | some _ => Except.error "TypeError: wic step entry"
              | none => pure ([] : List (String × Yaml))
            let merged ← mergeYaml fuel sub_wic_tag parent_wic_tag
            let entryTag2 := Yaml.aset "wic" merged entryTag
            let stepsTag2 := Yaml.aset (metaKey (i + 1) step_key) (.map entryTag2) stepsTag
            let wicInner3 := Yaml.aset "steps" (.map stepsTag2) wicInner2
            let wic2 : Yaml := .map [("wic", .map wicInner3)]
            let newWic ← inline_subworkflow_wic_tag fuel wic2 namespaces len_substeps
            let yaml_tree2 ← setKeyTop yaml_tree1 "wic" newWic
            pure (⟨step_id, yaml_tree2⟩, len_substeps)
          else do
            -- strip off one initial namespace (ast.py lines 378-389)
            let res ← inline_subworkflow fuel
              ⟨⟨step_key, step_id.plugin_ns⟩, sub_yml_tree⟩ namespaces.tail
            let sub_yml_tree2 := res.1.tree
            let len_substeps := res.2
            let newEntry : Yaml := .map
              [("subtree", sub_yml_tree2), ("parentargs", sub_parentargs)]
            let newSteps := steps.set i (.map (Yaml.aset step_key newEntry stepv))
            let yaml_tree1 ← setKeyTop yaml_tree "steps" (.list newSteps)
            let newWic ← inline_subworkflow_wic_tag fuel wicTop namespaces len_substeps
            let yaml_tree2 ← setKeyTop yaml_tree1 "wic" newWic
            pure (⟨step_id, yaml_tree2⟩, len_substeps)

/-- The splice arity of §4.6: the number of steps the subworkflow at the
given path contributes to its parent after argument application (zero for
a backend choice, which re-indexes nothing upstream). -/
def spliceArity : Nat → YamlTree → Namespaces → Option Nat
  | 0, _, _ => none
  | fuel + 1, tt, namespaces =>
    match namespaces with
    | [] => some 0
    | sn :: rest =>
      let wicInner := tt.tree.getD "wic" (.map [])
      if (wicInner.get? "backends").isSome then
        some 0
      else
        match tt.tree.get? "steps" with
        | some (.list steps) =>
          match steps.get? sn.idx with
          | some stepv =>
            match stepv.get? sn.key with
            | some entry =>
              match entry.get? "subtree", entry.get? "parentargs" with
              | some subtree, some pargs =>
                match rest with
                | [] =>
                  match apply_args subtree pargs with
                  | .ok applied =>
                    match applied.get? "steps" with
                    | some (.list l) => some l.length
                    | _ => none
                  | .error _ => none
                | _ :: _ =>
                  spliceArity fuel ⟨⟨sn.key, tt.step_id.plugin_ns⟩, subtree⟩ rest
              | _, _ => none
            | none => none
          | none => none
        | _ => none

/-- The single-quote character, for Python `repr` of strings. -/
def quoteChar : Char := Char.ofNat 39

/-- Python `str`/`repr` rendering of a YAML value (`asRepr` selects `repr`,
which quotes strings; containers always render elements with `repr`); the
fuel is bounded below by the value's size.  Used for diagnostics and for
the `re.match` scan in `inline_subworkflow_cwl`. -/
def pyRender : Nat → Bool → Yaml → String
  | 0, _, _ => ""
  | fuel + 1, asRepr, y =>
    match y with
    | .null => "None"
    | .bool b => if b then "True" else "False"
    | .int n =>
      if n < 0 then "-" ++ ⟨natToChars (-n).toNat⟩ else ⟨natToChars n.toNat⟩
    | .str s => if asRepr then ⟨quoteChar :: (s.data ++ [quoteChar])⟩ else s
    | .list l =>
      "[" ++ String.intercalate ", " (l.map (pyRender fuel true)) ++ "]"
    | .map m =>
      "\x7b" ++ String.intercalate ", " (m.map (fun kv =>
        pyRender fuel true (.str kv.1) ++ ": " ++ pyRender fuel true kv.2))
        ++ "\x7d"

/-- Python `str(...)` of a YAML value; the caller's fuel bounds the nesting
depth (Python `str` always terminates). -/
def pyStr (fuel : Nat) (y : Yaml) : String := pyRender fuel false y

/-- Does the string end in `.yml`? (`Path.suffix == '.yml'`) -/
def endsWithYml (s : String) : Bool :=
  prefixAt ['l', 'm', 'y', '.'] s.data.reverse

/-- The namespace-miss message of ast.py lines 99-100. -/
def nsMissMsg (fuel : Nat) (plugin_ns : Yaml) (homedir : String) : String :=
  "Error! namespace " ++ pyStr fuel plugin_ns ++
    " not found in yaml paths. Check " ++ homedir ++ "/wic/yml_dirs.txt"

/-- The stem-miss message of ast.py lines 102-104, with the indentation
hint appended exactly when the missing stem is the literal `in`. -/
def stemMissMsg (stem plugin_ns parent_stem : String) : String :=
  "Error! " ++ stem ++ " not found in namespace " ++ plugin_ns ++
    " when attempting to read " ++ parent_stem ++ ".yml" ++
    (if stem = "in" then
      "\n(Check that you have properly indented the `in` tag in " ++
        parent_stem ++ ")"
    else "")

mutual

/-- `read_ast_from_disk` (ast.py lines 22-124): validate, expand backends,
and recursively replace every subworkflow step value by
`{subtree, parentargs}`.  The catalog (`yml_paths`), the file system
(`files`), the tool stems and the validator verdict are explicit
parameters; `fuel` bounds the recursion. -/
def read_ast_from_disk (fuel : Nat) (homedir : String)
    (yaml_tree_tuple : YamlTree)
    (yml_paths : List (String × List (String × String)))
    (files : List (String × Yaml)) (tools_stems : List String)
    (validator : Yaml → Bool) (ignore_validation_errors : Bool) :
    Except String YamlTree :=
  match fuel with
  | 0 => Except.error "fuel exhausted"
  | fuel + 1 => do
    let step_id := yaml_tree_tuple.step_id
    let yaml_tree := yaml_tree_tuple.tree
    if !ignore_validation_errors && !(validator yaml_tree) then
      Except.error "ValidationFailed"
    else do
      let wicInner := yaml_tree.getD "wic" (.map [])
      let hasBack ← pyInStr "backends" wicInner
      if hasBack then do
        let backs ← match wicInner.getD "backends" (.map []) with
          | .map m => pure m
          | _ => Except.error "AttributeError: items"
        let backends_trees ← backs.mapM (fun kv => do
          let plugin_ns := wicInner.getD "namespace" (.str "global")
          let ns ← match plugin_ns with
            | .str s => pure s
            | _ => Except.error "TypeError: namespace"
          let bt ← read_ast_from_disk fuel homedir ⟨⟨kv.1, ns⟩, kv.2⟩
            yml_paths files tools_stems validator ignore_validation_errors
          pure (bt.step_id.stem, bt.tree))
        let newTree ← match yaml_tree with
          | .map m =>
            match Yaml.alookup "wic" m with
            | some (.map wm) => pure (Yaml.map (Yaml.aset "wic"
                (.map (Yaml.aset "backends" (.map backends_trees) wm)) m))
            | some _ => Except.error "TypeError: item assignment"
            | none => Except.error "KeyError: wic"
          | _ => Except.error "TypeError: subscript"
        pure ⟨step_id, newTree⟩
      else do
        let steps ← match yaml_tree.get? "steps" with
          | some (.list l) => pure l
          | some _ => Except.error "TypeError: steps"
          | none => Except.error "KeyError: steps"
        let wic_steps := wicInner.getD "steps" (.map [])
        let steps_keys := get_steps_keys steps
        let subkeys := get_subkeys steps_keys tools_stems
        let steps' ← read_ast_steps_loop fuel homedir step_id.stem yml_paths
          files tools_stems validator ignore_validation_errors wic_steps
          subkeys 0 steps_keys steps
        let newTree ← setKeyTop yaml_tree "steps" (.list steps')
        pure ⟨step_id, newTree⟩

/-- The per-step resolution loop of `read_ast_from_disk` (ast.py lines
82-123), updating `steps[i][step_key]` for every subworkflow key. -/
def read_ast_steps_loop (fuel : Nat) (homedir : String) (parent_stem : String)
    (yml_paths : List (String × List (String × String)))
    (files : List (String × Yaml)) (tools_stems : List String)
    (validator : Yaml → Bool) (ignore_validation_errors : Bool)
    (wic_steps : Yaml) (subkeys : List String) :
    Nat → List String → List Yaml → Except String (List Yaml)
  | _, [], steps => pure steps
  | i, step_key :: rest, steps =>
    match fuel with
    | 0 => Except.error "fuel exhausted"
    | fuel + 1 => do
      let stem := pathStem step_key
      if step_key ∈ subkeys then do
        let sub_wic := wic_steps.getD (metaKey (i + 1) step_key) (.map [])
        let plugin_ns_y := (sub_wic.getD "wic" (.map [])).getD "namespace"
          (.str "global")
        let paths_ns_i := match plugin_ns_y with
          | .str s => (List.lookup s yml_paths).getD []
          | _ => []
        if paths_ns_i = [] then
          Except.error (nsMissMsg fuel plugin_ns_y homedir)
        else do
          let plugin_ns ← match plugin_ns_y with
            | .str s => pure s
            | _ => Except.error "TypeError: namespace"
          match List.lookup stem paths_ns_i with
          | none => Except.error (stemMissMsg stem plugin_ns parent_stem)
          | some yaml_path => do
            if !((files.map Prod.fst).contains yaml_path && endsWithYml yaml_path) then
              Except.error ("Error! " ++ yaml_path ++
                " does not exist or is not a .yml file.")
            else do
              let raw ← match List.lookup yaml_path files with
                | some y => pure y
                | none => Except.error "FileNotFoundError"
              let sub ← read_ast_from_disk fuel homedir
                ⟨⟨step_key, plugin_ns⟩, raw⟩ yml_paths files tools_stems
                validator ignore_validation_errors
              let stepm ← match steps.get? i with
                | some (.map m) => pure m
                | some _ => Except.error "TypeError: step"
                | none => Except.error "IndexError: steps"
              let oldv ← match Yaml.alookup step_key stepm with
                | some v => pure v
                | none => Except.error "KeyError: step_key"
              let step_i_dict := if oldv = Yaml.null then Yaml.map [] else oldv
              let newv : Yaml := .map
                [("subtree", sub.tree), ("parentargs", step_i_dict)]
              let steps2 := steps.set i (.map (Yaml.aset step_key newv stepm))
              read_ast_steps_loop fuel homedir parent_stem yml_paths files
                tools_stems validator ignore_validation_errors wic_steps
                subkeys (i + 1) rest steps2
      else
        read_ast_steps_loop fuel homedir parent_stem yml_paths files
          tools_stems validator ignore_validation_errors wic_steps subkeys
          (i + 1) rest steps

end

mutual

/-- `merge_yml_trees` (ast.py lines 127-204): merge the parent's `wic:`
block into the document (parent wins), recurse into backends and
subworkflow subtrees, and merge parent-provided per-step CWL arguments
into each tool step (stripping the per-step `wic` sub-key first). -/
def merge_yml_trees (fuel : Nat) (yaml_tree_tuple : YamlTree)
    (wic_parent : Yaml) (tools_stems : List String) : Except String YamlTree :=
  match fuel with
  | 0 => Except.error "fuel exhausted"
  | fuel + 1 => do
    let step_id := yaml_tree_tuple.step_id
    let yaml_tree := yaml_tree_tuple.tree
    let wic_self : Yaml := .map [("wic", yaml_tree.getD "wic" (.map []))]
    let wic ← mergeYaml fuel wic_self wic_parent
    let wicInner := wic.getD "wic" (.map [])
    let yaml_tree1 ← setKeyTop yaml_tree "wic" wicInner
    let wic_steps := wicInner.getD "steps" (.map [])
    let hasBack ← pyInStr "backends" wicInner
    if hasBack then do
      let backs ← match wicInner.getD "backends" (.map []) with
        | .map m => pure m
        | _ => Except.error "AttributeError: items"
      let backends_trees ← backs.mapM (fun kv => do
        let bt ← merge_yml_trees fuel ⟨⟨kv.1, step_id.plugin_ns⟩, kv.2⟩
          wic_parent tools_stems
        pure (bt.step_id.stem, bt.tree))
      let newTree ← match yaml_tree1 with
        | .map m =>
          match Yaml.alookup "wic" m with
          | some (.map wm) => pure (Yaml.map (Yaml.aset "wic"
              (.map (Yaml.aset "backends" (.map backends_trees) wm)) m))
          | some _ => Except.error "TypeError: item assignment"
          | none => Except.error "KeyError: wic"
        | _ => Except.error "TypeError: subscript"
      pure ⟨step_id, newTree⟩
    else do
      let steps ← match yaml_tree1.get? "steps" with
        | some (.list l) => pure l
        | some _ => Except.error "TypeError: steps"
        | none => Except.error "KeyError: steps"
      let steps_keys := get_steps_keys steps
      let subkeys := get_subkeys steps_keys tools_stems
      let steps' ← merge_yml_steps_loop fuel step_id.plugin_ns wic_steps
        subkeys tools_stems 0 steps_keys steps
      let newTree ← setKeyTop yaml_tree1 "steps" (.list steps')
      pure ⟨step_id, newTree⟩

/-- The per-step loop of `merge_yml_trees` (ast.py lines 170-202). -/
def merge_yml_steps_loop (fuel : Nat) (plugin_ns : String) (wic_steps : Yaml)
    (subkeys tools_stems : List String) :
    Nat → List String → List Yaml → Except String (List Yaml)
  | _, [], steps => pure steps
  | i, step_key :: rest, steps =>
    match fuel with
    | 0 => Except.error "fuel exhausted"
    | fuel + 1 => do
      let stepm ← match steps.get? i with
        | some (.map m) => pure m
        | some _ => Except.error "TypeError: step"
        | none => Except.error "IndexError: steps"
      let oldv ← match Yaml.alookup step_key stepm with
        | some v => pure v
        | none => Except.error "KeyError: step_key"
      let newv ← (do
        if step_key ∈ subkeys then do
          -- recursively merge the subworkflow (ast.py lines 172-180)
          let sub_yml_tree_initial ← match oldv.get? "subtree" with
            | some v => pure v
            | none => Except.error "KeyError: subtree"
          let sub_wic := wic_steps.getD (metaKey (i + 1) step_key) (.map [])
          let merged ← merge_yml_trees fuel
            ⟨⟨step_key, plugin_ns⟩, sub_yml_tree_initial⟩ sub_wic tools_stems
          match oldv with
          | .map ov => pure (Yaml.map (Yaml.aset "subtree" merged.tree ov))
          | _ => Except.error "TypeError: item assignment"
        else do
          -- merge parent-provided CWL args into the tool step
          -- (ast.py lines 186-202)
          let clt_args := wic_steps.getD (metaKey (i + 1) step_key) (.map [])
          let clt_args := match clt_args with
            | .map m => Yaml.map (Yaml.adel "wic" m)
            | y => y
          let sub_yml_tree := clt_args
          let args_self := if oldv.truthy then oldv else Yaml.map []
          mergeYaml fuel args_self sub_yml_tree)
      let steps2 := steps.set i (.map (Yaml.aset step_key newv stepm))
      merge_yml_steps_loop fuel plugin_ns wic_steps subkeys tools_stems
        (i + 1) rest steps2

end

/-- Modelled from the spec §3 (`wic_types.NodeData` is not under `src/`):
only the fields read by `inline_subworkflow_cwl` are carried; the other
eight fields are passed through unchanged and never inspected. -/
structure NodeData where
  namespaces : List String
  compiled_cwl : Yaml
deriving DecidableEq, Repr

/-- Modelled from the spec §3: a rose tree pairing a compiled graph with
the compiled subworkflow graphs below it (`wic_types.RoseTree`). -/
inductive RoseTree : Type where
  | node : NodeData → List RoseTree → RoseTree
deriving Repr

/-- The `data` field of a rose tree. -/
def RoseTree.data : RoseTree → NodeData
  | .node d _ => d

/-- The `sub_trees` field of a rose tree. -/
def RoseTree.sub_trees : RoseTree → List RoseTree
  | .node _ ts => ts

/-- All suffixes of `cs` that begin right after an occurrence of
`[inputs.`, left to right. -/
def afterInputsOcc : List Char → List (List Char)
  | [] => []
  | c :: rest =>
    if prefixAt ['[', 'i', 'n', 'p', 'u', 't', 's', '.'] (c :: rest) then
      ((c :: rest).drop 8) :: afterInputsOcc rest
    else
      afterInputsOcc rest

/-- Characters of `suf` strictly before its last `]`. -/
def upToLastClose (suf : List Char) : List Char :=
  (((suf.reverse).dropWhile (fun c => c ≠ ']')).drop 1).reverse

/-- The anchored scan `re.match(r'.*\[inputs\.(.*)\].*', s)` of ast.py line
590: with greedy backtracking the match succeeds iff some occurrence of
`[inputs.` is followed later by `]`; the leading `.*` selects the rightmost
such occurrence and the group extends to the last `]` after it. -/
def matchInputsVar (s : String) : Option String :=
  match ((afterInputsOcc s.data).filter (fun suf => suf.contains ']')).getLast? with
  | some suf => some ⟨upToLastClose suf⟩
  | none => none

/-- Python `x in d` for an arbitrary value `x` against a string-keyed dict. -/
def pyKeyIn (x : Yaml) (m : List (String × Yaml)) : Except String Bool :=
  match x with
  | .str s => pure (Yaml.ahas s m)
  | .list _ => Except.error "TypeError: unhashable type"
  | .map _ => Except.error "TypeError: unhashable type"
  | _ => pure false

/-- `substepval['scatter'] += [x]` with creation if absent (ast.py 596-599). -/
def scatterAppend (svm : List (String × Yaml)) (x : String) :
    Except String (List (String × Yaml)) :=
  match Yaml.alookup "scatter" svm with
  | some (.list l) => pure (Yaml.aset "scatter" (.list (l ++ [.str x])) svm)
  | some _ => Except.error "TypeError: scatter"
  | none => pure (Yaml.aset "scatter" (.list [.str x]) svm)

/-- Deduplicated scatter append (ast.py 611-615). -/
def scatterAppendDedup (svm : List (String × Yaml)) (x : String) :
    Except String (List (String × Yaml)) :=
  match Yaml.alookup "scatter" svm with
  | some (.list l) =>
    if l.contains (.str x) then pure svm
    else pure (Yaml.aset "scatter" (.list (l ++ [.str x])) svm)
  | some _ => Except.error "TypeError: scatter"
  | none => pure (Yaml.aset "scatter" (.list [.str x]) svm)

/-- The innermost per-binding body of `inline_subworkflow_cwl` (ast.py
lines 560-616).  The state carries `substep_inputs_new`, the (mutated)
`substepval` entries and the Python local `source`, which is assigned only
in the string and mapping branches and is an `UnboundLocalError` when read
before any assignment. -/
def process_subinput (fuel : Nat) (step_key : String)
    (inputs : List (String × Yaml)) (scattervars : Yaml)
    (state : List (String × Yaml) × List (String × Yaml) × Option Yaml)
    (subinputkey : String) (subinputval : Yaml) :
    Except String (List (String × Yaml) × List (String × Yaml) × Option Yaml) := do
  let (new0, sv0, src0) := state
  -- by default, copy the input and prepend the namespace (ast.py 561-570);
  -- the string branch flattens only the value used for the formal test
  let (new1, src1, subval1) ←
    match subinputval with
    | .str v =>
      pure (Yaml.aset subinputkey (Yaml.str (step_key ++ "___" ++ v)) new0,
        some (Yaml.str (move_slash_last v)), subinputval)
    | .map mm => do
      let sY ← match Yaml.alookup "source" mm with
        | some v => pure v
        | none => Except.error "KeyError: source"
      let s ← match sY with
        | .str s => pure s
        | _ => Except.error "TypeError: source"
      let subval' := Yaml.map (Yaml.aset "source"
        (Yaml.str (step_key ++ "___" ++ move_slash_last s)) mm)
      pure (Yaml.aset subinputkey subval' new0, some sY, subval')
    | _ => pure (new0, src0, subinputval)
  -- `if source in inputs:` (ast.py 572) reads the Python local `source`
  let src ← match src1 with
    | some y => pure y
    | none => Except.error "UnboundLocalError: source"
  let isFormal ← pyKeyIn src inputs
  let (new2, sv2) ←
    if isFormal then do
      let srcS ← match src with
        | .str s => pure s
        | _ => Except.error "TypeError: source"
      let newval0 ← match Yaml.alookup srcS inputs with
        | some v => pure v
        | none => Except.error "KeyError: inputs"
      let newval1 := match newval0 with
        | .str s => Yaml.str (move_slash_last s)
        | y => y
      let newval2 ← match newval1 with
        | .map nm =>
          match Yaml.alookup "source" nm with
          | some (.str s) => pure (Yaml.map (Yaml.aset "source"
              (Yaml.str (move_slash_last s)) nm))
          | some _ => Except.error "TypeError: source"
          | none => pure newval1
        | y => pure y
      let new' := Yaml.aset subinputkey newval2 new1
      -- copy any referenced input variables (ast.py 590-599)
      match matchInputsVar (pyStr fuel newval2) with
      | some inputvarname =>
        if inputvarname ≠ "" then do
          let iv ← match Yaml.alookup inputvarname inputs with
            | some v => pure v
            | none => Except.error "KeyError: inputvar"
          let new'' := Yaml.aset inputvarname iv new'
          let inScat ← pyInStr inputvarname scattervars
          if inScat then do
            let sv' ← scatterAppend sv0 inputvarname
            pure (new'', sv')
          else
            pure (new'', sv0)
        else
          pure (new', sv0)
      | none => pure (new', sv0)
    else
      pure (new1, sv0)
  -- distribute scatter across dependencies (ast.py 601-616), testing the
  -- (possibly mutated) current binding for a `/`
  let doScatter ←
    if scattervars.truthy then
      match subval1 with
      | .str v => pure (hasSlash v.data)
      | .map mm =>
        match Yaml.alookup "source" mm with
        | some (.str s) => pure (hasSlash s.data)
        | some _ => Except.error "TypeError: in"
        | none => Except.error "KeyError: source"
      | _ => pure false
    else
      pure false
  if doScatter then do
    let sv3 ← scatterAppendDedup sv2 subinputkey
    let sv4 := Yaml.aset "scatterMethod" (Yaml.str "dotproduct") sv3
    pure (new2, sv4, some src)
  else
    pure (new2, sv2, some src)

/-- The per-substep body of `inline_subworkflow_cwl` (ast.py lines
557-629): rewrite every input binding, overwrite `in`, strip a leading
`../` from `run`, and prepend the parent step-key to the substep name. -/
def process_substep (fuel : Nat) (step_key : String)
    (inputs : List (String × Yaml)) (scattervars : Yaml) (substepkey : String)
    (substepval : Yaml) (src0 : Option Yaml) :
    Except String (String × Yaml × Option Yaml) := do
  let svm ← match substepval with
    | .map m => pure m
    | _ => Except.error "TypeError: substep"
  let substep_inputs ← match Yaml.alookup "in" svm with
    | some (.map m) => pure m
    | some _ => Except.error "TypeError: in"
    | none => Except.error "KeyError: in"
  let res ← substep_inputs.foldlM
    (fun st kv => process_subinput fuel step_key inputs scattervars st kv.1 kv.2)
    (([], svm, src0) :
      List (String × Yaml) × List (String × Yaml) × Option Yaml)
  let (new, svm1, src1) := res
  let svm2 := Yaml.aset "in" (.map new) svm1
  let runstr ← match Yaml.alookup "run" svm2 with
    | some (.str s) => pure s
    | some _ => Except.error "TypeError: run"
    | none => Except.error "KeyError: run"
  let svm3 := if prefixAt ['.', '.', '/'] runstr.data then
      Yaml.aset "run" (Yaml.str ⟨runstr.data.drop 3⟩) svm2
    else svm2
  pure (step_key ++ "___" ++ substepkey, .map svm3, src1)

/-- The per-parent-step body of `inline_subworkflow_cwl` (ast.py lines
548-637): splice the compiled subworkflow matching the step key, or copy
the step unchanged. -/
def process_parent_step (fuel : Nat) (subkeysdict steps : List (String × Yaml))
    (state : List (String × Yaml) × Nat × Option Yaml) (step_key : String) :
    Except String (List (String × Yaml) × Nat × Option Yaml) := do
  let (steps_new, count, src0) := state
  if Yaml.ahas step_key subkeysdict then do
    let stepv ← match Yaml.alookup step_key steps with
      | some v => pure v
      | none => Except.error "KeyError: step"
    let inputs ← match stepv.get? "in" with
      | some (.map m) => pure m
      | some _ => Except.error "TypeError: in"
      | none => Except.error "KeyError: in"
    let scattervars := stepv.getD "scatter" (.list [])
    let sub_cwl_tree ← match Yaml.alookup step_key subkeysdict with
      | some v => pure v
      | none => Except.error "KeyError: subkeysdict"
    let sub_steps ← match sub_cwl_tree.get? "steps" with
      | some (.map m) => pure m
      | some _ => Except.error "TypeError: steps"
      | none => Except.error "KeyError: steps"
    let res ← sub_steps.foldlM (fun st kv => do
        let (acc, src) := st
        let r ← process_substep fuel step_key inputs scattervars kv.1 kv.2 src
        pure (Yaml.aset r.1 r.2.1 acc, r.2.2))
      (([], src0) : List (String × Yaml) × Option Yaml)
    let steps_new2 := res.1.foldl (fun acc kv => Yaml.aset kv.1 kv.2 acc) steps_new
    pure (steps_new2, count + 1, res.2)
  else do
    let stepv ← match Yaml.alookup step_key steps with
      | some v => pure v
      | none => Except.error "KeyError: step"
    pure (Yaml.aset step_key stepv steps_new, count, src0)

/-- `inline_subworkflow_cwl` (ast.py lines 516-666): post-order splice of
every compiled subworkflow graph into the root graph, then flatten cross
step references in the parent's outputs (dropping `output_all` outputs). -/
def inline_subworkflow_cwl : Nat → RoseTree → Except String RoseTree
  | 0, _ => Except.error "fuel exhausted"
  | fuel + 1, .node node_data sub0 =>
    match sub0 with
    | [] => pure (.node node_data [])
    | s0 :: srest => do
      let sub_trees ← (s0 :: srest).mapM (inline_subworkflow_cwl fuel)
      let cwl_tree := node_data.compiled_cwl
      let steps ← match cwl_tree.get? "steps" with
        | some (.map m) => pure m
        | some _ => Except.error "TypeError: steps"
        | none => Except.error "KeyError: steps"
      let steps_keys := steps.map Prod.fst
      let subkeysdict ← sub_trees.foldlM (fun acc t =>
          match t.data.namespaces.getLast? with
          | some last => pure (Yaml.aset last t.data.compiled_cwl acc)
          | none => Except.error "IndexError: namespaces")
        ([] : List (String × Yaml))
      let res ← steps_keys.foldlM (process_parent_step fuel subkeysdict steps)
        (([], 0, none) : List (String × Yaml) × Nat × Option Yaml)
      -- a count mismatch only prints a warning (ast.py 639-640)
      let cwl1 ← setKeyTop cwl_tree "steps" (.map res.1)
      let outputs ← match cwl1.get? "outputs" with
        | some (.map m) => pure m
        | some _ => Except.error "TypeError: outputs"
        | none => Except.error "KeyError: outputs"
      let outputs_new ← outputs.foldlM (fun acc kv => do
          if containsSub "output_all".data kv.1.data then
            pure acc
          else
            match kv.2 with
            | .map om =>
              match Yaml.alookup "outputSource" om with
              | some (.str s) => pure (Yaml.aset kv.1
                  (.map (Yaml.aset "outputSource"
                    (Yaml.str (move_slash_last s)) om)) acc)
              | some _ => Except.error "TypeError: outputSource"
              | none => Except.error "KeyError: outputSource"
            | _ => Except.error "TypeError: outval")
        ([] : List (String × Yaml))
      let cwl2 ← setKeyTop cwl1 "outputs" (.map outputs_new)
      pure (.node ⟨node_data.namespaces, cwl2⟩ [])

/-- Spec scenario 5, child graph: step `c0` binding `in.a = "a"`. -/
def c2child : RoseTree := .node ⟨["sub"],
  .map [("steps", .map [("c0", .map [("in", .map [("a", .str "a")]),
                                     ("run", .str "tool.cwl")])]),
        ("outputs", .map [])]⟩ []

/-- Spec scenario 5, parent graph: step `sub` with `in.a = "upstream/out"`
and `scatter = ["a"]`. -/
def c2parent : RoseTree := .node ⟨["root"],
  .map [("steps", .map [("sub", .map [("in", .map [("a", .str "upstream/out")]),
                                      ("scatter", .list [.str "a"]),
                                      ("run", .str "sub.cwl")])]),
        ("outputs", .map [])]⟩ [c2child]

/-- The graph `inline_subworkflow_cwl` actually produces on scenario 5. -/
def c2res : RoseTree := .node ⟨["root"],
  .map [("steps", .map [("sub___c0", .map [("in", .map [("a", .str "upstream/out")]),
                                           ("run", .str "tool.cwl")])]),
        ("outputs", .map [])]⟩ []

/-- The compiled steps mapping of a rose tree node. -/
def cwlSteps (rt : RoseTree) : Yaml := rt.data.compiled_cwl.getD "steps" (.map [])

/-- C10 input 1: the first (and only) sub-step binding is an integer,
neither a string nor a mapping. -/
def c10aParent : RoseTree := .node ⟨["root"],
  .map [("steps", .map [("sub", .map [("in", .map [("a", .str "up/out")]),
                                      ("run", .str "s.cwl")])]),
        ("outputs", .map [])]⟩
  [.node ⟨["sub"],
    .map [("steps", .map [("c0", .map [("in", .map [("q", .int 42)]),
                                       ("run", .str "tool.cwl")])]),
          ("outputs", .map [])]⟩ []]

/-- C10 input 2: an integer binding `q` follows the string binding
`p = "a"`, and `"a"` is a formal parameter of the parent step. -/
def c10bParent : RoseTree := .node ⟨["root"],
  .map [("steps", .map [("sub", .map [("in", .map [("a", .str "up/out")]),
                                      ("run", .str "s.cwl")])]),
        ("outputs", .map [])]⟩
  [.node ⟨["sub"],
    .map [("steps", .map [("c0", .map [("in", .map [("p", .str "a"),
                                                    ("q", .int 42)]),
                                       ("run", .str "tool.cwl")])]),
          ("outputs", .map [])]⟩ []]

/-- The graph produced on C10 input 2: the stale `source` from `p` makes
the integer binding `q` inherit the parent's value for `a`. -/
def c10bRes : RoseTree := .node ⟨["root"],
  .map [("steps", .map [("sub___c0", .map [("in", .map [("p", .str "up/out"),
                                                        ("q", .str "up/out")]),
                                           ("run", .str "tool.cwl")])]),
        ("outputs", .map [])]⟩ []

/-- C6 input: a child binding `in.a = "x/y/z"` (two slashes) that does not
name a formal parameter of the parent step. -/
def c6Parent : RoseTree := .node ⟨["root"],
  .map [("steps", .map [("sub", .map [("in", .map [("b", .str "w")]),
                                      ("run", .str "s.cwl")])]),
        ("outputs", .map [])]⟩
  [.node ⟨["sub"],
    .map [("steps", .map [("c0", .map [("in", .map [("a", .str "x/y/z")]),
                                       ("run", .str "tool.cwl")])]),
          ("outputs", .map [])]⟩ []]

/-- The graph produced on the C6 input: the binding is prefixed raw, with
its embedded slashes left unflattened. -/
def c6Res : RoseTree := .node ⟨["root"],
  .map [("steps", .map [("sub___c0", .map [("in", .map [("a", .str "sub___x/y/z")]),
                                           ("run", .str "tool.cwl")])]),
        ("outputs", .map [])]⟩ []

/-- C3 input: a body declaring input `x` consumed via `~x`. -/
def c3Body : Yaml := .map [("inputs", .map [("x", .null)]),
  ("steps", .list [.map [("t", .map [("in", .map [("y", .str "~x")])])]])]

/-- C3 input: parent args supplying `x`. -/
def c3Pa : Yaml := .map [("in", .map [("x", .str "5")])]

/-- C5 input: a tool step whose own argument mapping carries a `wic` key. -/
def c5Tree : YamlTree := ⟨⟨"root", "global"⟩,
  .map [("steps", .list [.map [("tool1",
    .map [("wic", .map [("x", .int 1)]), ("arg", .int 2)])]])]⟩

/-- The document `merge_yml_trees` produces on the C5 input. -/
def c5Res : YamlTree := ⟨⟨"root", "global"⟩,
  .map [("steps", .list [.map [("tool1",
    .map [("wic", .map [("x", .int 1)]), ("arg", .int 2)])]]),
        ("wic", .map [])]⟩

/-- Element access inside a YAML list (Python `l[i]`, `null` fallback). -/
def yamlListGet (y : Yaml) (i : Nat) : Yaml :=
  match y with
  | .list l => (l.get? i).getD .null
  | _ => .null

theorem split3Aux_fuel : ∀ L f1 f2 cs, cs.length = L → L ≤ f1 → L ≤ f2 →
    split3Aux f1 cs = split3Aux f2 cs := by
  intro L
  induction L using Nat.strong_induction_on with
  | _ L ih =>
    intro f1 f2 cs hL h1 h2
    cases cs with
    | nil =>
      cases f1 <;> cases f2 <;> rfl
    | cons c rest =>
      simp at hL
      cases f1 with
      | zero => omega
      | succ g1 =>
        cases f2 with
        | zero => omega
        | succ g2 =>
          show (if c = '_' ∧ rest.take 2 = ['_', '_'] then _ else _)
            = (if c = '_' ∧ rest.take 2 = ['_', '_'] then _ else _)
          by_cases h : c = '_' ∧ rest.take 2 = ['_', '_']
          · rw [if_pos h, if_pos h]
            have hd : (rest.drop 2).length ≤ rest.length := by
              simp [List.length_drop]
            rw [ih (rest.drop 2).length (by omega) g1 g2 (rest.drop 2) rfl
              (by omega) (by omega)]
          · rw [if_neg h, if_neg h]
            rw [ih rest.length (by omega) g1 g2 rest rfl (by omega) (by omega)]

theorem split3_nil : split3 [] = [[]] := rfl

theorem split3_cons_eq (c : Char) (rest : List Char) :
    split3 (c :: rest) =
      if c = '_' ∧ rest.take 2 = ['_', '_'] then
        [] :: split3 (rest.drop 2)
      else
        (c :: (split3 rest).headD []) :: (split3 rest).tail := by
  show (if c = '_' ∧ rest.take 2 = ['_', '_'] then
      [] :: split3Aux rest.length (rest.drop 2)
    else
      (c :: (split3Aux rest.length rest).headD [])
        :: (split3Aux rest.length rest).tail) = _
  have hd : (rest.drop 2).length ≤ rest.length := by
    simp [List.length_drop]
  by_cases h : c = '_' ∧ rest.take 2 = ['_', '_']
  · rw [if_pos h, if_pos h, split3,
      split3Aux_fuel (rest.drop 2).length rest.length (rest.drop 2).length
        (rest.drop 2) rfl (by omega) (by omega)]
  · rw [if_neg h, if_neg h, split3]

/-- Induction along the leftmost-match recursion of `split3`. -/
theorem split3_induction (P : List Char → Prop) (h1 : P [])
    (h2 : ∀ c rest, (c = '_' ∧ rest.take 2 = ['_', '_']) → P (rest.drop 2) →
      P (c :: rest))
    (h3 : ∀ c rest, ¬ (c = '_' ∧ rest.take 2 = ['_', '_']) → P rest →
      P (c :: rest)) :
    ∀ cs, P cs := by
  have key : ∀ L cs, cs.length = L → P cs := by
    intro L
    induction L using Nat.strong_induction_on with
    | _ L ih =>
      intro cs hL
      cases cs with
      | nil => exact h1
      | cons c rest =>
        simp at hL
        by_cases h : c = '_' ∧ rest.take 2 = ['_', '_']
        · refine h2 c rest h (ih (rest.drop 2).length ?_ _ rfl)
          have hd : (rest.drop 2).length ≤ rest.length := by
            simp [List.length_drop]
          omega
        · exact h3 c rest h (ih rest.length (by omega) rest rfl)
  intro cs
  exact key cs.length cs rfl

theorem split3_ne_nil (cs : List Char) : split3 cs ≠ [] := by
  induction cs using split3_induction with
  | h1 => simp [split3_nil, split3_cons_eq]
  | h2 c rest h ih => simp [split3_nil, split3_cons_eq, h]
  | h3 c rest h ih => simp [split3_nil, split3_cons_eq, h]

theorem split3_headD_prefix (cs : List Char) : (split3 cs).headD [] <+: cs := by
  induction cs using split3_induction with
  | h1 => simp [split3_nil, split3_cons_eq]
  | h2 c rest h ih => simp [split3_nil, split3_cons_eq, h]
  | h3 c rest h ih =>
    simp only [split3_cons_eq, if_neg h]
    obtain ⟨p, ps, hr⟩ : ∃ p ps, split3 rest = p :: ps := by
      cases hsr : split3 rest with
      | nil => exact absurd hsr (split3_ne_nil rest)
      | cons p ps => exact ⟨p, ps, rfl⟩
    rw [hr] at ih ⊢
    simpa using ih

theorem take2_shape (r : List Char) (h : r.take 2 = ['_', '_']) :
    r = '_' :: '_' :: r.drop 2 := by
  cases r with
  | nil => simp at h
  | cons a r' =>
    cases r' with
    | nil => simp at h
    | cons b r'' =>
      simp [List.take] at h
      simp [h.1, h.2, List.drop]

theorem split3_nil_head (rest : List Char) (ps : List (List Char))
    (h : split3 rest = [] :: ps) (hps : ps ≠ []) :
    rest.take 2 = [] ∨ ∃ t, rest = '_' :: '_' :: '_' :: t := by
  cases rest with
  | nil => simp [split3_nil, split3_cons_eq] at h; exact absurd h hps
  | cons c r =>
    by_cases hc : c = '_' ∧ r.take 2 = ['_', '_']
    · right
      refine ⟨r.drop 2, ?_⟩
      rw [hc.1]
      conv_lhs => rw [take2_shape r hc.2]
    · exfalso
      simp only [split3_cons_eq, if_neg hc] at h
      exact List.noConfusion (List.cons.injEq _ _ _ _ ▸ h).1

theorem split3_good (cs : List Char) : goodParts (split3 cs) := by
  induction cs using split3_induction with
  | h1 =>
    simp only [split3_nil]
    exact ⟨rfl, fun h => absurd rfl h, trivial⟩
  | h2 c rest h ih =>
    simp only [split3_cons_eq, if_pos h]
    exact ⟨rfl, fun _ => rfl, ih⟩
  | h3 c rest h ih =>
    simp only [split3_cons_eq, if_neg h]
    obtain ⟨p, ps, hr⟩ : ∃ p ps, split3 rest = p :: ps := by
      cases hsr : split3 rest with
      | nil => exact absurd hsr (split3_ne_nil rest)
      | cons p ps => exact ⟨p, ps, rfl⟩
    have hpre : p <+: rest := by
      have := split3_headD_prefix rest
      rwa [hr, List.headD_cons] at this
    rw [hr]
    rw [hr] at ih
    obtain ⟨ih1, ih2, ih3⟩ := ih
    simp only [List.headD_cons, List.tail_cons]
    refine ⟨?_, ?_, ih3⟩
    · -- hasSep3 (c :: p) = false
      simp only [hasSep3, Bool.or_eq_false_iff, ih1, and_true]
      by_cases hc1 : c = '_'
      · by_cases hc2 : p.take 2 = ['_', '_']
        · -- p.take 2 = ['_','_'] forces rest.take 2 = ['_','_'], contradicting h
          exfalso
          apply h
          refine ⟨hc1, ?_⟩
          obtain ⟨t, ht⟩ := hpre
          have hlen : 2 ≤ p.length := by
            by_contra hl
            push_neg at hl
            have hp2 : p.take 2 = p := List.take_of_length_le (by omega)
            rw [hp2] at hc2
            subst hc2
            simp at hl
          rw [← ht, List.take_append_eq_append_take,
            Nat.sub_eq_zero_of_le hlen, List.take_zero, List.append_nil, hc2]
        · simp [hc2]
      · simp [hc1]
    · intro hps
      cases p with
      | nil =>
        -- rest begins with the separator, so the guard at `c` forces c ≠ '_'
        rcases split3_nil_head rest ps hr hps with htk | ⟨t, ht⟩
        · -- rest.take 2 = [] would make split3 rest a singleton; contradiction
          exfalso
          have : rest = [] := by
            cases rest with
            | nil => rfl
            | cons a r => simp [List.take] at htk
          rw [this] at hr
          simp [split3_nil, split3_cons_eq] at hr
          exact hps hr
        · have hc : ¬ c = '_' := by
            intro hcc
            exact h ⟨hcc, by rw [ht]; rfl⟩
          simp [endsUnd, List.getLastD]
          exact hc
      | cons q qs =>
        have := ih2 hps
        simpa [endsUnd, List.getLastD_cons] using this

theorem split3_eq_self (p : List Char) (h : hasSep3 p = false) : split3 p = [p] := by
  induction p with
  | nil => simp [split3_nil, split3_cons_eq]
  | cons c t ih =>
    simp only [hasSep3, Bool.or_eq_false_iff, Bool.and_eq_false_iff] at h
    have hcond : ¬ (c = '_' ∧ t.take 2 = ['_', '_']) := by
      intro hh
      rcases h.1 with h1 | h1
      · rw [decide_eq_false_iff_not] at h1
        exact h1 hh.1
      · rw [decide_eq_false_iff_not] at h1
        exact h1 hh.2
    rw [split3_cons_eq, if_neg hcond, ih h.2]
    rfl

theorem split3_sep_append (a rest : List Char) (h1 : hasSep3 a = false)
    (h2 : endsUnd a = false) :
    split3 (a ++ '_' :: '_' :: '_' :: rest) = a :: split3 rest := by
  induction a with
  | nil =>
    rw [List.nil_append, split3_cons_eq]
    rw [if_pos (by simp [List.take])]
    simp [List.drop]
  | cons c a' ih =>
    simp only [hasSep3, Bool.or_eq_false_iff, Bool.and_eq_false_iff] at h1
    -- the leftmost-match guard cannot fire at c
    have hcond : ¬ (c = '_' ∧ (a' ++ '_' :: '_' :: '_' :: rest).take 2 = ['_', '_']) := by
      intro hh
      obtain ⟨hc, htk⟩ := hh
      cases a' with
      | nil =>
        -- a = [c] ends in c, so c ≠ '_'
        simp [endsUnd, List.getLastD] at h2
        exact h2 hc
      | cons d a'' =>
        cases a'' with
        | nil =>
          -- a = [c, d] ends in d; the take forces d = '_'
          simp [List.take] at htk
          simp [endsUnd, List.getLastD] at h2
          exact h2 htk
        | cons e a''' =>
          -- take 2 = [d, e]; with c = '_' this is the separator inside a
          simp [List.take] at htk
          rcases h1.1 with hbad | hbad
          · rw [decide_eq_false_iff_not] at hbad
            exact hbad hc
          · rw [decide_eq_false_iff_not] at hbad
            apply hbad
            simp [List.take, htk.1, htk.2]
    have h2' : endsUnd a' = false := by
      cases a' with
      | nil => rfl
      | cons d a'' => simpa [endsUnd, List.getLastD_cons] using h2
    rw [List.cons_append, split3_cons_eq]
    rw [if_neg hcond]
    rw [ih h1.2 h2']
    rfl

theorem join3_single (p : List Char) : join3 [p] = p := by
  simp [join3]

theorem join3_cons_of_ne (p : List Char) (ps : List (List Char)) (h : ps ≠ []) :
    join3 (p :: ps) = p ++ '_' :: '_' :: '_' :: join3 ps := by
  cases ps with
  | nil => exact absurd rfl h
  | cons q qs => simp [join3]

theorem join3_split3 (cs : List Char) : join3 (split3 cs) = cs := by
  induction cs using split3_induction with
  | h1 => simp [split3_nil, join3]
  | h2 c rest h ih =>
    simp only [split3_cons_eq, if_pos h]
    rw [join3_cons_of_ne _ _ (split3_ne_nil _), ih, List.nil_append]
    rw [h.1]
    conv_rhs => rw [take2_shape rest h.2]
  | h3 c rest h ih =>
    simp only [split3_cons_eq, if_neg h]
    obtain ⟨p, ps, hr⟩ : ∃ p ps, split3 rest = p :: ps := by
      cases hsr : split3 rest with
      | nil => exact absurd hsr (split3_ne_nil rest)
      | cons p ps => exact ⟨p, ps, rfl⟩
    rw [hr] at ih
    rw [hr]
    simp only [List.headD_cons, List.tail_cons]
    cases ps with
    | nil =>
      rw [join3_single] at ih
      rw [join3_single, ih]
    | cons q qs =>
      rw [join3_cons_of_ne _ _ (by simp)] at ih
      rw [join3_cons_of_ne _ _ (by simp), List.cons_append, ih]

theorem split3_join3 (parts : List (List Char)) (hg : goodParts parts)
    (hne : parts ≠ []) : split3 (join3 parts) = parts := by
  induction parts with
  | nil => exact absurd rfl hne
  | cons p ps ih =>
    obtain ⟨hg1, hg2, hg3⟩ := hg
    cases ps with
    | nil =>
      rw [join3_single]
      exact split3_eq_self p hg1
    | cons q qs =>
      rw [join3_cons_of_ne _ _ (by simp)]
      rw [split3_sep_append p _ hg1 (hg2 (by simp))]
      rw [ih hg3 (by simp)]

theorem replSlash_append (a b : List Char) :
    replSlash (a ++ b) = replSlash a ++ replSlash b := by
  simp [replSlash]

theorem replSlash_no_slash (cs : List Char) : hasSlash (replSlash cs) = false := by
  induction cs with
  | nil => rfl
  | cons c t ih =>
    by_cases hc : c = '/'
    · simp only [replSlash, List.flatMap_cons, if_pos hc] at ih ⊢
      simpa [hasSlash] using ih
    · simp only [replSlash, List.flatMap_cons, if_neg hc] at ih ⊢
      simp only [List.singleton_append, hasSlash]
      rw [Bool.or_eq_false_iff]
      exact ⟨by simpa using hc, ih⟩

theorem replSlash_eq_self (cs : List Char) (h : hasSlash cs = false) :
    replSlash cs = cs := by
  induction cs with
  | nil => rfl
  | cons c t ih =>
    simp only [hasSlash, Bool.or_eq_false_iff] at h
    have hc : ¬ c = '/' := by
      have := h.1
      simpa using this
    simp only [replSlash, List.flatMap_cons, if_neg hc, List.singleton_append]
    have := ih h.2
    simp only [replSlash] at this
    rw [this]

theorem mem_join3 (parts : List (List Char)) (p : List Char) (c : Char)
    (hp : p ∈ parts) (hc : c ∈ p) : c ∈ join3 parts := by
  induction parts with
  | nil => simp at hp
  | cons q qs ih =>
    rcases List.mem_cons.mp hp with h | h
    · subst h
      cases qs with
      | nil => simpa [join3_single] using hc
      | cons r rs =>
        rw [join3_cons_of_ne _ _ (by simp)]
        exact List.mem_append_left _ hc
    · cases qs with
      | nil => simp at h
      | cons r rs =>
        rw [join3_cons_of_ne _ _ (by simp)]
        refine List.mem_append_right _ ?_
        exact List.mem_cons_of_mem _ (List.mem_cons_of_mem _
          (List.mem_cons_of_mem _ (ih h)))

theorem mem_of_mem_split3 (cs p : List Char) (c : Char)
    (hp : p ∈ split3 cs) (hc : c ∈ p) : c ∈ cs := by
  have h := mem_join3 (split3 cs) p c hp hc
  rwa [join3_split3] at h

theorem hasSlash_append (a b : List Char) :
    hasSlash (a ++ b) = (hasSlash a || hasSlash b) := by
  induction a with
  | nil => simp [hasSlash]
  | cons c t ih => simp [hasSlash, ih, Bool.or_assoc]

theorem hasSlash_iff (p : List Char) : hasSlash p = true ↔ '/' ∈ p := by
  induction p with
  | nil => simp [hasSlash]
  | cons c t ih =>
    simp only [hasSlash, Bool.or_eq_true, decide_eq_true_eq, ih, List.mem_cons]
    constructor
    · rintro (h | h)
      · exact Or.inl h.symm
      · exact Or.inr h
    · rintro (h | h)
      · exact Or.inl h.symm
      · exact Or.inr h

theorem split3_no_slash (cs p : List Char) (h : hasSlash cs = false)
    (hp : p ∈ split3 cs) : hasSlash p = false := by
  by_contra hps
  rw [Bool.not_eq_false, hasSlash_iff] at hps
  have : '/' ∈ cs := mem_of_mem_split3 cs p '/' hp hps
  rw [← hasSlash_iff] at this
  rw [this] at h
  exact Bool.noConfusion h

theorem goodParts_no_sep (parts : List (List Char)) (hg : goodParts parts) :
    ∀ p ∈ parts, hasSep3 p = false := by
  induction parts with
  | nil => intro p hp; simp at hp
  | cons q qs ih =>
    intro p hp
    rcases List.mem_cons.mp hp with h | h
    · subst h; exact hg.1
    · exact ih hg.2.2 p h

theorem join3_no_slash (parts : List (List Char))
    (h : ∀ p ∈ parts, hasSlash p = false) : hasSlash (join3 parts) = false := by
  induction parts with
  | nil => rfl
  | cons q qs ih =>
    cases qs with
    | nil => rw [join3_single]; exact h q (by simp)
    | cons r rs =>
      rw [join3_cons_of_ne _ _ (by simp), hasSlash_append, Bool.or_eq_false_iff]
      refine ⟨h q (by simp), ?_⟩
      show hasSlash ('_' :: '_' :: '_' :: join3 (r :: rs)) = false
      have hrec := ih (fun p hp => h p (List.mem_cons_of_mem _ hp))
      simp [hasSlash, hrec]

theorem join3_append_single (A : List (List Char)) (z : List Char) (h : A ≠ []) :
    join3 (A ++ [z]) = join3 A ++ '_' :: '_' :: '_' :: z := by
  induction A with
  | nil => exact absurd rfl h
  | cons q qs ih =>
    cases qs with
    | nil =>
      rw [List.cons_append, List.nil_append,
        join3_cons_of_ne _ _ (by simp), join3_single, join3_single]
    | cons r rs =>
      rw [List.cons_append,
        join3_cons_of_ne _ _ (by simp), join3_cons_of_ne _ _ (by simp)]
      rw [ih (by simp)]
      simp

theorem replSlash_cons_slash (z : List Char) (h : hasSlash z = false) :
    replSlash ('/' :: z) = '_' :: '_' :: '_' :: z := by
  have : replSlash ('/' :: z) = ['_', '_', '_'] ++ replSlash z := by
    simp [replSlash]
  rw [this, replSlash_eq_self _ h]
  rfl

theorem moveSlashLastChars_idem (cs : List Char) :
    moveSlashLastChars (moveSlashLastChars cs) = moveSlashLastChars cs := by
  by_cases h : hasSlash cs = true
  · rcases List.eq_nil_or_concat (split3 (replSlash cs)) with hnil | ⟨A, z, hpz⟩
    · exact absurd hnil (split3_ne_nil _)
    rw [List.concat_eq_append] at hpz
    have hgood : goodParts (split3 (replSlash cs)) := split3_good _
    have hcs' : hasSlash (replSlash cs) = false := replSlash_no_slash cs
    have hmsl : moveSlashLastChars cs = join3 A ++ '/' :: z := by
      rw [moveSlashLastChars, if_pos h, hpz, List.dropLast_concat, List.getLastD_concat]
    have hzsl : hasSlash z = false :=
      split3_no_slash _ _ hcs' (by rw [hpz]; simp)
    have hAsl : hasSlash (join3 A) = false :=
      join3_no_slash _ (fun p hp => split3_no_slash _ _ hcs' (by rw [hpz]; simp [hp]))
    have hzsep : hasSep3 z = false :=
      goodParts_no_sep _ hgood _ (by rw [hpz]; simp)
    rw [hmsl]
    have hsl2 : hasSlash (join3 A ++ '/' :: z) = true := by
      rw [hasSlash_append]
      simp [hasSlash]
    rw [moveSlashLastChars, if_pos hsl2]
    have hrepl : replSlash (join3 A ++ '/' :: z) = join3 A ++ '_' :: '_' :: '_' :: z := by
      rw [replSlash_append, replSlash_eq_self _ hAsl, replSlash_cons_slash z hzsl]
    rw [hrepl]
    cases A with
    | nil =>
      show join3 (split3 ([] ++ '_' :: '_' :: '_' :: z)).dropLast ++
        '/' :: (split3 ([] ++ '_' :: '_' :: '_' :: z)).getLastD [] = _
      rw [split3_sep_append [] z rfl rfl, split3_eq_self z hzsep]
      rfl
    | cons q qs =>
      rw [← join3_append_single (q :: qs) z (by simp), ← hpz, join3_split3,
        hpz, List.dropLast_concat, List.getLastD_concat]
  · have h' : hasSlash cs = false := Bool.eq_false_iff.mpr h
    have e : moveSlashLastChars cs = cs := by
      rw [moveSlashLastChars, if_neg h]
    rw [e, e]

theorem moveSlashLastChars_fix (a b : List Char)
    (hsa : hasSlash a = false) (hsb : hasSlash b = false)
    (hna : hasSep3 a = false) (hea : endsUnd a = false)
    (hnb : hasSep3 b = false) :
    moveSlashLastChars (a ++ '/' :: b) = a ++ '/' :: b := by
  have hsl : hasSlash (a ++ '/' :: b) = true := by
    rw [hasSlash_append]
    simp [hasSlash]
  rw [moveSlashLastChars, if_pos hsl]
  have hrepl : replSlash (a ++ '/' :: b) = a ++ '_' :: '_' :: '_' :: b := by
    rw [replSlash_append, replSlash_eq_self _ hsa, replSlash_cons_slash b hsb]
  rw [hrepl, split3_sep_append a b hna hea, split3_eq_self b hnb]
  show join3 [a] ++ '/' :: ([a, b] : List (List Char)).getLastD [] = _
  rw [join3_single]
  rfl

theorem natToCharsAux_fuel : ∀ L f1 f2 n acc, n = L → n ≤ f1 → n ≤ f2 →
    natToCharsAux f1 n acc = natToCharsAux f2 n acc := by
  intro L
  induction L using Nat.strong_induction_on with
  | _ L ih =>
    intro f1 f2 n acc hL h1 h2
    cases n with
    | zero => cases f1 <;> cases f2 <;> rfl
    | succ m =>
      cases f1 with
      | zero => omega
      | succ g1 =>
        cases f2 with
        | zero => omega
        | succ g2 =>
          show natToCharsAux g1 ((m + 1) / 10) _ = natToCharsAux g2 ((m + 1) / 10) _
          exact ih ((m + 1) / 10) (by omega) g1 g2 _ _ rfl (by omega) (by omega)

theorem natToCharsAux_acc : ∀ L f n acc, n = L → n ≤ f →
    natToCharsAux f n acc = natToCharsAux f n [] ++ acc := by
  intro L
  induction L using Nat.strong_induction_on with
  | _ L ih =>
    intro f n acc hL hf
    cases n with
    | zero => cases f <;> rfl
    | succ m =>
      cases f with
      | zero => omega
      | succ g =>
        show natToCharsAux g ((m + 1) / 10) (digitChar10 ((m + 1) % 10) :: acc) = _
        rw [ih ((m + 1) / 10) (by omega) g _ _ rfl (by omega)]
        conv_rhs =>
          rw [show natToCharsAux (g + 1) (m + 1) ([] : List Char) =
            natToCharsAux g ((m + 1) / 10) [digitChar10 ((m + 1) % 10)] from rfl]
          rw [ih ((m + 1) / 10) (by omega) g _ _ rfl (by omega)]
        simp

theorem digitsVal_append_single (xs : List Char) (c : Char) :
    digitsVal (xs ++ [c]) = digitsVal xs * 10 + (c.toNat - 48) := by
  simp [digitsVal, List.foldl_append]

theorem digitChar10_toNat (d : Nat) (h : d < 10) : (digitChar10 d).toNat = 48 + d := by
  interval_cases d <;> decide

theorem isDig_digitChar10 (d : Nat) (h : d < 10) : isDig (digitChar10 d) = true := by
  interval_cases d <;> decide

theorem digitsVal_natToCharsAux : ∀ L f n, n = L → n ≤ f → n ≠ 0 →
    digitsVal (natToCharsAux f n []) = n := by
  intro L
  induction L using Nat.strong_induction_on with
  | _ L ih =>
    intro f n hL hf hn
    cases n with
    | zero => exact absurd rfl hn
    | succ m =>
      cases f with
      | zero => omega
      | succ g =>
        show digitsVal (natToCharsAux g ((m + 1) / 10)
          [digitChar10 ((m + 1) % 10)]) = m + 1
        rw [natToCharsAux_acc ((m + 1) / 10) g ((m + 1) / 10) _ rfl (by omega)]
        rw [digitsVal_append_single]
        rw [digitChar10_toNat _ (Nat.mod_lt _ (by omega))]
        by_cases hq : (m + 1) / 10 = 0
        · rw [hq]
          have hz : natToCharsAux g 0 ([] : List Char) = [] := by cases g <;> rfl
          rw [hz]
          have h0 : digitsVal [] = 0 := rfl
          rw [h0]
          omega
        · rw [ih ((m + 1) / 10) (by omega) g _ rfl (by omega) hq]
          omega

theorem digitsVal_natToChars (n : Nat) : digitsVal (natToChars n) = n := by
  by_cases h0 : n = 0
  · subst h0; decide
  · rw [natToChars, if_neg h0]
    exact digitsVal_natToCharsAux n n n rfl (le_refl n) h0

theorem natToChars_all_isDig (n : Nat) : ∀ c ∈ natToChars n, isDig c = true := by
  rw [natToChars]
  by_cases h0 : n = 0
  · rw [if_pos h0]
    intro c hc
    simp at hc
    subst hc
    decide
  · rw [if_neg h0]
    suffices h : ∀ L f m, m = L → m ≤ f →
        ∀ c ∈ natToCharsAux f m [], isDig c = true from
      h n n n rfl (le_refl n)
    intro L
    induction L using Nat.strong_induction_on with
    | _ L ih =>
      intro f m hL hf c hc
      cases m with
      | zero =>
        have hz : natToCharsAux f 0 ([] : List Char) = [] := by cases f <;> rfl
        rw [hz] at hc
        simp at hc
      | succ m' =>
        cases f with
        | zero => omega
        | succ g =>
          rw [show natToCharsAux (g + 1) (m' + 1) ([] : List Char) =
            natToCharsAux g ((m' + 1) / 10) [digitChar10 ((m' + 1) % 10)]
            from rfl] at hc
          rw [natToCharsAux_acc ((m' + 1) / 10) g _ _ rfl (by omega)] at hc
          rcases List.mem_append.mp hc with h | h
          · exact ih ((m' + 1) / 10) (by omega) g _ rfl (by omega) c h
          · simp at h
            subst h
            exact isDig_digitChar10 _ (Nat.mod_lt _ (by omega))

theorem natToChars_ne_nil (n : Nat) : natToChars n ≠ [] := by
  rw [natToChars]
  by_cases h0 : n = 0
  · rw [if_pos h0]
    simp
  · rw [if_neg h0]
    cases n with
    | zero => exact absurd rfl h0
    | succ m =>
      show natToCharsAux m ((m + 1) / 10) [digitChar10 ((m + 1) % 10)] ≠ []
      rw [natToCharsAux_acc ((m + 1) / 10) m _ _ rfl (by omega)]
      simp

theorem takeWhile_all_append (p : Char → Bool) (xs : List Char) (y : Char)
    (ys : List Char) (hall : ∀ c ∈ xs, p c = true) (hy : p y = false) :
    (xs ++ y :: ys).takeWhile p = xs := by
  induction xs with
  | nil => simp [List.takeWhile_cons, hy]
  | cons a as ih =>
    have ha := hall a (by simp)
    simp only [List.cons_append, List.takeWhile_cons, ha, if_true]
    rw [ih (fun c hc => hall c (by simp [hc]))]

theorem dropWhile_all_append (p : Char → Bool) (xs : List Char) (y : Char)
    (ys : List Char) (hall : ∀ c ∈ xs, p c = true) (hy : p y = false) :
    (xs ++ y :: ys).dropWhile p = y :: ys := by
  induction xs with
  | nil => simp [List.dropWhile_cons, hy]
  | cons a as ih =>
    have ha := hall a (by simp)
    simp only [List.cons_append, List.dropWhile_cons, ha, if_true]
    exact ih (fun c hc => hall c (by simp [hc]))

theorem parseMetaKeyChars_roundtrip (n : Nat) (kd : List Char) :
    parseMetaKeyChars ('(' :: (natToChars n ++ ',' :: ' ' :: (kd ++ [')'])))
      = some (n, kd) := by
  have hshape : natToChars n ++ ',' :: ' ' :: (kd ++ [')'])
      = (natToChars n ++ ',' :: ' ' :: kd) ++ [')'] := by
    simp
  rw [parseMetaKeyChars]
  rw [hshape, List.getLast?_concat, if_pos rfl, List.dropLast_concat]
  have hcomma : isDig ',' = false := by decide
  have htw : (natToChars n ++ ',' :: ' ' :: kd).takeWhile isDig = natToChars n :=
    takeWhile_all_append _ _ _ _ (natToChars_all_isDig n) hcomma
  have hdw : (natToChars n ++ ',' :: ' ' :: kd).dropWhile isDig = ',' :: ' ' :: kd :=
    dropWhile_all_append _ _ _ _ (natToChars_all_isDig n) hcomma
  rw [parseInner, htw, hdw, if_neg (natToChars_ne_nil n)]
  rw [digitsVal_natToChars]
  simp

theorem parseMetaKey_metaKey (n : Nat) (k : String) :
    parseMetaKey (metaKey n k) = some (n, k) := by
  rw [parseMetaKey, metaKey]
  rw [show (String.mk ('(' :: (natToChars n ++ ',' :: ' ' :: (k.data ++ [')'])))).data
      = '(' :: (natToChars n ++ ',' :: ' ' :: (k.data ++ [')'])) from rfl]
  rw [parseMetaKeyChars_roundtrip]
  rfl

theorem metaKey_inj (n n' : Nat) (k k' : String)
    (h : metaKey n k = metaKey n' k') : n = n' ∧ k = k' := by
  have h1 := parseMetaKey_metaKey n k
  rw [h, parseMetaKey_metaKey] at h1
  injection h1 with h2
  injection h2 with h3 h4
  exact ⟨h3.symm, h4.symm⟩

theorem bind_ok_eq {α β : Type} (x : α) (f : α → Except String β) :
    (Except.ok x >>= f) = f x := rfl

theorem bind_error_eq {α β : Type} (e : String) (f : α → Except String β) :
    ((Except.error e : Except String α) >>= f) = Except.error e := rfl

theorem bind_pure_eq {α β : Type} (x : α) (f : α → Except String β) :
    ((pure x : Except String α) >>= f) = f x := rfl

theorem alookup_mem (k : String) (v : Yaml) (m : List (String × Yaml))
    (h : Yaml.alookup k m = some v) : (k, v) ∈ m := by
  induction m with
  | nil => simp [Yaml.alookup] at h
  | cons kv rest ih =>
    obtain ⟨k', v'⟩ := kv
    rw [Yaml.alookup] at h
    by_cases hk : k' = k
    · rw [if_pos hk] at h
      injection h with h
      subst hk h
      exact List.mem_cons_self _ _
    · rw [if_neg hk] at h
      exact List.mem_cons_of_mem _ (ih h)

theorem ahas_of_mem (k : String) (v : Yaml) (m : List (String × Yaml))
    (h : (k, v) ∈ m) : Yaml.ahas k m = true := by
  induction m with
  | nil => simp at h
  | cons kv rest ih =>
    obtain ⟨k', v'⟩ := kv
    rcases List.mem_cons.mp h with h1 | h1
    · injection h1 with h1 h2
      subst h1
      simp [Yaml.ahas, Yaml.alookup]
    · rw [Yaml.ahas, Yaml.alookup]
      by_cases hk : k' = k
      · simp [hk]
      · rw [if_neg hk]
        exact ih h1

theorem ahas_iff_mem_keys (k : String) (m : List (String × Yaml)) :
    Yaml.ahas k m = true ↔ k ∈ m.map Prod.fst := by
  constructor
  · intro h
    rw [Yaml.ahas] at h
    rw [Option.isSome_iff_exists] at h
    obtain ⟨v, hv⟩ := h
    exact List.mem_map.mpr ⟨(k, v), alookup_mem k v m hv, rfl⟩
  · intro h
    obtain ⟨kv, hkv, hfst⟩ := List.mem_map.mp h
    obtain ⟨k', v'⟩ := kv
    cases hfst
    exact ahas_of_mem _ _ _ hkv

theorem mergeMapM_keys {f : (String × Yaml) → Except String (String × Yaml)}
    (hf : ∀ kv v, f kv = .ok v → v.1 = kv.1) :
    ∀ (a r : List (String × Yaml)), a.mapM f = .ok r →
      r.map Prod.fst = a.map Prod.fst := by
  intro a
  induction a with
  | nil =>
    intro r h
    rw [List.mapM_nil] at h
    injection h with h
    subst h
    rfl
  | cons kv rest ih =>
    intro r h
    rw [List.mapM_cons] at h
    cases hv : f kv with
    | error e => rw [hv, bind_error_eq] at h; exact Except.noConfusion h
    | ok v =>
      rw [hv, bind_ok_eq] at h
      cases hr : rest.mapM f with
      | error e => rw [hr, bind_error_eq] at h; exact Except.noConfusion h
      | ok r' =>
        rw [hr, bind_ok_eq] at h
        injection h with h
        subst h
        simp [ih r' hr, hf kv v hv]

theorem merge_entry_key (fuel : Nat) (b : List (String × Yaml)) :
    ∀ kv v, (fun (kv : String × Yaml) =>
      match Yaml.alookup kv.1 b with
      | some vb => do
        let v ← mergeYaml fuel kv.2 vb
        pure (kv.1, v)
      | none => pure kv) kv = .ok v → v.1 = kv.1 := by
  intro kv v h
  have h0 : (match Yaml.alookup kv.1 b with
    | some vb => do
      let v ← mergeYaml fuel kv.2 vb
      pure (kv.1, v)
    | none => pure kv) = Except.ok v := h
  cases hl : Yaml.alookup kv.1 b with
  | some vb =>
    rw [hl] at h0
    have h' : (do
        let w ← mergeYaml fuel kv.2 vb
        pure (kv.1, w) : Except String (String × Yaml)) = .ok v := h0
    cases hm : mergeYaml fuel kv.2 vb with
    | error e => rw [hm, bind_error_eq] at h'; exact Except.noConfusion h'
    | ok w =>
      rw [hm, bind_ok_eq] at h'
      injection h' with h'
      subst h'
      rfl
  | none =>
    rw [hl] at h0
    have h' : (pure kv : Except String (String × Yaml)) = .ok v := h0
    injection h' with h'
    subst h'
    rfl

theorem mergeYaml_disjoint (fuel : Nat) (a b : List (String × Yaml))
    (h : ∀ kv ∈ a, Yaml.ahas kv.1 b = false) :
    mergeYaml (fuel + 1) (.map a) (.map b) = .ok (.map (a ++ b)) := by
  have hmap : a.mapM (fun (kv : String × Yaml) =>
      match Yaml.alookup kv.1 b with
      | some vb => do
        let v ← mergeYaml fuel kv.2 vb
        pure (kv.1, v)
      | none => pure kv) = .ok a := by
    induction a with
    | nil => rfl
    | cons kv rest ih =>
      rw [List.mapM_cons]
      have hk := h kv (by simp)
      rw [Yaml.ahas] at hk
      cases hl : Yaml.alookup kv.1 b with
      | some vb => rw [hl] at hk; exact Bool.noConfusion hk
      | none =>
        have hstep : (match (none : Option Yaml) with
          | some vb => do
            let v ← mergeYaml fuel kv.2 vb
            pure (kv.1, v)
          | none => pure kv) = (pure kv : Except String (String × Yaml)) := rfl
        rw [hstep, bind_pure_eq, ih (fun x hkv => h x (List.mem_cons_of_mem _ hkv)),
          bind_ok_eq]
        rfl
  show (do
    let m ← a.mapM (fun (kv : String × Yaml) =>
      match Yaml.alookup kv.1 b with
      | some vb => do
        let v ← mergeYaml fuel kv.2 vb
        pure (kv.1, v)
      | none => pure kv)
    pure (Yaml.map (m ++ b.filter (fun (kv : String × Yaml) => !(Yaml.ahas kv.1 a))))) = _
  rw [hmap, bind_ok_eq]
  have hfilter : b.filter (fun kv => !(Yaml.ahas kv.1 a)) = b := by
    rw [List.filter_eq_self]
    intro kv hkv
    rw [Bool.not_eq_true']
    by_contra hmem
    rw [Bool.not_eq_false] at hmem
    rw [Yaml.ahas, Option.isSome_iff_exists] at hmem
    obtain ⟨va, hva⟩ := hmem
    have hb := h (kv.1, va) (alookup_mem _ _ _ hva)
    obtain ⟨k', v'⟩ := kv
    have ht := ahas_of_mem k' v' b hkv
    rw [hb] at ht
    exact Bool.noConfusion ht
  rw [hfilter]
  rfl

theorem ahas_append (k : String) (x y : List (String × Yaml)) :
    Yaml.ahas k (x ++ y) = (Yaml.ahas k x || Yaml.ahas k y) := by
  induction x with
  | nil => simp [Yaml.ahas, Yaml.alookup]
  | cons kv rest ih =>
    obtain ⟨k', v'⟩ := kv
    by_cases hk : k' = k
    · simp [Yaml.ahas, Yaml.alookup, hk]
    · simp only [List.cons_append, Yaml.ahas, Yaml.alookup, if_neg hk]
      exact ih

theorem mergeYaml_no_key (fuel : Nat) (a b : List (String × Yaml)) (y : Yaml)
    (k : String) (hok : mergeYaml (fuel + 1) (.map a) (.map b) = .ok y)
    (ha : Yaml.ahas k a = false) (hb : Yaml.ahas k b = false) :
    ∃ r, y = .map r ∧ Yaml.ahas k r = false := by
  have hok' : (do
    let m ← a.mapM (fun (kv : String × Yaml) =>
      match Yaml.alookup kv.1 b with
      | some vb => do
        let v ← mergeYaml fuel kv.2 vb
        pure (kv.1, v)
      | none => pure kv)
    pure (Yaml.map (m ++ b.filter (fun (kv : String × Yaml) => !(Yaml.ahas kv.1 a))))) = .ok y := hok
  cases hm : a.mapM (fun (kv : String × Yaml) =>
      match Yaml.alookup kv.1 b with
      | some vb => do
        let v ← mergeYaml fuel kv.2 vb
        pure (kv.1, v)
      | none => pure kv) with
  | error e => rw [hm, bind_error_eq] at hok'; exact Except.noConfusion hok'
  | ok m =>
    rw [hm, bind_ok_eq] at hok'
    injection hok' with hok'
    refine ⟨_, hok'.symm, ?_⟩
    rw [ahas_append, Bool.or_eq_false_iff]
    constructor
    · by_contra hmm
      rw [Bool.not_eq_false, ahas_iff_mem_keys,
        mergeMapM_keys (merge_entry_key fuel b) a m hm,
        ← ahas_iff_mem_keys, ha] at hmm
      exact Bool.noConfusion hmm
    · by_contra hmm
      rw [Bool.not_eq_false, ahas_iff_mem_keys] at hmm
      obtain ⟨kv, hkv, hfst⟩ := List.mem_map.mp hmm
      have hkb : kv ∈ b := List.mem_of_mem_filter hkv
      obtain ⟨k', v'⟩ := kv
      cases hfst
      have ht := ahas_of_mem k' v' b hkb
      rw [hb] at ht
      exact Bool.noConfusion ht

/-- C2 counterexample: on the spec's own scenario-5 input the code performs
the substitution and the splice, but attaches no scatter annotation at all,
because the child's binding `"a"` contains no `/`; in particular
`scatterMethod` is absent, refuting `scatterMethod == "dotproduct"`. -/
theorem c2_counterexample :
    inline_subworkflow_cwl 5 c2parent = Except.ok c2res ∧
    ((cwlSteps c2res).getD "sub___c0" (.map [])).get? "scatterMethod" = none ∧
    ((cwlSteps c2res).getD "sub___c0" (.map [])).get? "scatter" = none := by
  refine ⟨?_, rfl, rfl⟩
  rfl

/-- C2 (amended): on the scenario-5 input, step `sub___c0` exists with
`in.a` substituted to `upstream/out` (not re-prefixed) and step `sub` is
gone; but, the child's binding `"a"` containing no `/`, the
scatter-distribution rule does not fire, so `sub___c0` carries neither
`scatter` nor `scatterMethod`. -/
theorem c2_amended :
    inline_subworkflow_cwl 5 c2parent = Except.ok c2res ∧
    ((cwlSteps c2res).get? "sub___c0").isSome = true ∧
    (((cwlSteps c2res).getD "sub___c0" (.map [])).getD "in" (.map [])).get? "a"
      = some (.str "upstream/out") ∧
    (cwlSteps c2res).get? "sub" = none ∧
    ((cwlSteps c2res).getD "sub___c0" (.map [])).get? "scatter" = none ∧
    ((cwlSteps c2res).getD "sub___c0" (.map [])).get? "scatterMethod" = none := by
  refine ⟨?_, rfl, rfl, rfl, rfl, rfl⟩
  rfl

/-- C10: the formal-parameter test `source in inputs` reads a Python local
that is assigned only in the string and mapping branches: a first binding
that is neither (an integer) aborts with an unbound-variable error, and an
integer binding that follows a string binding silently reuses the previous
binding's `source` — here `q = 42` is overwritten with the parent's value
for `a` because `p`'s source `"a"` is still in scope. -/
theorem c10_unbound_source :
    inline_subworkflow_cwl 5 c10aParent
      = Except.error "UnboundLocalError: source" ∧
    inline_subworkflow_cwl 5 c10bParent = Except.ok c10bRes ∧
    (((cwlSteps c10bRes).getD "sub___c0" (.map [])).getD "in" (.map [])).get? "q"
      = some (.str "up/out") := by
  refine ⟨?_, ?_, rfl⟩ <;> rfl

/-- C6 counterexample: for the non-formal string binding `"x/y/z"` the new
binding is the parent step-key prefixed onto the raw value
(`sub___x/y/z`), not onto its `move_slash_last` flattening
(`sub___x___y/z`), refuting the claim for string values. -/
theorem c6_counterexample :
    inline_subworkflow_cwl 5 c6Parent = Except.ok c6Res ∧
    (((cwlSteps c6Res).getD "sub___c0" (.map [])).getD "in" (.map [])).get? "a"
      = some (.str "sub___x/y/z") ∧
    "sub___x/y/z" ≠ "sub" ++ "___" ++ move_slash_last "x/y/z" := by
  refine ⟨?_, rfl, by decide⟩
  rfl

/-- C3 counterexample: with parentargs supplying `in.x`, the first
application deletes the `inputs` block, so the second application fails
with the unknown-formal-parameter error instead of being the identity;
`apply_args` is not idempotent as claimed. -/
theorem c3_counterexample :
    (apply_args c3Body c3Pa >>= fun b => apply_args b c3Pa)
      ≠ apply_args c3Body c3Pa := by
  decide

/-- C5 counterexample: a tool step whose own argument mapping carries a
top-level `wic` key keeps it through `merge_yml_trees` (only the
parent-provided per-step block is stripped), refuting the claim that no
tool step's argument mapping contains `wic` after the merge. -/
theorem c5_counterexample :
    merge_yml_trees 5 c5Tree (.map [("wic", .map [])]) ["tool1"]
      = Except.ok c5Res ∧
    ((yamlListGet (c5Res.tree.getD "steps" (.list [])) 0).getD "tool1" .null).get?
      "wic" = some (.map [("x", .int 1)]) := by
  refine ⟨?_, rfl⟩
  rfl

/-- C7 counterexample: `"a/b___c"` contains exactly one `/` yet is not a
fixed point of `move_slash_last`, which moves the slash to the last `___`
position, giving `"a___b/c"`. -/
theorem c7_counterexample :
    ("a/b___c".data.count '/' = 1) ∧
    move_slash_last "a/b___c" ≠ "a/b___c" := by
  refine ⟨by decide, by decide⟩

/-- C7 (amended): `move_slash_last` is idempotent on every string; and a
string with exactly one `/` is a fixed point provided the separator `___`
does not interfere — precisely, for `a ++ "/" ++ b` with `a` and `b`
slash-free, `a` neither containing `___` nor ending in `_`, and `b` not
containing `___`. -/
theorem c7_move_slash_last :
    (∀ s : String, move_slash_last (move_slash_last s) = move_slash_last s) ∧
    (∀ a b : List Char, hasSlash a = false → hasSlash b = false →
      hasSep3 a = false → endsUnd a = false → hasSep3 b = false →
      move_slash_last ⟨a ++ '/' :: b⟩ = ⟨a ++ '/' :: b⟩) := by
  constructor
  · intro s
    show (⟨moveSlashLastChars (⟨moveSlashLastChars s.data⟩ : String).data⟩ : String)
      = ⟨moveSlashLastChars s.data⟩
    rw [show (⟨moveSlashLastChars s.data⟩ : String).data = moveSlashLastChars s.data
      from rfl]
    rw [moveSlashLastChars_idem]
  · intro a b hsa hsb hna hea hnb
    show (⟨moveSlashLastChars (⟨a ++ '/' :: b⟩ : String).data⟩ : String) = _
    rw [show (⟨a ++ '/' :: b⟩ : String).data = a ++ '/' :: b from rfl]
    rw [moveSlashLastChars_fix a b hsa hsb hna hea hnb]

/-- C7 witness: the amended fixed-point clause applied at a concrete
string. -/
theorem c7_witness :
    move_slash_last ⟨"xy".data ++ '/' :: "z_w".data⟩
      = ⟨"xy".data ++ '/' :: "z_w".data⟩ :=
  c7_move_slash_last.2 "xy".data "z_w".data (by decide) (by decide)
    (by decide) (by decide) (by decide)

theorem list_getq_set_self {α : Type} (l : List α) (i : Nat) (a : α)
    (h : i < l.length) : (l.set i a).get? i = some a := by
  induction l generalizing i with
  | nil => simp at h
  | cons x xs ih =>
    cases i with
    | zero => rfl
    | succ j =>
      simp only [List.set, List.get?]
      exact ih j (by simpa using h)

theorem list_getq_set_ne {α : Type} (l : List α) (i j : Nat) (a : α)
    (h : i ≠ j) : (l.set i a).get? j = l.get? j := by
  induction l generalizing i j with
  | nil => simp
  | cons x xs ih =>
    cases i with
    | zero =>
      cases j with
      | zero => exact absurd rfl h
      | succ j2 => rfl
    | succ i2 =>
      cases j with
      | zero => rfl
      | succ j2 =>
        simp only [List.set, List.get?]
        exact ih i2 j2 (fun he => h (by rw [he]))

theorem list_getq_lt {α : Type} (l : List α) (i : Nat) (x : α)
    (h : l.get? i = some x) : i < l.length := by
  induction l generalizing i with
  | nil => simp [List.get?] at h
  | cons y ys ih =>
    cases i with
    | zero => simp
    | succ j =>
      have := ih j h
      simpa using Nat.succ_lt_succ this

theorem alookup_aset_self (k : String) (v : Yaml) (m : List (String × Yaml)) :
    Yaml.alookup k (Yaml.aset k v m) = some v := by
  induction m with
  | nil => simp [Yaml.aset, Yaml.alookup]
  | cons kv rest ih =>
    obtain ⟨k', v'⟩ := kv
    rw [Yaml.aset]
    by_cases hk : k' = k
    · rw [if_pos hk, Yaml.alookup, if_pos rfl]
    · rw [if_neg hk, Yaml.alookup, if_neg hk]
      exact ih

theorem alookup_aset_ne (k k' : String) (v : Yaml) (m : List (String × Yaml))
    (h : k ≠ k') : Yaml.alookup k' (Yaml.aset k v m) = Yaml.alookup k' m := by
  induction m with
  | nil => simp [Yaml.aset, Yaml.alookup, h]
  | cons kv rest ih =>
    obtain ⟨k0, v0⟩ := kv
    rw [Yaml.aset]
    by_cases hk : k0 = k
    · rw [if_pos hk, Yaml.alookup, if_neg h, Yaml.alookup, hk, if_neg h]
    · rw [if_neg hk, Yaml.alookup, Yaml.alookup]
      by_cases hk2 : k0 = k'
      · rw [if_pos hk2, if_pos hk2]
      · rw [if_neg hk2, if_neg hk2]
        exact ih

theorem aset_aset (k : String) (v w : Yaml) (m : List (String × Yaml)) :
    Yaml.aset k v (Yaml.aset k w m) = Yaml.aset k v m := by
  induction m with
  | nil => simp [Yaml.aset]
  | cons kv rest ih =>
    obtain ⟨k0, v0⟩ := kv
    rw [Yaml.aset]
    by_cases hk : k0 = k
    · rw [if_pos hk, Yaml.aset, if_pos rfl, Yaml.aset, if_pos hk]
    · rw [if_neg hk, Yaml.aset, if_neg hk, Yaml.aset, if_neg hk, ih]

theorem mem_adel_of_mem (k : String) (kv : String × Yaml)
    (m : List (String × Yaml)) (h : kv ∈ m) (hne : kv.1 ≠ k) :
    kv ∈ Yaml.adel k m := by
  induction m with
  | nil => simp at h
  | cons kv0 rest ih =>
    obtain ⟨k0, v0⟩ := kv0
    rw [Yaml.adel]
    rcases List.mem_cons.mp h with h1 | h1
    · subst h1
      rw [if_neg (by simpa using hne)]
      exact List.mem_cons_self _ _
    · by_cases hk : k0 = k
      · rw [if_pos hk]; exact h1
      · rw [if_neg hk]
        exact List.mem_cons_of_mem _ (ih h1)

theorem mem_of_mem_adel (k : String) (kv : String × Yaml)
    (m : List (String × Yaml)) (h : kv ∈ Yaml.adel k m) : kv ∈ m := by
  induction m with
  | nil => simp [Yaml.adel] at h
  | cons kv0 rest ih =>
    obtain ⟨k0, v0⟩ := kv0
    rw [Yaml.adel] at h
    by_cases hk : k0 = k
    · rw [if_pos hk] at h
      exact List.mem_cons_of_mem _ h
    · rw [if_neg hk] at h
      rcases List.mem_cons.mp h with h1 | h1
      · exact h1 ▸ List.mem_cons_self _ _
      · exact List.mem_cons_of_mem _ (ih h1)

theorem fst_ne_of_mem_adel (k : String) (kv : String × Yaml)
    (m : List (String × Yaml)) (hnd : (m.map Prod.fst).Nodup)
    (h : kv ∈ Yaml.adel k m) : kv.1 ≠ k := by
  induction m with
  | nil => simp [Yaml.adel] at h
  | cons kv0 rest ih =>
    obtain ⟨k0, v0⟩ := kv0
    rw [List.map_cons, List.nodup_cons] at hnd
    rw [Yaml.adel] at h
    by_cases hk : k0 = k
    · rw [if_pos hk] at h
      intro heq
      exact hnd.1 (hk ▸ heq ▸ List.mem_map.mpr ⟨kv, h, rfl⟩)
    · rw [if_neg hk] at h
      rcases List.mem_cons.mp h with h1 | h1
      · rw [h1]; exact hk
      · exact ih hnd.2 h1

theorem adel_length_of_has (k : String) (m : List (String × Yaml))
    (h : Yaml.ahas k m = true) : (Yaml.adel k m).length + 1 = m.length := by
  induction m with
  | nil => simp [Yaml.ahas, Yaml.alookup] at h
  | cons kv0 rest ih =>
    obtain ⟨k0, v0⟩ := kv0
    rw [Yaml.adel]
    by_cases hk : k0 = k
    · rw [if_pos hk]; rfl
    · rw [if_neg hk]
      rw [Yaml.ahas, Yaml.alookup, if_neg hk] at h
      simp only [List.length_cons]
      rw [ih h]

theorem adel_of_not_has (k : String) (m : List (String × Yaml))
    (h : Yaml.ahas k m = false) : Yaml.adel k m = m := by
  induction m with
  | nil => rfl
  | cons kv0 rest ih =>
    obtain ⟨k0, v0⟩ := kv0
    rw [Yaml.ahas, Yaml.alookup] at h
    rw [Yaml.adel]
    by_cases hk : k0 = k
    · rw [if_pos hk] at h; simp at h
    · rw [if_neg hk] at h
      rw [if_neg hk, ih h]

theorem alookup_adel_self (k : String) (m : List (String × Yaml))
    (hnd : (m.map Prod.fst).Nodup) : Yaml.alookup k (Yaml.adel k m) = none := by
  cases hl : Yaml.alookup k (Yaml.adel k m) with
  | none => rfl
  | some v =>
    have hmem := alookup_mem k v _ hl
    exact absurd rfl (fst_ne_of_mem_adel k (k, v) m hnd hmem)

theorem ahas_adel_self (k : String) (m : List (String × Yaml))
    (hnd : (m.map Prod.fst).Nodup) : Yaml.ahas k (Yaml.adel k m) = false := by
  rw [Yaml.ahas, alookup_adel_self k m hnd]
  rfl

theorem reindex_length (l : List (String × Yaml)) (i o : Nat) :
    (reindex_wic_steps l i o).length = l.length := by
  simp [reindex_wic_steps]

theorem mem_reindex_of_mem (l : List (String × Yaml)) (i o m : Nat)
    (km : String) (v : Yaml) (h : (metaKey m km, v) ∈ l) :
    (metaKey (if i ≤ m then m + o else m) km, v) ∈ reindex_wic_steps l i o := by
  rw [reindex_wic_steps]
  refine List.mem_map.mpr ⟨(metaKey m km, v), h, ?_⟩
  by_cases hi : i ≤ m
  · simp [parseMetaKey_metaKey, hi]
  · simp [parseMetaKey_metaKey, hi]

theorem reindex_keys (l : List (String × Yaml)) (i o : Nat)
    (P : Nat → String → Prop)
    (h : ∀ kv ∈ l, ∃ m km, kv.1 = metaKey m km ∧ P m km) :
    ∀ kv2 ∈ reindex_wic_steps l i o, ∃ m km v0,
      (metaKey m km, v0) ∈ l ∧ P m km ∧
      ((m < i ∧ kv2 = (metaKey m km, v0)) ∨
        (i ≤ m ∧ kv2 = (metaKey (m + o) km, v0))) := by
  intro kv2 h2
  rw [reindex_wic_steps] at h2
  obtain ⟨kv, hkv, heq⟩ := List.mem_map.mp h2
  obtain ⟨m, km, hk, hP⟩ := h kv hkv
  have hkv2 : (metaKey m km, kv.2) ∈ l := by
    have he : kv = (metaKey m km, kv.2) := by
      rw [← hk]
    rw [← he]
    exact hkv
  refine ⟨m, km, kv.2, hkv2, hP, ?_⟩
  by_cases hi : i ≤ m
  · simp only [hk, parseMetaKey_metaKey, if_pos hi] at heq
    exact Or.inr ⟨hi, by rw [← heq]⟩
  · simp only [hk, parseMetaKey_metaKey, if_neg hi] at heq
    exact Or.inl ⟨Nat.lt_of_not_le hi, by rw [← heq, ← hk]⟩

theorem steps_keys_len (steps : List Yaml)
    (h : ∀ s ∈ steps, ∃ k v, s = Yaml.map [(k, v)]) :
    (get_steps_keys steps).length = steps.length := by
  induction steps with
  | nil => rfl
  | cons s rest ih =>
    obtain ⟨k, v, hs⟩ := h s (List.mem_cons_self _ _)
    subst hs
    have : get_steps_keys (Yaml.map [(k, v)] :: rest) = k :: get_steps_keys rest := rfl
    rw [this]
    simp only [List.length_cons]
    rw [ih (fun s hs => h s (List.mem_cons_of_mem _ hs))]

theorem steps_keys_get (steps : List Yaml) (j : Nat) (k : String) (v : Yaml)
    (h : ∀ s ∈ steps, ∃ k2 v2, s = Yaml.map [(k2, v2)])
    (hj : steps.get? j = some (Yaml.map [(k, v)])) :
    (get_steps_keys steps).get? j = some k := by
  induction steps generalizing j with
  | nil => simp [List.get?] at hj
  | cons s rest ih =>
    obtain ⟨k2, v2, hs⟩ := h s (List.mem_cons_self _ _)
    subst hs
    have he : get_steps_keys (Yaml.map [(k2, v2)] :: rest) = k2 :: get_steps_keys rest := rfl
    rw [he]
    cases j with
    | zero =>
      have hj2 : some (Yaml.map [(k2, v2)]) = some (Yaml.map [(k, v)]) := hj
      injection hj2 with hj2
      injection hj2 with hj2
      injection hj2 with hj3 _
      injection hj3 with hj3 _
      rw [hj3]
      rfl
    | succ j2 =>
      exact ih j2 (fun s hs => h s (List.mem_cons_of_mem _ hs)) hj

theorem steps_keys_get_rev (steps : List Yaml) (j : Nat) (k : String)
    (h : ∀ s ∈ steps, ∃ k2 v2, s = Yaml.map [(k2, v2)])
    (hj : (get_steps_keys steps).get? j = some k) :
    ∃ v, steps.get? j = some (Yaml.map [(k, v)]) := by
  induction steps generalizing j with
  | nil => simp [get_steps_keys, List.get?] at hj
  | cons s rest ih =>
    obtain ⟨k2, v2, hs⟩ := h s (List.mem_cons_self _ _)
    subst hs
    have he : get_steps_keys (Yaml.map [(k2, v2)] :: rest) = k2 :: get_steps_keys rest := rfl
    rw [he] at hj
    cases j with
    | zero =>
      have hj2 : some k2 = some k := hj
      injection hj2 with hj2
      exact ⟨v2, by rw [← hj2]; rfl⟩
    | succ j2 =>
      exact ih j2 (fun s hs => h s (List.mem_cons_of_mem _ hs)) hj

theorem apply_args_shape (pa res : Yaml) (bm : List (String × Yaml))
    (hok : apply_args (.map bm) pa = .ok res) :
    ∃ steps2, res = Yaml.map (Yaml.aset "steps" (.list steps2)
      (Yaml.adel "inputs" bm)) := by
  rw [apply_args] at hok
  simp only [pure_bind] at hok
  cases hsteps : Yaml.alookup "steps" (Yaml.adel "inputs" bm) with
  | none =>
    rw [hsteps] at hok
    simp only [bind_error_eq] at hok
    exact Except.noConfusion hok
  | some sv =>
    rw [hsteps] at hok
    cases sv with
    | list steps =>
      simp only [pure_bind] at hok
      cases hpa : pa with
      | map pm =>
        rw [hpa] at hok
        simp only [pure_bind] at hok
        cases hin : Yaml.alookup "in" pm with
        | none =>
          rw [hin] at hok
          simp only [pure_bind, List.foldlM_nil] at hok
          exact ⟨steps, (Except.ok.inj hok).symm⟩
        | some inv =>
          rw [hin] at hok
          cases inv with
          | map pain =>
            simp only [pure_bind] at hok
            cases hfold : pain.foldlM (fun st kv => do
                let inInputs ← pyInStr kv.1
                  ((Yaml.alookup "inputs" bm).getD (Yaml.map []))
                if inInputs then
                  substStepsAux kv.1 kv.2 0 (get_steps_keys steps) st
                else
                  Except.error ("Error while inlineing " ++ kv.1)) steps with
            | error e =>
              rw [hfold] at hok
              simp only [bind_error_eq] at hok
              exact Except.noConfusion hok
            | ok steps2 =>
              rw [hfold] at hok
              simp only [bind_ok_eq] at hok
              exact ⟨steps2, (Except.ok.inj hok).symm⟩
          | null => simp only [bind_error_eq] at hok; exact Except.noConfusion hok
          | bool b => simp only [bind_error_eq] at hok; exact Except.noConfusion hok
          | int n => simp only [bind_error_eq] at hok; exact Except.noConfusion hok
          | str s => simp only [bind_error_eq] at hok; exact Except.noConfusion hok
          | list l => simp only [bind_error_eq] at hok; exact Except.noConfusion hok
      | null => rw [hpa] at hok; simp only [bind_error_eq] at hok; exact Except.noConfusion hok
      | bool b => rw [hpa] at hok; simp only [bind_error_eq] at hok; exact Except.noConfusion hok
      | int n => rw [hpa] at hok; simp only [bind_error_eq] at hok; exact Except.noConfusion hok
      | str s => rw [hpa] at hok; simp only [bind_error_eq] at hok; exact Except.noConfusion hok
      | list l => rw [hpa] at hok; simp only [bind_error_eq] at hok; exact Except.noConfusion hok
    | null => simp only [bind_error_eq] at hok; exact Except.noConfusion hok
    | bool b => simp only [bind_error_eq] at hok; exact Except.noConfusion hok
    | int n => simp only [bind_error_eq] at hok; exact Except.noConfusion hok
    | str s => simp only [bind_error_eq] at hok; exact Except.noConfusion hok
    | map mm => simp only [bind_error_eq] at hok; exact Except.noConfusion hok

/-- C3 (amended): `apply_args` deletes the `inputs` block, so it is not
idempotent whenever parentargs supplies an argument: the result has no
`inputs`, a second application with a non-empty `in:` mapping fails with
the unknown-formal-parameter error for its first argument, and only when
parentargs supplies no arguments is a second application the identity. -/
theorem c3_amended :
    ∀ (pa res : Yaml) (bm : List (String × Yaml)),
      (bm.map Prod.fst).Nodup →
      apply_args (.map bm) pa = .ok res →
      res.get? "inputs" = none ∧
      (∀ pm k v rest2, pa = .map pm →
        Yaml.alookup "in" pm = some (.map ((k, v) :: rest2)) →
        apply_args res pa = .error ("Error while inlineing " ++ k)) ∧
      (∀ pm, pa = .map pm →
        (Yaml.alookup "in" pm = none ∨ Yaml.alookup "in" pm = some (.map [])) →
        apply_args res pa = .ok res) := by
  intro pa res bm hnd hok
  obtain ⟨steps2, hres⟩ := apply_args_shape pa res bm hok
  subst hres
  have hlook : Yaml.alookup "inputs"
      (Yaml.aset "steps" (.list steps2) (Yaml.adel "inputs" bm)) = none := by
    rw [alookup_aset_ne _ _ _ _ (by decide)]
    exact alookup_adel_self _ _ hnd
  have hhas : Yaml.ahas "inputs"
      (Yaml.aset "steps" (.list steps2) (Yaml.adel "inputs" bm)) = false := by
    rw [Yaml.ahas, hlook]
    rfl
  refine ⟨hlook, ?_, ?_⟩
  · intro pm k v rest2 hpa hin
    subst hpa
    rw [apply_args]
    simp only [pure_bind]
    rw [adel_of_not_has _ _ hhas, alookup_aset_self]
    simp only [pure_bind]
    rw [hin]
    simp only [pure_bind]
    rw [hlook]
    simp only [List.foldlM_cons, Option.getD_none, pyInStr, Yaml.ahas,
      Yaml.alookup, Option.isSome_none, pure_bind, Bool.false_eq_true,
      if_false, bind_error_eq]
  · intro pm hpa hin
    subst hpa
    rw [apply_args]
    simp only [pure_bind]
    rw [adel_of_not_has _ _ hhas, alookup_aset_self]
    simp only [pure_bind]
    rcases hin with hin | hin
    · rw [hin]
      simp only [pure_bind, List.foldlM_nil]
      rw [aset_aset]
      rfl
    · rw [hin]
      simp only [pure_bind, List.foldlM_nil]
      rw [aset_aset]
      rfl

/-- C3 amended, applied: one concrete body and parentargs where the second
application fails with the unknown-formal-parameter error. -/
theorem c3_amended_witness :
    apply_args (Yaml.map [("steps", Yaml.list [])])
        (Yaml.map [("in", Yaml.map [("x", Yaml.int 5)])])
      = Except.error ("Error while inlineing " ++ "x") :=
  (c3_amended (Yaml.map [("in", Yaml.map [("x", Yaml.int 5)])])
      (Yaml.map [("steps", Yaml.list [])])
      [("inputs", Yaml.map [("x", Yaml.null)]), ("steps", Yaml.list [])]
      (by decide) (by rfl)).2.1
    [("in", Yaml.map [("x", Yaml.int 5)])] "x" (Yaml.int 5) [] rfl rfl

/-- C6 (amended): in the per-binding rewrite of `inline_subworkflow_cwl`,
for a binding that does not name a formal parameter of the parent step: a
string value `v` is bound as the parent step-key prefixed onto the raw
value (`step_key ++ "___" ++ v`, no `move_slash_last` flattening inside
the binding, though the flattened value is what the formal test uses and
what `source` retains), while a mapping value has its `source` field
rewritten in place to the prefixed flattening
`step_key ++ "___" ++ move_slash_last s` (and the raw source is what the
formal test uses). -/
theorem c6_amended :
    (∀ fuel step_key scattervars src0 subinputkey v
       (inputs new0 sv0 : List (String × Yaml)),
      Yaml.ahas (move_slash_last v) inputs = false →
      (∀ y, Yaml.alookup "scatter" sv0 = some y → ∃ l, y = Yaml.list l) →
      ∃ out, process_subinput fuel step_key inputs scattervars (new0, sv0, src0)
          subinputkey (.str v) = .ok out ∧
        out.1 = Yaml.aset subinputkey (.str (step_key ++ "___" ++ v)) new0 ∧
        out.2.2 = some (.str (move_slash_last v))) ∧
    (∀ fuel step_key scattervars src0 subinputkey s
       (inputs new0 sv0 mm : List (String × Yaml)),
      Yaml.alookup "source" mm = some (.str s) →
      Yaml.ahas s inputs = false →
      (∀ y, Yaml.alookup "scatter" sv0 = some y → ∃ l, y = Yaml.list l) →
      ∃ out, process_subinput fuel step_key inputs scattervars (new0, sv0, src0)
          subinputkey (.map mm) = .ok out ∧
        out.1 = Yaml.aset subinputkey
          (.map (Yaml.aset "source"
            (.str (step_key ++ "___" ++ move_slash_last s)) mm)) new0 ∧
        out.2.2 = some (.str s)) := by
  constructor
  · intro fuel step_key scattervars src0 k v inputs new0 sv0 hnf hsv
    rw [process_subinput]
    simp only [pure_bind, pyKeyIn]
    rw [hnf]
    simp only [pure_bind, Bool.false_eq_true, if_false]
    by_cases hts : scattervars.truthy
    · simp only [hts, if_true, pure_bind]
      by_cases hsl : hasSlash v.data
      · simp only [hsl, if_true, scatterAppendDedup]
        cases hsc : Yaml.alookup "scatter" sv0 with
        | none =>
          simp only [pure_bind]
          exact ⟨_, rfl, rfl, rfl⟩
        | some y =>
          obtain ⟨l, hl⟩ := hsv y hsc
          subst hl
          simp only [pure_bind]
          by_cases hct : l.contains (Yaml.str k)
          · simp only [hct, if_true, pure_bind]
            exact ⟨_, rfl, rfl, rfl⟩
          · simp only [hct, if_false, pure_bind]
            exact ⟨_, rfl, rfl, rfl⟩
      · simp only [hsl, if_false, pure_bind]
        exact ⟨_, rfl, rfl, rfl⟩
    · simp only [hts, if_false, pure_bind]
      exact ⟨_, rfl, rfl, rfl⟩
  · intro fuel step_key scattervars src0 k s inputs new0 sv0 mm hsrc hnf hsv
    rw [process_subinput]
    simp only [pure_bind]
    rw [hsrc]
    simp only [pure_bind, pyKeyIn]
    rw [hnf]
    simp only [pure_bind, Bool.false_eq_true, if_false]
    by_cases hts : scattervars.truthy
    · simp only [hts, if_true, pure_bind]
      rw [alookup_aset_self]
      by_cases hsl : hasSlash (step_key ++ "___" ++ move_slash_last s).data
      · simp only [hsl, if_true, scatterAppendDedup, pure_bind]
        cases hsc : Yaml.alookup "scatter" sv0 with
        | none =>
          simp only [pure_bind]
          exact ⟨_, rfl, rfl, rfl⟩
        | some y =>
          obtain ⟨l, hl⟩ := hsv y hsc
          subst hl
          simp only [pure_bind]
          by_cases hct : l.contains (Yaml.str k)
          · simp only [hct, if_true, pure_bind]
            exact ⟨_, rfl, rfl, rfl⟩
          · simp only [hct, if_false, pure_bind]
            exact ⟨_, rfl, rfl, rfl⟩
      · simp only [hsl, if_false, pure_bind]
        exact ⟨_, rfl, rfl, rfl⟩
    · simp only [hts, if_false, pure_bind]
      exact ⟨_, rfl, rfl, rfl⟩

/-- C6 amended, applied: the two branches at one concrete non-formal
binding each. -/
theorem c6_amended_witness :
    (∃ out, process_subinput 3 "sub" [] (Yaml.list []) ([], [], none)
        "a" (.str "x/y/z") = .ok out ∧
      out.1 = Yaml.aset "a" (.str ("sub" ++ "___" ++ "x/y/z")) [] ∧
      out.2.2 = some (.str (move_slash_last "x/y/z"))) ∧
    (∃ out, process_subinput 3 "sub" [] (Yaml.list []) ([], [], none)
        "a" (.map [("source", .str "x/y/z")]) = .ok out ∧
      out.1 = Yaml.aset "a"
        (.map (Yaml.aset "source"
          (.str ("sub" ++ "___" ++ move_slash_last "x/y/z"))
          [("source", .str "x/y/z")])) [] ∧
      out.2.2 = some (.str "x/y/z")) :=
  ⟨c6_amended.1 3 "sub" (Yaml.list []) none "a" "x/y/z" [] [] []
      (by decide) (fun y hy => by simp [Yaml.alookup] at hy),
    c6_amended.2 3 "sub" (Yaml.list []) none "a" "x/y/z" [] [] []
      [("source", .str "x/y/z")] (by decide) (by decide)
      (fun y hy => by simp [Yaml.alookup] at hy)⟩

/-- C9: when a step key resolves to a subworkflow, resolution failure in
`read_ast_from_disk`'s per-step loop is fatal: an absent namespace gives
the namespace-miss error, an absent stem in a present namespace gives the
stem-miss error, and that message carries the indentation hint exactly
when the missing stem is the literal `"in"`. -/
theorem c9_resolution_errors :
    ∀ (fuel : Nat) homedir parent_stem
      (yml_paths : List (String × List (String × String)))
      (files : List (String × Yaml)) (tools_stems : List String)
      (validator : Yaml → Bool) (ign : Bool) (wic_steps : Yaml)
      (subkeys : List String) (i : Nat) (step_key : String)
      (rest : List String) (steps : List Yaml) (ns : String),
      step_key ∈ subkeys →
      ((wic_steps.getD (metaKey (i + 1) step_key) (.map [])).getD "wic"
          (.map [])).getD "namespace" (.str "global") = .str ns →
      (((List.lookup ns yml_paths).getD [] = []) →
        read_ast_steps_loop (fuel + 1) homedir parent_stem yml_paths files
            tools_stems validator ign wic_steps subkeys i (step_key :: rest)
            steps
          = .error (nsMissMsg fuel (.str ns) homedir)) ∧
      (∀ paths, List.lookup ns yml_paths = some paths → paths ≠ [] →
        List.lookup (pathStem step_key) paths = none →
        read_ast_steps_loop (fuel + 1) homedir parent_stem yml_paths files
            tools_stems validator ign wic_steps subkeys i (step_key :: rest)
            steps
          = .error (stemMissMsg (pathStem step_key) ns parent_stem) ∧
        (pathStem step_key = "in" →
          stemMissMsg (pathStem step_key) ns parent_stem =
            "Error! " ++ pathStem step_key ++ " not found in namespace " ++
              ns ++ " when attempting to read " ++ parent_stem ++ ".yml" ++
              ("\n(Check that you have properly indented the `in` tag in " ++
                parent_stem ++ ")")) ∧
        (pathStem step_key ≠ "in" →
          stemMissMsg (pathStem step_key) ns parent_stem =
            "Error! " ++ pathStem step_key ++ " not found in namespace " ++
              ns ++ " when attempting to read " ++ parent_stem ++ ".yml")) := by
  intro fuel homedir parent_stem yml_paths files tools_stems validator ign
    wic_steps subkeys i step_key rest steps ns hsub hns
  constructor
  · intro hmiss
    rw [read_ast_steps_loop]
    simp only [hsub, if_true, hns, pure_bind]
    rw [hmiss]
    simp only [if_true]
  · intro paths hpaths hne hstem
    have hget : (List.lookup ns yml_paths).getD [] = paths := by
      rw [hpaths]
      rfl
    refine ⟨?_, ?_, ?_⟩
    · rw [read_ast_steps_loop]
      simp only [hsub, if_true, hns, pure_bind]
      rw [hget, if_neg hne, hstem]
    · intro hin
      rw [hin, stemMissMsg, if_pos rfl]
    · intro hin
      rw [stemMissMsg, if_neg hin]
      simp only [String.append_empty]

/-- C9 applied: a concrete catalog missing the namespace, and one missing
the stem `in`, with the hint spelled out. -/
theorem c9_resolution_errors_witness :
    read_ast_steps_loop 2 "/h" "p" [] [] [] (fun _ => true) false
        (Yaml.map []) ["in.yml"] 0 ["in.yml"] []
      = .error (nsMissMsg 1 (.str "global") "/h") ∧
    read_ast_steps_loop 2 "/h" "p" [("global", [("tool", "x")])] [] []
        (fun _ => true) false (Yaml.map []) ["in.yml"] 0 ["in.yml"] []
      = .error (stemMissMsg (pathStem "in.yml") "global" "p") ∧
    stemMissMsg (pathStem "in.yml") "global" "p" =
      "Error! " ++ pathStem "in.yml" ++ " not found in namespace " ++
        "global" ++ " when attempting to read " ++ "p" ++ ".yml" ++
        ("\n(Check that you have properly indented the `in` tag in " ++
          "p" ++ ")") :=
  have h1 := c9_resolution_errors 1 "/h" "p" [] [] [] (fun _ => true) false
    (Yaml.map []) ["in.yml"] 0 "in.yml" [] [] "global" (by decide) (by rfl)
  have h2 := c9_resolution_errors 1 "/h" "p" [("global", [("tool", "x")])]
    [] [] (fun _ => true) false (Yaml.map []) ["in.yml"] 0 "in.yml" [] []
    "global" (by decide) (by rfl)
  have h2b := h2.2 [("tool", "x")] (by rfl) (by decide) (by decide)
  ⟨h1.1 (by rfl), h2b.1, h2b.2.1 (by decide)⟩

theorem read_loop_spec :
    ∀ (keys : List String) (fuel : Nat) (homedir parent_stem : String)
      (yml_paths : List (String × List (String × String)))
      (files : List (String × Yaml)) (tools_stems : List String)
      (validator : Yaml → Bool) (ign : Bool) (wic_steps : Yaml)
      (subkeys : List String) (i : Nat) (steps out : List Yaml),
      read_ast_steps_loop fuel homedir parent_stem yml_paths files
          tools_stems validator ign wic_steps subkeys i keys steps = .ok out →
      out.length = steps.length ∧
      (∀ j, j < i ∨ i + keys.length ≤ j → out.get? j = steps.get? j) ∧
      (∀ j k v, keys.get? j = some k →
        steps.get? (i + j) = some (Yaml.map [(k, v)]) →
        (k ∈ subkeys → ∃ st pa, out.get? (i + j)
          = some (Yaml.map [(k, Yaml.map [("subtree", st), ("parentargs", pa)])])) ∧
        (k ∉ subkeys → out.get? (i + j) = some (Yaml.map [(k, v)]))) := by
  intro keys
  induction keys with
  | nil =>
    intro fuel homedir parent_stem yml_paths files tools_stems validator ign
      wic_steps subkeys i steps out hok
    rw [read_ast_steps_loop] at hok
    have hout : steps = out := Except.ok.inj hok
    subst hout
    refine ⟨rfl, fun j _ => rfl, fun j k v hkj _ => ?_⟩
    simp [List.get?] at hkj
  | cons key rest ih =>
    intro fuel homedir parent_stem yml_paths files tools_stems validator ign
      wic_steps subkeys i steps out hok
    cases fuel with
    | zero => simp [read_ast_steps_loop] at hok
    | succ fuel =>
      rw [read_ast_steps_loop] at hok
      by_cases hsk : key ∈ subkeys
      · rw [if_pos hsk] at hok
        simp only [] at hok
        cases hpn : ((wic_steps.getD (metaKey (i + 1) key) (.map [])).getD "wic"
            (.map [])).getD "namespace" (.str "global") with
        | str ns =>
          rw [hpn] at hok
          simp only [] at hok
          by_cases hpe : ((List.lookup ns yml_paths).getD []
              : List (String × String)) = []
          · rw [if_pos hpe] at hok
            simp at hok
          · rw [if_neg hpe] at hok
            simp only [pure_bind] at hok
            cases hst : List.lookup (pathStem key)
                ((List.lookup ns yml_paths).getD []) with
            | none =>
              rw [hst] at hok
              simp at hok
            | some yaml_path =>
              rw [hst] at hok
              simp only [] at hok
              by_cases hfc : ((files.map Prod.fst).contains yaml_path
                  && endsWithYml yaml_path) = true
              · rw [hfc] at hok
                simp only [Bool.not_true, Bool.false_eq_true, if_false] at hok
                cases hlf : List.lookup yaml_path files with
                | none =>
                  rw [hlf] at hok
                  simp [bind_error_eq] at hok
                | some raw =>
                  rw [hlf] at hok
                  simp only [pure_bind] at hok
                  cases hsub2 : read_ast_from_disk fuel homedir
                      ⟨⟨key, ns⟩, raw⟩ yml_paths files tools_stems validator
                      ign with
                  | error e =>
                    rw [hsub2] at hok
                    simp [bind_error_eq] at hok
                  | ok sub =>
                    rw [hsub2] at hok
                    simp only [bind_ok_eq, pure_bind] at hok
                    cases hgi : steps.get? i with
                    | none =>
                      rw [hgi] at hok
                      simp [bind_error_eq] at hok
                    | some sv =>
                      rw [hgi] at hok
                      cases sv with
                      | map m =>
                        simp only [pure_bind] at hok
                        cases hov : Yaml.alookup key m with
                        | none =>
                          rw [hov] at hok
                          simp [bind_error_eq] at hok
                        | some v0 =>
                          rw [hov] at hok
                          simp only [pure_bind] at hok
                          obtain ⟨ih1, ih2, ih3⟩ := ih fuel homedir parent_stem
                            yml_paths files tools_stems validator ign wic_steps
                            subkeys (i + 1) _ out hok
                          have hlt : i < steps.length := list_getq_lt _ _ _ hgi
                          refine ⟨?_, ?_, ?_⟩
                          · rw [ih1, List.length_set]
                          · intro j hj
                            have hj2 : j < i + 1 ∨ (i + 1) + rest.length ≤ j := by
                              rcases hj with hj | hj
                              · exact Or.inl (Nat.lt_succ_of_lt hj)
                              · refine Or.inr ?_
                                simp only [List.length_cons] at hj
                                omega
                            rw [ih2 j hj2]
                            apply list_getq_set_ne
                            rcases hj with hj | hj
                            · omega
                            · simp only [List.length_cons] at hj
                              omega
                          · intro j k v hkj hsj
                            cases j with
                            | zero =>
                              have hkk : key = k := Option.some.inj hkj
                              subst hkk
                              rw [Nat.add_zero] at hsj ⊢
                              rw [hgi] at hsj
                              have hm : m = [(key, v)] := by
                                have := Option.some.inj hsj
                                exact Yaml.map.inj this
                              subst hm
                              constructor
                              · intro _
                                refine ⟨sub.tree,
                                  (if v0 = Yaml.null then Yaml.map [] else v0), ?_⟩
                                have ho : out.get? i
                                    = (steps.set i (Yaml.map (Yaml.aset key
                                      (Yaml.map [("subtree", sub.tree),
                                        ("parentargs", if v0 = Yaml.null
                                          then Yaml.map [] else v0)])
                                      [(key, v)]))).get? i :=
                                  ih2 i (Or.inl (Nat.lt_succ_self i))
                                rw [ho, list_getq_set_self _ _ _ hlt]
                                simp [Yaml.aset]
                              · intro hns
                                exact absurd hsk hns
                            | succ j2 =>
                              have harith : i + (j2 + 1) = (i + 1) + j2 := by
                                omega
                              rw [harith] at hsj ⊢
                              have hsj2 : ((steps.set i (Yaml.map (Yaml.aset key
                                  (Yaml.map [("subtree", sub.tree),
                                    ("parentargs", if v0 = Yaml.null
                                      then Yaml.map [] else v0)]) m))).get?
                                  ((i + 1) + j2)) = some (Yaml.map [(k, v)]) := by
                                rw [list_getq_set_ne _ _ _ _ (by omega)]
                                exact hsj
                              exact ih3 j2 k v hkj hsj2
                      | null => simp [bind_error_eq] at hok
                      | bool b => simp [bind_error_eq] at hok
                      | int n => simp [bind_error_eq] at hok
                      | str s => simp [bind_error_eq] at hok
                      | list l => simp [bind_error_eq] at hok
              · rw [Bool.not_eq_true] at hfc
                rw [hfc] at hok
                simp at hok
        | null =>
          rw [hpn] at hok
          simp at hok
        | bool b =>
          rw [hpn] at hok
          simp at hok
        | int n =>
          rw [hpn] at hok
          simp at hok
        | list l =>
          rw [hpn] at hok
          simp at hok
        | map mm =>
          rw [hpn] at hok
          simp at hok
      · rw [if_neg hsk] at hok
        obtain ⟨ih1, ih2, ih3⟩ := ih fuel homedir parent_stem yml_paths files
          tools_stems validator ign wic_steps subkeys (i + 1) steps out hok
        refine ⟨ih1, ?_, ?_⟩
        · intro j hj
          apply ih2
          rcases hj with hj | hj
          · exact Or.inl (Nat.lt_succ_of_lt hj)
          · simp only [List.length_cons] at hj
            omega
        · intro j k v hkj hsj
          cases j with
          | zero =>
            have hkk : key = k := Option.some.inj hkj
            subst hkk
            constructor
            · intro hks
              exact absurd hks hsk
            · intro _
              rw [Nat.add_zero] at hsj ⊢
              rw [ih2 i (Or.inl (Nat.lt_succ_self i))]
              exact hsj
          | succ j2 =>
            have harith : i + (j2 + 1) = (i + 1) + j2 := by omega
            rw [harith] at hsj ⊢
            exact ih3 j2 k v hkj hsj

/-- C4: after `read_ast_from_disk` resolves a backend-free document whose
steps are single-key mappings, every step whose key resolves to a
subworkflow holds exactly the two fields `subtree` and `parentargs` and no
others, and every tool step's value is left untouched. -/
theorem c4_resolved_shape :
    ∀ (fuel : Nat) (homedir : String) (tt : YamlTree)
      (yml_paths : List (String × List (String × String)))
      (files : List (String × Yaml)) (tools_stems : List String)
      (validator : Yaml → Bool) (ign : Bool) (res : YamlTree)
      (steps : List Yaml),
      read_ast_from_disk (fuel + 1) homedir tt yml_paths files tools_stems
          validator ign = .ok res →
      pyInStr "backends" (tt.tree.getD "wic" (.map [])) = .ok false →
      tt.tree.get? "steps" = some (.list steps) →
      (∀ s ∈ steps, ∃ k v, s = Yaml.map [(k, v)]) →
      ∃ steps2, res.tree.get? "steps" = some (.list steps2) ∧
        steps2.length = steps.length ∧
        ∀ j k v, steps.get? j = some (Yaml.map [(k, v)]) →
          (k ∈ get_subkeys (get_steps_keys steps) tools_stems →
            ∃ st pa, steps2.get? j = some (Yaml.map [(k,
              Yaml.map [("subtree", st), ("parentargs", pa)])])) ∧
          (k ∉ get_subkeys (get_steps_keys steps) tools_stems →
            steps2.get? j = some (Yaml.map [(k, v)])) := by
  intro fuel homedir tt yml_paths files tools_stems validator ign res steps
    hok hnb hsteps hwf
  cases htt : tt.tree with
  | map tm =>
    rw [read_ast_from_disk] at hok
    simp only [] at hok
    by_cases hval : (!ign && !(validator tt.tree)) = true
    · rw [if_pos hval] at hok
      simp at hok
    · rw [if_neg hval] at hok
      rw [hnb] at hok
      simp only [bind_ok_eq, Bool.false_eq_true, if_false] at hok
      rw [hsteps] at hok
      simp only [pure_bind] at hok
      cases hloop : read_ast_steps_loop fuel homedir tt.step_id.stem yml_paths
          files tools_stems validator ign
          ((tt.tree.getD "wic" (.map [])).getD "steps" (.map []))
          (get_subkeys (get_steps_keys steps) tools_stems) 0
          (get_steps_keys steps) steps with
      | error e =>
        rw [hloop] at hok
        simp [bind_error_eq] at hok
      | ok steps2 =>
        rw [hloop] at hok
        simp only [bind_ok_eq] at hok
        rw [htt] at hok
        simp only [setKeyTop, pure_bind] at hok
        have hres : res = ⟨tt.step_id,
            Yaml.map (Yaml.aset "steps" (.list steps2) tm)⟩ :=
          (Except.ok.inj hok).symm
        subst hres
        obtain ⟨l1, l2, l3⟩ := read_loop_spec (get_steps_keys steps) fuel
          homedir tt.step_id.stem yml_paths files tools_stems validator ign
          ((tt.tree.getD "wic" (.map [])).getD "steps" (.map []))
          (get_subkeys (get_steps_keys steps) tools_stems) 0 steps steps2 hloop
        refine ⟨steps2, ?_, l1, ?_⟩
        · show Yaml.alookup "steps" (Yaml.aset "steps" (.list steps2) tm)
            = some (.list steps2)
          exact alookup_aset_self _ _ _
        · intro j k v hj
          have hkj : (get_steps_keys steps).get? j = some k :=
            steps_keys_get steps j k v hwf hj
          have hj0 : steps.get? (0 + j) = some (Yaml.map [(k, v)]) := by
            rw [Nat.zero_add]
            exact hj
          have := l3 j k v hkj hj0
          rw [Nat.zero_add] at this
          exact this
  | null => rw [htt] at hsteps; simp [Yaml.get?] at hsteps
  | bool b => rw [htt] at hsteps; simp [Yaml.get?] at hsteps
  | int n => rw [htt] at hsteps; simp [Yaml.get?] at hsteps
  | str s => rw [htt] at hsteps; simp [Yaml.get?] at hsteps
  | list l => rw [htt] at hsteps; simp [Yaml.get?] at hsteps

/-- C4 applied: a concrete two-step document, one subworkflow step and one
tool step. -/
theorem c4_resolved_shape_witness :
    ∃ steps2, (YamlTree.mk ⟨"root", "global"⟩ (Yaml.map
        [("steps", Yaml.list
          [Yaml.map [("w.yml", Yaml.map
            [("subtree", Yaml.map [("steps", Yaml.list [])]),
             ("parentargs", Yaml.map [])])],
           Yaml.map [("t", Yaml.map [])]])])).tree.get? "steps"
      = some (.list steps2) ∧
      steps2.length = [Yaml.map [("w.yml", Yaml.null)],
        Yaml.map [("t", Yaml.map [])]].length ∧
      ∀ j k v, [Yaml.map [("w.yml", Yaml.null)],
          Yaml.map [("t", Yaml.map [])]].get? j
          = some (Yaml.map [(k, v)]) →
        (k ∈ get_subkeys (get_steps_keys [Yaml.map [("w.yml", Yaml.null)],
            Yaml.map [("t", Yaml.map [])]]) ["t"] →
          ∃ st pa, steps2.get? j = some (Yaml.map [(k,
            Yaml.map [("subtree", st), ("parentargs", pa)])])) ∧
        (k ∉ get_subkeys (get_steps_keys [Yaml.map [("w.yml", Yaml.null)],
            Yaml.map [("t", Yaml.map [])]]) ["t"] →
          steps2.get? j = some (Yaml.map [(k, v)])) :=
  c4_resolved_shape 2 "/h"
    ⟨⟨"root", "global"⟩, .map [("steps", .list
      [.map [("w.yml", .null)], .map [("t", .map [])]])]⟩
    [("global", [("w", "/w.yml")])]
    [("/w.yml", .map [("steps", .list [])])]
    ["t"] (fun _ => true) false
    ⟨⟨"root", "global"⟩, .map [("steps", .list
      [.map [("w.yml", .map [("subtree", .map [("steps", .list [])]),
        ("parentargs", .map [])])], .map [("t", .map [])]])]⟩
    [.map [("w.yml", .null)], .map [("t", .map [])]]
    (by rfl) (by rfl) (by rfl)
    (by
      intro s hs
      rcases List.mem_cons.mp hs with h | h
      · exact ⟨"w.yml", Yaml.null, h⟩
      · rcases List.mem_cons.mp h with h2 | h2
        · exact ⟨"t", Yaml.map [], h2⟩
        · simp at h2)

theorem mergeYaml_catchall (fuel : Nat) (x y : Yaml)
    (hx : ∀ a, x ≠ Yaml.map a) :
    mergeYaml (fuel + 1) x y
      = if sameType x y then pure y else .error "MergeTypeMismatch" := by
  cases x with
  | map a => exact absurd rfl (hx a)
  | null => cases y <;> rfl
  | bool b => cases y <;> rfl
  | int n => cases y <;> rfl
  | str s => cases y <;> rfl
  | list l => cases y <;> rfl

theorem mergeYaml_no_key_any (fuel : Nat) (x y r : Yaml) (k : String)
    (hok : mergeYaml fuel x y = .ok r)
    (hx : ∀ a, x = Yaml.map a → Yaml.ahas k a = false)
    (hy : ∀ b, y = Yaml.map b → Yaml.ahas k b = false) :
    ∀ rm, r = Yaml.map rm → Yaml.ahas k rm = false := by
  intro rm hrm
  subst hrm
  cases fuel with
  | zero =>
    exact Except.noConfusion
      (show (Except.error "fuel exhausted" : Except String Yaml) = _ from hok)
  | succ fuel =>
    cases hxs : x with
    | map a =>
      cases hys : y with
      | map b =>
        rw [hxs, hys] at hok
        obtain ⟨r2, hr2, hw⟩ := mergeYaml_no_key fuel a b _ k hok
          (hx a hxs) (hy b hys)
        rw [Yaml.map.inj hr2]
        exact hw
      | null =>
        rw [hxs, hys] at hok
        exact Except.noConfusion
          (show (Except.error "MergeTypeMismatch" : Except String Yaml)
            = _ from hok)
      | bool b =>
        rw [hxs, hys] at hok
        exact Except.noConfusion
          (show (Except.error "MergeTypeMismatch" : Except String Yaml)
            = _ from hok)
      | int n =>
        rw [hxs, hys] at hok
        exact Except.noConfusion
          (show (Except.error "MergeTypeMismatch" : Except String Yaml)
            = _ from hok)
      | str s =>
        rw [hxs, hys] at hok
        exact Except.noConfusion
          (show (Except.error "MergeTypeMismatch" : Except String Yaml)
            = _ from hok)
      | list l =>
        rw [hxs, hys] at hok
        exact Except.noConfusion
          (show (Except.error "MergeTypeMismatch" : Except String Yaml)
            = _ from hok)
    | null =>
      rw [hxs] at hok
      rw [mergeYaml_catchall fuel _ y (fun a h => Yaml.noConfusion h)] at hok
      by_cases hst : sameType Yaml.null y = true
      · rw [if_pos hst] at hok
        have hyr : y = Yaml.map rm := Except.ok.inj hok
        rw [hyr] at hst
        simp [sameType] at hst
      · rw [if_neg hst] at hok
        exact Except.noConfusion hok
    | bool b0 =>
      rw [hxs] at hok
      rw [mergeYaml_catchall fuel _ y (fun a h => Yaml.noConfusion h)] at hok
      by_cases hst : sameType (Yaml.bool b0) y = true
      · rw [if_pos hst] at hok
        have hyr : y = Yaml.map rm := Except.ok.inj hok
        rw [hyr] at hst
        simp [sameType] at hst
      · rw [if_neg hst] at hok
        exact Except.noConfusion hok
    | int n0 =>
      rw [hxs] at hok
      rw [mergeYaml_catchall fuel _ y (fun a h => Yaml.noConfusion h)] at hok
      by_cases hst : sameType (Yaml.int n0) y = true
      · rw [if_pos hst] at hok
        have hyr : y = Yaml.map rm := Except.ok.inj hok
        rw [hyr] at hst
        simp [sameType] at hst
      · rw [if_neg hst] at hok
        exact Except.noConfusion hok
    | str s0 =>
      rw [hxs] at hok
      rw [mergeYaml_catchall fuel _ y (fun a h => Yaml.noConfusion h)] at hok
      by_cases hst : sameType (Yaml.str s0) y = true
      · rw [if_pos hst] at hok
        have hyr : y = Yaml.map rm := Except.ok.inj hok
        rw [hyr] at hst
        simp [sameType] at hst
      · rw [if_neg hst] at hok
        exact Except.noConfusion hok
    | list l0 =>
      rw [hxs] at hok
      rw [mergeYaml_catchall fuel _ y (fun a h => Yaml.noConfusion h)] at hok
      by_cases hst : sameType (Yaml.list l0) y = true
      · rw [if_pos hst] at hok
        have hyr : y = Yaml.map rm := Except.ok.inj hok
        rw [hyr] at hst
        simp [sameType] at hst
      · rw [if_neg hst] at hok
        exact Except.noConfusion hok

theorem merge_loop_spec :
    ∀ (keys : List String) (fuel : Nat) (plugin_ns : String)
      (wic_steps : Yaml) (subkeys tools_stems : List String) (i : Nat)
      (steps out : List Yaml),
      merge_yml_steps_loop fuel plugin_ns wic_steps subkeys tools_stems i
          keys steps = .ok out →
      (∀ km m, wic_steps.getD km (.map []) = Yaml.map m →
        (m.map Prod.fst).Nodup) →
      out.length = steps.length ∧
      (∀ j, j < i ∨ i + keys.length ≤ j → out.get? j = steps.get? j) ∧
      (∀ j k v, keys.get? j = some k →
        steps.get? (i + j) = some (Yaml.map [(k, v)]) →
        k ∉ subkeys →
        (∀ vm, v = Yaml.map vm → Yaml.ahas "wic" vm = false) →
        ∃ nv, out.get? (i + j) = some (Yaml.map [(k, nv)]) ∧
          ∀ nm, nv = Yaml.map nm → Yaml.ahas "wic" nm = false) := by
  intro keys
  induction keys with
  | nil =>
    intro fuel plugin_ns wic_steps subkeys tools_stems i steps out hok hclean
    rw [merge_yml_steps_loop] at hok
    have hout : steps = out := Except.ok.inj hok
    subst hout
    refine ⟨rfl, fun j _ => rfl, fun j k v hkj _ _ _ => ?_⟩
    simp [List.get?] at hkj
  | cons key rest ih =>
    intro fuel plugin_ns wic_steps subkeys tools_stems i steps out hok hclean
    cases fuel with
    | zero => simp [merge_yml_steps_loop] at hok
    | succ fuel =>
      rw [merge_yml_steps_loop] at hok
      simp only [] at hok
      cases hgi : steps.get? i with
      | none =>
        rw [hgi] at hok
        simp [bind_error_eq] at hok
      | some sv =>
        rw [hgi] at hok
        cases sv with
        | map m =>
          simp only [pure_bind] at hok
          cases hov : Yaml.alookup key m with
          | none =>
            rw [hov] at hok
            simp [bind_error_eq] at hok
          | some oldv =>
            rw [hov] at hok
            simp only [pure_bind] at hok
            by_cases hsk : key ∈ subkeys
            · rw [if_pos hsk] at hok
              cases hsub : oldv.get? "subtree" with
              | none =>
                rw [hsub] at hok
                simp [bind_error_eq] at hok
              | some subtree =>
                rw [hsub] at hok
                simp only [pure_bind] at hok
                cases hmt : merge_yml_trees fuel ⟨⟨key, plugin_ns⟩, subtree⟩
                    (wic_steps.getD (metaKey (i + 1) key) (.map []))
                    tools_stems with
                | error e =>
                  rw [hmt] at hok
                  simp [bind_error_eq] at hok
                | ok merged =>
                  rw [hmt] at hok
                  simp only [bind_ok_eq, pure_bind] at hok
                  cases hod : oldv with
                  | map ov =>
                    rw [hod] at hok
                    simp only [pure_bind] at hok
                    obtain ⟨ih1, ih2, ih3⟩ := ih fuel plugin_ns wic_steps
                      subkeys tools_stems (i + 1) _ out hok hclean
                    refine ⟨?_, ?_, ?_⟩
                    · rw [ih1, List.length_set]
                    · intro j hj
                      have hj2 : j < i + 1 ∨ (i + 1) + rest.length ≤ j := by
                        rcases hj with hj | hj
                        · exact Or.inl (Nat.lt_succ_of_lt hj)
                        · simp only [List.length_cons] at hj
                          omega
                      rw [ih2 j hj2]
                      apply list_getq_set_ne
                      rcases hj with hj | hj
                      · omega
                      · simp only [List.length_cons] at hj
                        omega
                    · intro j k v hkj hsj hksk hv
                      cases j with
                      | zero =>
                        have hkk : key = k := Option.some.inj hkj
                        subst hkk
                        exact absurd hsk hksk
                      | succ j2 =>
                        have harith : i + (j2 + 1) = (i + 1) + j2 := by omega
                        rw [harith] at hsj ⊢
                        have hsj2 := hsj
                        rw [← list_getq_set_ne steps i ((i + 1) + j2)
                          (Yaml.map (Yaml.aset key
                            (Yaml.map (Yaml.aset "subtree" merged.tree ov)) m))
                          (by omega)] at hsj2
                        exact ih3 j2 k v hkj hsj2 hksk hv
                  | null => rw [hod] at hok; simp [bind_error_eq] at hok
                  | bool b => rw [hod] at hok; simp [bind_error_eq] at hok
                  | int n => rw [hod] at hok; simp [bind_error_eq] at hok
                  | str s => rw [hod] at hok; simp [bind_error_eq] at hok
                  | list l => rw [hod] at hok; simp [bind_error_eq] at hok
            · rw [if_neg hsk] at hok
              cases hmg : mergeYaml fuel
                  (if oldv.truthy then oldv else Yaml.map [])
                  (match wic_steps.getD (metaKey (i + 1) key) (.map []) with
                    | Yaml.map m2 => Yaml.map (Yaml.adel "wic" m2)
                    | y => y) with
              | error e =>
                rw [hmg] at hok
                simp [bind_error_eq] at hok
              | ok newv =>
                rw [hmg] at hok
                simp only [bind_ok_eq, pure_bind] at hok
                obtain ⟨ih1, ih2, ih3⟩ := ih fuel plugin_ns wic_steps subkeys
                  tools_stems (i + 1) _ out hok hclean
                have hlt : i < steps.length := list_getq_lt _ _ _ hgi
                refine ⟨?_, ?_, ?_⟩
                · rw [ih1, List.length_set]
                · intro j hj
                  have hj2 : j < i + 1 ∨ (i + 1) + rest.length ≤ j := by
                    rcases hj with hj | hj
                    · exact Or.inl (Nat.lt_succ_of_lt hj)
                    · simp only [List.length_cons] at hj
                      omega
                  rw [ih2 j hj2]
                  apply list_getq_set_ne
                  rcases hj with hj | hj
                  · omega
                  · simp only [List.length_cons] at hj
                    omega
                · intro j k v hkj hsj hksk hv
                  cases j with
                  | zero =>
                    have hkk : key = k := Option.some.inj hkj
                    subst hkk
                    rw [Nat.add_zero] at hsj ⊢
                    rw [hgi] at hsj
                    have hm : m = [(key, v)] :=
                      Yaml.map.inj (Option.some.inj hsj)
                    subst hm
                    have hvv : oldv = v := by
                      have h2 : some v = some oldv := by
                        rw [← hov, Yaml.alookup, if_pos rfl]
                      exact (Option.some.inj h2).symm
                    subst hvv
                    refine ⟨newv, ?_, ?_⟩
                    · have ho := ih2 i (Or.inl (Nat.lt_succ_self i))
                      rw [ho, list_getq_set_self _ _ _ hlt]
                      simp [Yaml.aset]
                    · refine mergeYaml_no_key_any fuel _ _ newv "wic" hmg
                        ?_ ?_
                      · intro a ha
                        by_cases ht : oldv.truthy = true
                        · rw [if_pos ht] at ha
                          exact hv a ha
                        · rw [if_neg ht] at ha
                          have : ([] : List (String × Yaml)) = a :=
                            Yaml.map.inj ha
                          rw [← this]
                          rfl
                      · intro b hb
                        cases hca : wic_steps.getD (metaKey (i + 1) key)
                            (.map []) with
                        | map m2 =>
                          rw [hca] at hb
                          have hb2 : Yaml.adel "wic" m2 = b := Yaml.map.inj hb
                          rw [← hb2]
                          exact ahas_adel_self "wic" m2
                            (hclean (metaKey (i + 1) key) m2 hca)
                        | null => rw [hca] at hb; exact Yaml.noConfusion hb
                        | bool b2 => rw [hca] at hb; exact Yaml.noConfusion hb
                        | int n2 => rw [hca] at hb; exact Yaml.noConfusion hb
                        | str s2 => rw [hca] at hb; exact Yaml.noConfusion hb
                        | list l2 => rw [hca] at hb; exact Yaml.noConfusion hb
                  | succ j2 =>
                    have harith : i + (j2 + 1) = (i + 1) + j2 := by omega
                    rw [harith] at hsj ⊢
                    have hsj2 := hsj
                    rw [← list_getq_set_ne steps i ((i + 1) + j2)
                      (Yaml.map (Yaml.aset key newv m)) (by omega)] at hsj2
                    exact ih3 j2 k v hkj hsj2 hksk hv
        | null => simp [bind_error_eq] at hok
        | bool b => simp [bind_error_eq] at hok
        | int n => simp [bind_error_eq] at hok
        | str s => simp [bind_error_eq] at hok
        | list l => simp [bind_error_eq] at hok

/-- C5 (amended): `merge_yml_trees` strips the `wic` meta sub-key only
from the parent-provided per-step block before merging it into a tool
step's arguments; hence a tool step whose own argument mapping is free of
a top-level `wic` key stays free of it after the merge (whereas a `wic`
key already present in the step's own arguments survives, refuting the
unconditional claim). -/
theorem c5_amended :
    ∀ (fuel : Nat) (tt : YamlTree) (wic_parent : Yaml)
      (tools_stems : List String) (res : YamlTree) (w : Yaml)
      (tm : List (String × Yaml)) (steps : List Yaml),
      merge_yml_trees (fuel + 1) tt wic_parent tools_stems = .ok res →
      tt.tree = .map tm →
      mergeYaml fuel (.map [("wic", tt.tree.getD "wic" (.map []))])
          wic_parent = .ok w →
      pyInStr "backends" (w.getD "wic" (.map [])) = .ok false →
      Yaml.alookup "steps" tm = some (.list steps) →
      (∀ s ∈ steps, ∃ k v, s = Yaml.map [(k, v)]) →
      (∀ km m, ((w.getD "wic" (.map [])).getD "steps" (.map [])).getD km
          (.map []) = Yaml.map m → (m.map Prod.fst).Nodup) →
      ∃ steps2, res.tree.get? "steps" = some (.list steps2) ∧
        steps2.length = steps.length ∧
        ∀ j k v, steps.get? j = some (Yaml.map [(k, v)]) →
          k ∉ get_subkeys (get_steps_keys steps) tools_stems →
          (∀ vm, v = Yaml.map vm → Yaml.ahas "wic" vm = false) →
          ∃ nv, steps2.get? j = some (Yaml.map [(k, nv)]) ∧
            ∀ nm, nv = Yaml.map nm → Yaml.ahas "wic" nm = false := by
  intro fuel tt wic_parent tools_stems res w tm steps hok htm hmw hnb hsteps
    hwf hclean
  rw [merge_yml_trees] at hok
  simp only [] at hok
  rw [hmw] at hok
  simp only [bind_ok_eq] at hok
  rw [htm] at hok
  simp only [setKeyTop, pure_bind] at hok
  rw [hnb] at hok
  simp only [bind_ok_eq, Bool.false_eq_true, if_false] at hok
  simp only [Yaml.get?] at hok
  rw [alookup_aset_ne "wic" "steps" _ tm (by decide), hsteps] at hok
  simp only [pure_bind] at hok
  cases hloop : merge_yml_steps_loop fuel tt.step_id.plugin_ns
      ((w.getD "wic" (.map [])).getD "steps" (.map []))
      (get_subkeys (get_steps_keys steps) tools_stems) tools_stems 0
      (get_steps_keys steps) steps with
  | error e =>
    rw [hloop] at hok
    simp [bind_error_eq] at hok
  | ok steps2 =>
    rw [hloop] at hok
    simp only [bind_ok_eq, pure_bind] at hok
    have hres : res = ⟨tt.step_id, Yaml.map (Yaml.aset "steps" (.list steps2)
        (Yaml.aset "wic" (w.getD "wic" (.map [])) tm))⟩ :=
      (Except.ok.inj hok).symm
    subst hres
    obtain ⟨l1, l2, l3⟩ := merge_loop_spec (get_steps_keys steps) fuel
      tt.step_id.plugin_ns ((w.getD "wic" (.map [])).getD "steps" (.map []))
      (get_subkeys (get_steps_keys steps) tools_stems) tools_stems 0 steps
      steps2 hloop hclean
    refine ⟨steps2, ?_, l1, ?_⟩
    · exact alookup_aset_self _ _ _
    · intro j k v hj hksk hv
      have hkj : (get_steps_keys steps).get? j = some k :=
        steps_keys_get steps j k v hwf hj
      have hj0 : steps.get? (0 + j) = some (Yaml.map [(k, v)]) := by
        rw [Nat.zero_add]
        exact hj
      have hmain := l3 j k v hkj hj0 hksk hv
      rw [Nat.zero_add] at hmain
      exact hmain

/-- C5 amended, applied: one tool step with parent-provided args carrying
a `wic` sub-key that gets stripped. -/
theorem c5_amended_witness :
    ∃ steps2, (YamlTree.mk ⟨"root", "global"⟩ (Yaml.map
        [("steps", Yaml.list [Yaml.map [("tool1",
          Yaml.map [("arg", Yaml.int 2), ("x", Yaml.int 3)])]]),
         ("wic", Yaml.map [("steps", Yaml.map [("(1, tool1)",
          Yaml.map [("x", Yaml.int 3),
            ("wic", Yaml.map [("y", Yaml.int 4)])])])])])).tree.get? "steps"
      = some (.list steps2) ∧
      steps2.length
        = [Yaml.map [("tool1", Yaml.map [("arg", Yaml.int 2)])]].length ∧
      ∀ j k v, [Yaml.map [("tool1", Yaml.map [("arg", Yaml.int 2)])]].get? j
          = some (Yaml.map [(k, v)]) →
        k ∉ get_subkeys (get_steps_keys
          [Yaml.map [("tool1", Yaml.map [("arg", Yaml.int 2)])]]) ["tool1"] →
        (∀ vm, v = Yaml.map vm → Yaml.ahas "wic" vm = false) →
        ∃ nv, steps2.get? j = some (Yaml.map [(k, nv)]) ∧
          ∀ nm, nv = Yaml.map nm → Yaml.ahas "wic" nm = false :=
  c5_amended 2
    ⟨⟨"root", "global"⟩, .map [("steps", .list [.map [("tool1",
      .map [("arg", .int 2)])]])]⟩
    (.map [("wic", .map [("steps", .map [("(1, tool1)",
      .map [("x", .int 3), ("wic", .map [("y", .int 4)])])])])])
    ["tool1"]
    ⟨⟨"root", "global"⟩, .map
      [("steps", .list [.map [("tool1",
        .map [("arg", .int 2), ("x", .int 3)])]]),
       ("wic", .map [("steps", .map [("(1, tool1)",
        .map [("x", .int 3), ("wic", .map [("y", .int 4)])])])])]⟩
    (.map [("wic", .map [("steps", .map [("(1, tool1)",
      .map [("x", .int 3), ("wic", .map [("y", .int 4)])])])])])
    [("steps", .list [.map [("tool1", .map [("arg", .int 2)])]])]
    [.map [("tool1", .map [("arg", .int 2)])]]
    (by rfl) (by rfl) (by rfl) (by rfl) (by rfl)
    (by
      intro s hs
      rcases List.mem_cons.mp hs with h | h
      · exact ⟨"tool1", Yaml.map [("arg", Yaml.int 2)], h⟩
      · simp at h)
    (by
      intro km m hm
      by_cases h : ("(1, tool1)" : String) = km
      · subst h
        have hm2 : Yaml.map [("x", Yaml.int 3),
            ("wic", Yaml.map [("y", Yaml.int 4)])] = Yaml.map m := hm
        rw [← Yaml.map.inj hm2]
        decide
      · have hm2 : (Yaml.alookup km [("(1, tool1)",
            Yaml.map [("x", Yaml.int 3),
              ("wic", Yaml.map [("y", Yaml.int 4)])])]).getD (Yaml.map [])
            = Yaml.map m := hm
        rw [Yaml.alookup, if_neg h, Yaml.alookup, Option.getD_none] at hm2
        rw [← Yaml.map.inj hm2]
        decide)

theorem bind_ok_elim {α β : Type} (x : Except String α)
    (f : α → Except String β) (r : β) (h : (x >>= f) = .ok r) :
    ∃ a, x = .ok a ∧ f a = .ok r := by
  cases x with
  | error e =>
    rw [bind_error_eq] at h
    exact Except.noConfusion h
  | ok a =>
    rw [bind_ok_eq] at h
    exact ⟨a, rfl, h⟩

theorem pyInStr_false_getq (x : String) (y : Yaml)
    (h : pyInStr x y = .ok false) : (y.get? x).isSome = false := by
  cases y with
  | map m =>
    have h2 : Yaml.ahas x m = false := Except.ok.inj h
    rw [Yaml.ahas] at h2
    exact h2
  | list l => rfl
  | str s => rfl
  | null => exact Except.noConfusion h
  | bool b => exact Except.noConfusion h
  | int n => exact Except.noConfusion h

theorem getD_wicTop (z d : Yaml) :
    (Yaml.map [("wic", z)]).getD "wic" d = z := rfl

theorem inline_one_spec (fuel : Nat) (tt : YamlTree) (sn : StepName)
    (t2 : YamlTree) (L : Nat)
    (hok : inline_subworkflow (fuel + 1) tt [sn] = .ok (t2, L))
    (hnb : pyInStr "backends" (tt.tree.getD "wic" (.map [])) = .ok false) :
    ∃ tm steps stepvm entry subtree pargs applied sub_steps newWic,
      tt.tree = Yaml.map tm ∧
      Yaml.alookup "steps" tm = some (.list steps) ∧
      steps.get? sn.idx = some (Yaml.map stepvm) ∧
      Yaml.alookup sn.key stepvm = some entry ∧
      entry.get? "subtree" = some subtree ∧
      entry.get? "parentargs" = some pargs ∧
      apply_args subtree pargs = .ok applied ∧
      applied.get? "steps" = some (.list sub_steps) ∧
      L = sub_steps.length ∧
      t2.tree = Yaml.map (Yaml.aset "wic" newWic (Yaml.aset "steps"
        (.list (steps.take sn.idx ++ sub_steps ++ steps.drop (sn.idx + 1)))
        tm)) := by
  rw [inline_subworkflow] at hok
  rw [if_neg (List.cons_ne_nil sn [])] at hok
  simp only [] at hok
  rw [hnb] at hok
  simp only [bind_ok_eq, Bool.false_eq_true, if_false] at hok
  cases hst : tt.tree.get? "steps" with
  | none =>
    rw [hst] at hok
    simp [bind_error_eq] at hok
  | some sv =>
    rw [hst] at hok
    cases sv with
    | list steps =>
      simp only [pure_bind, List.head?, parse_step_name_str] at hok
      by_cases hns : sn ∈ ((List.range (get_steps_keys steps).length).zip
          (get_steps_keys steps)).map
          (fun p => step_name_str (pathStem tt.step_id.stem) p.1 p.2)
      · rw [if_neg (not_not_intro hns)] at hok
        cases hsv : steps.get? sn.idx with
        | none =>
          rw [hsv] at hok
          simp [bind_error_eq] at hok
        | some stepv =>
          rw [hsv] at hok
          cases stepv with
          | map stepvm =>
            simp only [pure_bind] at hok
            cases hen : Yaml.alookup sn.key stepvm with
            | none =>
              rw [hen] at hok
              simp [bind_error_eq] at hok
            | some entry =>
              rw [hen] at hok
              simp only [pure_bind] at hok
              cases hsub : entry.get? "subtree" with
              | none =>
                rw [hsub] at hok
                simp [bind_error_eq] at hok
              | some subtree =>
                rw [hsub] at hok
                simp only [pure_bind] at hok
                cases hpa : entry.get? "parentargs" with
                | none =>
                  rw [hpa] at hok
                  simp [bind_error_eq] at hok
                | some pargs =>
                  rw [hpa] at hok
                  simp only [pure_bind] at hok
                  rw [if_pos (by simp : ([sn] : List StepName).length = 1)]
                    at hok
                  cases hap : apply_args subtree pargs with
                  | error e =>
                    rw [hap] at hok
                    simp [bind_error_eq] at hok
                  | ok applied =>
                    rw [hap] at hok
                    simp only [bind_ok_eq] at hok
                    cases hss : applied.get? "steps" with
                    | none =>
                      rw [hss] at hok
                      simp [bind_error_eq] at hok
                    | some ssv =>
                      rw [hss] at hok
                      cases ssv with
                      | list sub_steps =>
                        simp only [pure_bind] at hok
                        cases htt : tt.tree with
                        | map tm =>
                          rw [htt] at hok
                          simp only [setKeyTop, pure_bind] at hok
                          rw [getD_wicTop] at hok
                          cases hwi : (Yaml.map tm).getD "wic"
                              (Yaml.map []) with
                          | map wim =>
                            rw [hwi] at hok
                            simp only [pure_bind] at hok
                            cases hstg : Yaml.alookup "steps" wim with
                            | none =>
                              rw [hstg] at hok
                              simp only [pure_bind, Yaml.alookup] at hok
                              obtain ⟨merged, hmg0, hok⟩ :=
                                bind_ok_elim _ _ _ hok
                              beta_reduce at hok
                              obtain ⟨newWic, hwt0, hok⟩ :=
                                bind_ok_elim _ _ _ hok
                              have hpair := Prod.mk.inj (Except.ok.inj hok)
                              exact ⟨tm, steps, stepvm, entry, subtree,
                                pargs, applied, sub_steps, newWic, rfl,
                                (by rw [htt] at hst; exact hst), hsv, hen,
                                hsub, hpa, hap, hss, hpair.2.symm,
                                (by rw [← hpair.1])⟩
                            | some stg =>
                              rw [hstg] at hok
                              cases stg with
                              | map stgm =>
                                simp only [pure_bind] at hok
                                cases hent : Yaml.alookup
                                    (metaKey (sn.idx + 1) sn.key) stgm with
                                | none =>
                                  rw [hent] at hok
                                  simp only [pure_bind] at hok
                                  obtain ⟨merged, hmg0, hok⟩ :=
                                    bind_ok_elim _ _ _ hok
                                  beta_reduce at hok
                                  obtain ⟨newWic, hwt0, hok⟩ :=
                                    bind_ok_elim _ _ _ hok
                                  have hpair := Prod.mk.inj
                                    (Except.ok.inj hok)
                                  exact ⟨tm, steps, stepvm, entry, subtree,
                                    pargs, applied, sub_steps, newWic, rfl,
                                    (by rw [htt] at hst; exact hst), hsv,
                                    hen, hsub, hpa, hap, hss, hpair.2.symm,
                                    (by rw [← hpair.1])⟩
                                | some ent =>
                                  rw [hent] at hok
                                  cases ent with
                                  | map entm =>
                                    simp only [pure_bind] at hok
                                    obtain ⟨merged, hmg0, hok⟩ :=
                                      bind_ok_elim _ _ _ hok
                                    beta_reduce at hok
                                    obtain ⟨newWic, hwt0, hok⟩ :=
                                      bind_ok_elim _ _ _ hok
                                    have hpair := Prod.mk.inj
                                      (Except.ok.inj hok)
                                    exact ⟨tm, steps, stepvm, entry, subtree,
                                      pargs, applied, sub_steps, newWic, rfl,
                                      (by rw [htt] at hst; exact hst), hsv,
                                      hen, hsub, hpa, hap, hss,
                                      hpair.2.symm, (by rw [← hpair.1])⟩
                                  | null => simp [bind_error_eq] at hok
                                  | bool b => simp [bind_error_eq] at hok
                                  | int n => simp [bind_error_eq] at hok
                                  | str s => simp [bind_error_eq] at hok
                                  | list l => simp [bind_error_eq] at hok
                              | null => simp [bind_error_eq] at hok
                              | bool b => simp [bind_error_eq] at hok
                              | int n => simp [bind_error_eq] at hok
                              | str s => simp [bind_error_eq] at hok
                              | list l => simp [bind_error_eq] at hok
                          | null =>
                            rw [hwi] at hok
                            simp [bind_error_eq] at hok
                          | bool b =>
                            rw [hwi] at hok
                            simp [bind_error_eq] at hok
                          | int n =>
                            rw [hwi] at hok
                            simp [bind_error_eq] at hok
                          | str s =>
                            rw [hwi] at hok
                            simp [bind_error_eq] at hok
                          | list l =>
                            rw [hwi] at hok
                            simp [bind_error_eq] at hok
                        | null =>
                          rw [htt] at hst
                          simp [Yaml.get?] at hst
                        | bool b =>
                          rw [htt] at hst
                          simp [Yaml.get?] at hst
                        | int n =>
                          rw [htt] at hst
                          simp [Yaml.get?] at hst
                        | str s =>
                          rw [htt] at hst
                          simp [Yaml.get?] at hst
                        | list l =>
                          rw [htt] at hst
                          simp [Yaml.get?] at hst
                      | null => simp [bind_error_eq] at hok
                      | bool b => simp [bind_error_eq] at hok
                      | int n => simp [bind_error_eq] at hok
                      | str s => simp [bind_error_eq] at hok
                      | map mm => simp [bind_error_eq] at hok
          | null => simp [bind_error_eq] at hok
          | bool b => simp [bind_error_eq] at hok
          | int n => simp [bind_error_eq] at hok
          | str s => simp [bind_error_eq] at hok
          | list l => simp [bind_error_eq] at hok
      · rw [if_pos hns] at hok
        simp [bind_error_eq] at hok
    | null => simp [bind_error_eq] at hok
    | bool b => simp [bind_error_eq] at hok
    | int n => simp [bind_error_eq] at hok
    | str s => simp [bind_error_eq] at hok
    | map mm => simp [bind_error_eq] at hok

/-- C1: for a length-1 namespace path naming a subworkflow step at 0-based
position `i` whose body contributes `L` steps, `inline_subworkflow` returns
a document with the parent's step count plus `L - 1`; and
`inline_subworkflow_wic_tag` deletes the per-step meta entry of the
replaced step, re-indexes the subworkflow's own meta keys by offset `i`,
and renames exactly the parent meta keys with 1-based index `m > i + 1` to
`m + L - 1` (under the well-formedness of meta keys: canonical, unique,
index `i+1` naming the replaced step, and no sub step re-creating the
deleted key). -/
theorem c1_splice_count_and_reindex :
    (∀ fuel tt sn t2 L steps,
      inline_subworkflow (fuel + 1) tt [sn] = .ok (t2, L) →
      pyInStr "backends" (tt.tree.getD "wic" (.map [])) = .ok false →
      tt.tree.get? "steps" = some (.list steps) →
      ∃ newSteps, t2.tree.get? "steps" = some (.list newSteps) ∧
        newSteps.length + 1 = steps.length + L) ∧
    (∀ fuel (sn : StepName) L res nm wm stepsm subm, 1 ≤ L →
      Yaml.alookup "wic" nm = some (.map wm) →
      Yaml.alookup "steps" wm = some (.map stepsm) →
      (((Yaml.alookup (metaKey (sn.idx + 1) sn.key) stepsm).getD
        (.map [])).getD "wic" (.map [])).getD "steps" (.map [])
        = Yaml.map subm →
      (∀ kv ∈ stepsm, ∃ m km, kv.1 = metaKey m km ∧
        (m = sn.idx + 1 → km = sn.key)) →
      (∀ kv ∈ subm, ∃ m km, kv.1 = metaKey m km ∧ 1 ≤ m ∧ m ≤ L) →
      (stepsm.map Prod.fst).Nodup →
      Yaml.ahas (metaKey (sn.idx + 1) sn.key) stepsm = true →
      (∀ v, (metaKey 1 sn.key, v) ∉ subm) →
      inline_subworkflow_wic_tag (fuel + 1) (.map nm) [sn] L = .ok res →
      ∃ steps2, res.get? "steps" = some (.map steps2) ∧
        Yaml.ahas (metaKey (sn.idx + 1) sn.key) steps2 = false ∧
        steps2.length + 1 = subm.length + stepsm.length ∧
        (∀ m km v, (metaKey m km, v) ∈ stepsm →
          (m, km) ≠ (sn.idx + 1, sn.key) →
          (metaKey (if sn.idx + 1 < m then m + (L - 1) else m) km, v)
            ∈ steps2) ∧
        (∀ m km v, (metaKey m km, v) ∈ subm →
          (metaKey (m + sn.idx) km, v) ∈ steps2)) := by
  constructor
  · intro fuel tt sn t2 L steps hok hnb hsteps
    obtain ⟨tm, steps0, stepvm, entry, subtree, pargs, applied, sub_steps,
      newWic, htm, hal, hsv, _, _, _, _, _, hLe, ht2⟩ :=
      inline_one_spec fuel tt sn t2 L hok hnb
    have hs0 : steps0 = steps := by
      rw [htm] at hsteps
      have h2 : some (Yaml.list steps0) = some (Yaml.list steps) := by
        rw [← hal]
        exact hsteps
      exact Yaml.list.inj (Option.some.inj h2)
    subst hs0
    have hlt : sn.idx < steps0.length := list_getq_lt _ _ _ hsv
    refine ⟨steps0.take sn.idx ++ sub_steps ++ steps0.drop (sn.idx + 1),
      ?_, ?_⟩
    · rw [ht2]
      show Yaml.alookup "steps" _ = _
      rw [alookup_aset_ne "wic" "steps" _ _ (by decide), alookup_aset_self]
    · rw [hLe]
      simp only [List.length_append, List.length_take, List.length_drop]
      omega
  · intro fuel sn L res nm wm stepsm subm hL h2 h3 hsubm hform hsubform hnd
      hmem hclash hrun
    -- the parent side of the re-indexed merge
    have hformDel : ∀ kv ∈ Yaml.adel (metaKey (sn.idx + 1) sn.key) stepsm,
        ∃ m km, kv.1 = metaKey m km ∧ m ≠ sn.idx + 1 := by
      intro kv hkv
      obtain ⟨m, km, hk, himp⟩ := hform kv (mem_of_mem_adel _ _ _ hkv)
      refine ⟨m, km, hk, ?_⟩
      intro hmeq
      have hne := fst_ne_of_mem_adel _ _ _ hnd hkv
      rw [hk, hmeq, himp hmeq] at hne
      exact hne rfl
    have hdisj : ∀ kv ∈ reindex_wic_steps subm 1 sn.idx,
        Yaml.ahas kv.1 (reindex_wic_steps
          (Yaml.adel (metaKey (sn.idx + 1) sn.key) stepsm)
          (sn.idx + 1) (L - 1)) = false := by
      intro kv hkv
      obtain ⟨m, km, v0, hmem0, ⟨hm1, hmL⟩, hcase⟩ :=
        reindex_keys subm 1 sn.idx _ hsubform kv hkv
      by_contra hhas
      rw [Bool.not_eq_false, ahas_iff_mem_keys] at hhas
      obtain ⟨kv2, hkv2, hfst⟩ := List.mem_map.mp hhas
      obtain ⟨m2, km2, v2, hmem2, hne2, hcase2⟩ :=
        reindex_keys _ (sn.idx + 1) (L - 1) _ hformDel kv2 hkv2
      rcases hcase with ⟨hlt1, hkve⟩ | ⟨hge1, hkve⟩
      · omega
      · rcases hcase2 with ⟨hlt2, hkv2e⟩ | ⟨hge2, hkv2e⟩
        · rw [hkve] at hfst
          rw [hkv2e] at hfst
          have := (metaKey_inj _ _ _ _ hfst).1
          omega
        · rw [hkve] at hfst
          rw [hkv2e] at hfst
          have := (metaKey_inj _ _ _ _ hfst).1
          omega
    -- destructure the run
    rw [inline_subworkflow_wic_tag] at hrun
    simp only [Yaml.get?] at hrun
    rw [h2] at hrun
    simp only [pure_bind, List.map] at hrun
    obtain ⟨root, hwalk, hrun⟩ := bind_ok_elim _ _ _ hrun
    have hsp : wicTagSplice (fuel + 1) (.map nm) sn.idx sn.key L
        = .ok root := hwalk
    rw [wicTagSplice] at hsp
    simp only [Yaml.getD, pure_bind] at hsp
    rw [h2] at hsp
    simp only [Option.getD_some, Yaml.getD] at hsp
    rw [h3] at hsp
    simp only [Option.getD_some, Yaml.getD] at hsp
    simp only [Yaml.getD] at hsubm
    rw [hsubm] at hsp
    simp only [pure_bind] at hsp
    rw [mergeYaml_disjoint fuel _ _ hdisj] at hsp
    simp only [bind_ok_eq, pure_bind] at hsp
    have hroot : root = Yaml.map (Yaml.aset "wic" (Yaml.map (Yaml.aset
        "steps" (Yaml.map (reindex_wic_steps subm 1 sn.idx ++
          reindex_wic_steps (Yaml.adel (metaKey (sn.idx + 1) sn.key) stepsm)
            (sn.idx + 1) (L - 1))) wm)) nm) :=
      (Except.ok.inj hsp).symm
    subst hroot
    simp only [Yaml.get?, alookup_aset_self, pure_bind] at hrun
    have hres : res = Yaml.map (Yaml.aset "steps" (Yaml.map
        (reindex_wic_steps subm 1 sn.idx ++
          reindex_wic_steps (Yaml.adel (metaKey (sn.idx + 1) sn.key) stepsm)
            (sn.idx + 1) (L - 1))) wm) :=
      (Except.ok.inj hrun).symm
    subst hres
    refine ⟨reindex_wic_steps subm 1 sn.idx ++ reindex_wic_steps
      (Yaml.adel (metaKey (sn.idx + 1) sn.key) stepsm) (sn.idx + 1) (L - 1),
      ?_, ?_, ?_, ?_, ?_⟩
    · simp only [Yaml.get?, alookup_aset_self]
    · -- the deleted key is absent
      by_contra hhas
      rw [Bool.not_eq_false, ahas_iff_mem_keys] at hhas
      obtain ⟨kv, hkv, hfst⟩ := List.mem_map.mp hhas
      rcases List.mem_append.mp hkv with hkv | hkv
      · obtain ⟨m, km, v0, hmem0, ⟨hm1, hmL⟩, hcase⟩ :=
          reindex_keys subm 1 sn.idx _ hsubform kv hkv
        rcases hcase with ⟨hlt1, hkve⟩ | ⟨hge1, hkve⟩
        · omega
        · rw [hkve] at hfst
          obtain ⟨hmeq, hkmeq⟩ := metaKey_inj _ _ _ _ hfst
          have hm : m = 1 := by omega
          subst hm hkmeq
          exact hclash v0 hmem0
      · obtain ⟨m, km, v0, hmem0, hne0, hcase⟩ :=
          reindex_keys _ (sn.idx + 1) (L - 1) _ hformDel kv hkv
        rcases hcase with ⟨hlt2, hkve⟩ | ⟨hge2, hkve⟩
        · rw [hkve] at hfst
          have := (metaKey_inj _ _ _ _ hfst).1
          omega
        · rw [hkve] at hfst
          have := (metaKey_inj _ _ _ _ hfst).1
          omega
    · -- length
      simp only [List.length_append, reindex_length]
      have := adel_length_of_has _ _ hmem
      omega
    · -- parent membership
      intro m km v hin hne
      have hmne : m ≠ sn.idx + 1 := by
        intro hmeq
        obtain ⟨m2, km2, hk2, himp2⟩ := hform (metaKey m km, v) hin
        obtain ⟨hm2, hkm2⟩ := metaKey_inj _ _ _ _ hk2
        apply hne
        rw [hmeq, hkm2, himp2 (by omega)]
      have hadel : (metaKey m km, v) ∈
          Yaml.adel (metaKey (sn.idx + 1) sn.key) stepsm := by
        apply mem_adel_of_mem _ _ _ hin
        intro hkeq
        have := metaKey_inj _ _ _ _ hkeq
        exact hmne this.1
      have hmem2 := mem_reindex_of_mem _ (sn.idx + 1) (L - 1) m km v hadel
      apply List.mem_append_right
      by_cases hc : sn.idx + 1 ≤ m
      · rw [if_pos hc] at hmem2
        rw [if_pos (by omega)]
        exact hmem2
      · rw [if_neg hc] at hmem2
        rw [if_neg (by omega)]
        exact hmem2
    · -- sub membership
      intro m km v hin
      have h1m : 1 ≤ m := by
        obtain ⟨m2, km2, hk2, hm2, hmL2⟩ := hsubform (metaKey m km, v) hin
        obtain ⟨hme, _⟩ := metaKey_inj _ _ _ _ hk2
        omega
      have hmem2 := mem_reindex_of_mem subm 1 sn.idx m km v hin
      rw [if_pos h1m] at hmem2
      exact List.mem_append_left _ hmem2

/-- C1 applied: a concrete two-step splice at position 0, and a concrete
wic-tag with one sub meta step and two sibling meta steps. -/
theorem c1_splice_count_and_reindex_witness :
    (∃ newSteps, (YamlTree.mk ⟨"root", "global"⟩ (Yaml.map
        [("steps", Yaml.list [Yaml.map [("A", Yaml.null)],
          Yaml.map [("B", Yaml.null)]]),
         ("wic", Yaml.map [("steps", Yaml.map [])])])).tree.get? "steps"
      = some (.list newSteps) ∧
      newSteps.length + 1 = [Yaml.map [("sub", Yaml.map
        [("subtree", Yaml.map [("steps", Yaml.list [Yaml.map [("A", Yaml.null)],
          Yaml.map [("B", Yaml.null)]])]),
         ("parentargs", Yaml.map [])])]].length + 2) ∧
    (∃ steps2, (Yaml.map [("steps", Yaml.map [("(1, S)", Yaml.int 9),
        ("(3, B)", Yaml.int 7), ("(4, C)", Yaml.int 8)])]).get? "steps"
      = some (.map steps2) ∧
      Yaml.ahas (metaKey (StepName.idx ⟨"x", 0, "A"⟩ + 1)
        (StepName.key ⟨"x", 0, "A"⟩)) steps2 = false ∧
      steps2.length + 1 = [("(1, S)", Yaml.int 9)].length +
        [("(1, A)", Yaml.map [("wic", Yaml.map [("steps",
          Yaml.map [("(1, S)", Yaml.int 9)])])]),
         ("(2, B)", Yaml.int 7), ("(3, C)", Yaml.int 8)].length ∧
      (∀ m km v, (metaKey m km, v) ∈
          [("(1, A)", Yaml.map [("wic", Yaml.map [("steps",
            Yaml.map [("(1, S)", Yaml.int 9)])])]),
           ("(2, B)", Yaml.int 7), ("(3, C)", Yaml.int 8)] →
        (m, km) ≠ (StepName.idx ⟨"x", 0, "A"⟩ + 1,
          StepName.key ⟨"x", 0, "A"⟩) →
        (metaKey (if StepName.idx ⟨"x", 0, "A"⟩ + 1 < m
          then m + (2 - 1) else m) km, v) ∈ steps2) ∧
      (∀ m km v, (metaKey m km, v) ∈ [("(1, S)", Yaml.int 9)] →
        (metaKey (m + StepName.idx ⟨"x", 0, "A"⟩) km, v) ∈ steps2)) := by
  constructor
  · exact c1_splice_count_and_reindex.1 2
      ⟨⟨"root", "global"⟩, .map [("steps", .list [.map [("sub", .map
        [("subtree", .map [("steps", .list [.map [("A", .null)],
          .map [("B", .null)]])]),
         ("parentargs", .map [])])]])]⟩
      ⟨"root", 0, "sub"⟩
      ⟨⟨"root", "global"⟩, .map
        [("steps", .list [.map [("A", .null)], .map [("B", .null)]]),
         ("wic", .map [("steps", .map [])])]⟩
      2
      [.map [("sub", .map
        [("subtree", .map [("steps", .list [.map [("A", .null)],
          .map [("B", .null)]])]),
         ("parentargs", .map [])])]]
      (by rfl) (by rfl) (by rfl)
  · exact c1_splice_count_and_reindex.2 0 ⟨"x", 0, "A"⟩ 2
      (.map [("steps", .map [("(1, S)", .int 9), ("(3, B)", .int 7),
        ("(4, C)", .int 8)])])
      [("wic", .map [("steps", .map
        [("(1, A)", .map [("wic", .map [("steps",
          .map [("(1, S)", .int 9)])])]),
         ("(2, B)", .int 7), ("(3, C)", .int 8)])])]
      [("steps", .map
        [("(1, A)", .map [("wic", .map [("steps",
          .map [("(1, S)", .int 9)])])]),
         ("(2, B)", .int 7), ("(3, C)", .int 8)])]
      [("(1, A)", .map [("wic", .map [("steps",
        .map [("(1, S)", .int 9)])])]),
       ("(2, B)", .int 7), ("(3, C)", .int 8)]
      [("(1, S)", .int 9)]
      (by decide) (by rfl) (by rfl) (by rfl)
      (by
        intro kv hkv
        rcases List.mem_cons.mp hkv with h | h
        · exact h ▸ ⟨1, "A", by decide, fun _ => rfl⟩
        · rcases List.mem_cons.mp h with h2 | h2
          · exact h2 ▸ ⟨2, "B", by decide, fun hq => absurd hq (by decide)⟩
          · rcases List.mem_cons.mp h2 with h3 | h3
            · exact h3 ▸ ⟨3, "C", by decide, fun hq => absurd hq (by decide)⟩
            · simp at h3)
      (by
        intro kv hkv
        rcases List.mem_cons.mp hkv with h | h
        · exact h ▸ ⟨1, "S", by decide, by decide, by decide⟩
        · simp at h)
      (by decide) (by decide)
      (by
        intro v hv
        rcases List.mem_cons.mp hv with h | h
        · have hq : metaKey 1 (StepName.key ⟨"x", 0, "A"⟩) = "(1, S)" :=
            congrArg Prod.fst h
          exact absurd hq (by decide)
        · simp at h)
      (by rfl)

theorem inline_back_spec (fuel : Nat) (tt : YamlTree) (ns : Namespaces)
    (t2 : YamlTree) (L : Nat) (hne : ns ≠ [])
    (hok : inline_subworkflow (fuel + 1) tt ns = .ok (t2, L))
    (hb : pyInStr "backends" (tt.tree.getD "wic" (.map [])) = .ok true) :
    ∃ wm, tt.tree.getD "wic" (.map []) = Yaml.map wm ∧
      Yaml.ahas "backends" wm = true ∧ L = 0 := by
  rw [inline_subworkflow] at hok
  rw [if_neg hne] at hok
  simp only [] at hok
  rw [hb] at hok
  simp only [bind_ok_eq, if_true] at hok
  cases hwi : tt.tree.getD "wic" (.map []) with
  | map wm =>
    rw [hwi] at hok hb
    have hhas : Yaml.ahas "backends" wm = true := Except.ok.inj hb
    refine ⟨wm, rfl, hhas, ?_⟩
    by_cases hlen : ns.length = 1
    · rw [if_pos hlen] at hok
      cases hex : extract_backend (Yaml.map wm) with
      | error e =>
        rw [hex] at hok
        simp [bind_error_eq] at hok
      | ok pr =>
        rw [hex] at hok
        obtain ⟨bn, body⟩ := pr
        simp only [bind_ok_eq] at hok
        cases hbs : body.get? "steps" with
        | none =>
          rw [hbs] at hok
          simp [bind_error_eq] at hok
        | some sv =>
          rw [hbs] at hok
          simp only [pure_bind] at hok
          exact (Prod.mk.inj (Except.ok.inj hok)).2.symm
    · rw [if_neg hlen] at hok
      simp only [Yaml.getD] at hok
      cases hbk : (Yaml.alookup "backends" wm).getD (Yaml.map []) with
      | map bks =>
        rw [hbk] at hok
        simp only [pure_bind] at hok
        obtain ⟨bts, hbts, hok⟩ := bind_ok_elim _ _ _ hok
        beta_reduce at hok
        cases htt : tt.tree with
        | map tm =>
          rw [htt] at hok
          simp only [] at hok
          cases hal : Yaml.alookup "wic" tm with
          | none =>
            rw [hal] at hok
            simp [bind_error_eq] at hok
          | some wv =>
            rw [hal] at hok
            cases wv with
            | map wm2 =>
              simp only [pure_bind] at hok
              exact (Prod.mk.inj (Except.ok.inj hok)).2.symm
            | null => simp [bind_error_eq] at hok
            | bool b => simp [bind_error_eq] at hok
            | int n => simp [bind_error_eq] at hok
            | str s => simp [bind_error_eq] at hok
            | list l => simp [bind_error_eq] at hok
        | null => rw [htt] at hok; simp [bind_error_eq] at hok
        | bool b => rw [htt] at hok; simp [bind_error_eq] at hok
        | int n => rw [htt] at hok; simp [bind_error_eq] at hok
        | str s => rw [htt] at hok; simp [bind_error_eq] at hok
        | list l => rw [htt] at hok; simp [bind_error_eq] at hok
      | null => rw [hbk] at hok; simp [bind_error_eq] at hok
      | bool b => rw [hbk] at hok; simp [bind_error_eq] at hok
      | int n => rw [hbk] at hok; simp [bind_error_eq] at hok
      | str s => rw [hbk] at hok; simp [bind_error_eq] at hok
      | list l => rw [hbk] at hok; simp [bind_error_eq] at hok
  | list l =>
    rw [hwi] at hok
    by_cases hlen : ns.length = 1
    · rw [if_pos hlen] at hok
      have hex : extract_backend (Yaml.list l)
          = .error "Error! no backend selected" := rfl
      rw [hex] at hok
      simp [bind_error_eq] at hok
    · rw [if_neg hlen] at hok
      simp only [Yaml.getD] at hok
      simp only [pure_bind] at hok
      obtain ⟨bts, hbts, hok⟩ := bind_ok_elim _ _ _ hok
      beta_reduce at hok
      cases htt : tt.tree with
      | map tm =>
        rw [htt] at hwi
        rw [htt] at hok
        simp only [] at hok
        cases hal : Yaml.alookup "wic" tm with
        | none =>
          rw [hal] at hok
          simp [bind_error_eq] at hok
        | some wv =>
          have hwv : wv = Yaml.list l := by
            simp only [Yaml.getD, hal, Option.getD_some] at hwi
            exact hwi
          subst hwv
          rw [hal] at hok
          simp [bind_error_eq] at hok
      | null =>
        rw [htt] at hok
        simp [bind_error_eq] at hok
      | bool b =>
        rw [htt] at hok
        simp [bind_error_eq] at hok
      | int n =>
        rw [htt] at hok
        simp [bind_error_eq] at hok
      | str s =>
        rw [htt] at hok
        simp [bind_error_eq] at hok
      | list l2 =>
        rw [htt] at hok
        simp [bind_error_eq] at hok
  | str s =>
    rw [hwi] at hok
    by_cases hlen : ns.length = 1
    · rw [if_pos hlen] at hok
      have hex : extract_backend (Yaml.str s)
          = .error "Error! no backend selected" := rfl
      rw [hex] at hok
      simp [bind_error_eq] at hok
    · rw [if_neg hlen] at hok
      simp only [Yaml.getD] at hok
      simp only [pure_bind] at hok
      obtain ⟨bts, hbts, hok⟩ := bind_ok_elim _ _ _ hok
      beta_reduce at hok
      cases htt : tt.tree with
      | map tm =>
        rw [htt] at hwi
        rw [htt] at hok
        simp only [] at hok
        cases hal : Yaml.alookup "wic" tm with
        | none =>
          rw [hal] at hok
          simp [bind_error_eq] at hok
        | some wv =>
          have hwv : wv = Yaml.str s := by
            simp only [Yaml.getD, hal, Option.getD_some] at hwi
            exact hwi
          subst hwv
          rw [hal] at hok
          simp [bind_error_eq] at hok
      | null =>
        rw [htt] at hok
        simp [bind_error_eq] at hok
      | bool b =>
        rw [htt] at hok
        simp [bind_error_eq] at hok
      | int n =>
        rw [htt] at hok
        simp [bind_error_eq] at hok
      | str s2 =>
        rw [htt] at hok
        simp [bind_error_eq] at hok
      | list l =>
        rw [htt] at hok
        simp [bind_error_eq] at hok
  | null => rw [hwi] at hb; exact absurd hb (by simp [pyInStr])
  | bool b => rw [hwi] at hb; exact absurd hb (by simp [pyInStr])
  | int n => rw [hwi] at hb; exact absurd hb (by simp [pyInStr])

theorem inline_deep_spec (fuel : Nat) (tt : YamlTree) (sn r : StepName)
    (rs : List StepName) (t2 : YamlTree) (L : Nat)
    (hok : inline_subworkflow (fuel + 1) tt (sn :: r :: rs) = .ok (t2, L))
    (hnb : pyInStr "backends" (tt.tree.getD "wic" (.map [])) = .ok false) :
    ∃ steps stepvm entry subtree pargs rec_t,
      tt.tree.get? "steps" = some (.list steps) ∧
      steps.get? sn.idx = some (Yaml.map stepvm) ∧
      Yaml.alookup sn.key stepvm = some entry ∧
      entry.get? "subtree" = some subtree ∧
      entry.get? "parentargs" = some pargs ∧
      inline_subworkflow fuel ⟨⟨sn.key, tt.step_id.plugin_ns⟩, subtree⟩
        (r :: rs) = .ok (rec_t, L) := by
  rw [inline_subworkflow] at hok
  rw [if_neg (List.cons_ne_nil sn (r :: rs))] at hok
  simp only [] at hok
  rw [hnb] at hok
  simp only [bind_ok_eq, Bool.false_eq_true, if_false] at hok
  cases hst : tt.tree.get? "steps" with
  | none =>
    rw [hst] at hok
    simp [bind_error_eq] at hok
  | some sv =>
    rw [hst] at hok
    cases sv with
    | list steps =>
      simp only [pure_bind, List.head?, parse_step_name_str] at hok
      by_cases hns : sn ∈ ((List.range (get_steps_keys steps).length).zip
          (get_steps_keys steps)).map
          (fun p => step_name_str (pathStem tt.step_id.stem) p.1 p.2)
      · rw [if_neg (not_not_intro hns)] at hok
        cases hsv : steps.get? sn.idx with
        | none =>
          rw [hsv] at hok
          simp [bind_error_eq] at hok
        | some stepv =>
          rw [hsv] at hok
          cases stepv with
          | map stepvm =>
            simp only [pure_bind] at hok
            cases hen : Yaml.alookup sn.key stepvm with
            | none =>
              rw [hen] at hok
              simp [bind_error_eq] at hok
            | some entry =>
              rw [hen] at hok
              simp only [pure_bind] at hok
              cases hsub : entry.get? "subtree" with
              | none =>
                rw [hsub] at hok
                simp [bind_error_eq] at hok
              | some subtree =>
                rw [hsub] at hok
                simp only [pure_bind] at hok
                cases hpa : entry.get? "parentargs" with
                | none =>
                  rw [hpa] at hok
                  simp [bind_error_eq] at hok
                | some pargs =>
                  rw [hpa] at hok
                  simp only [pure_bind] at hok
                  rw [if_neg (by simp :
                    ¬((sn :: r :: rs : List StepName).length = 1))] at hok
                  obtain ⟨recres, hrec, hok⟩ := bind_ok_elim _ _ _ hok
                  beta_reduce at hok
                  obtain ⟨yaml_tree1, hyt1, hok⟩ := bind_ok_elim _ _ _ hok
                  beta_reduce at hok
                  obtain ⟨newWic, hwt0, hok⟩ := bind_ok_elim _ _ _ hok
                  beta_reduce at hok
                  obtain ⟨yaml_tree2, hyt2, hok⟩ := bind_ok_elim _ _ _ hok
                  have hpair := Prod.mk.inj (Except.ok.inj hok)
                  refine ⟨steps, stepvm, entry, subtree, pargs, recres.1,
                    rfl, hsv, hen, hsub, hpa, ?_⟩
                  rw [← hpair.2]
                  exact hrec
          | null => simp [bind_error_eq] at hok
          | bool b => simp [bind_error_eq] at hok
          | int n => simp [bind_error_eq] at hok
          | str s => simp [bind_error_eq] at hok
          | list l => simp [bind_error_eq] at hok
      · rw [if_pos hns] at hok
        simp [bind_error_eq] at hok
    | null => simp [bind_error_eq] at hok
    | bool b => simp [bind_error_eq] at hok
    | int n => simp [bind_error_eq] at hok
    | str s => simp [bind_error_eq] at hok
    | map mm => simp [bind_error_eq] at hok

/-- C8: `inline_subworkflow` takes its input by value (the source deep
copies before mutating, so the caller's document tuple is unchanged) and
returns the transformed document together with the splice arity: whenever
it succeeds, the returned count is exactly the arity that `spliceArity`
computes for the same document and namespace path. -/
theorem c8_returns_splice_arity :
    ∀ (fuel : Nat) (tt : YamlTree) (ns : Namespaces) (t2 : YamlTree)
      (L : Nat),
      inline_subworkflow fuel tt ns = .ok (t2, L) →
      spliceArity fuel tt ns = some L := by
  intro fuel
  induction fuel with
  | zero =>
    intro tt ns t2 L hok
    exact Except.noConfusion (show (Except.error "fuel exhausted"
      : Except String (YamlTree × Nat)) = _ from hok)
  | succ fuel ih =>
    intro tt ns t2 L hok
    cases ns with
    | nil =>
      rw [inline_subworkflow, if_pos rfl] at hok
      have hp := Prod.mk.inj (Except.ok.inj hok)
      rw [spliceArity, ← hp.2]
    | cons sn rest =>
      cases hback : pyInStr "backends" (tt.tree.getD "wic" (.map [])) with
      | error e =>
        rw [inline_subworkflow, if_neg (List.cons_ne_nil sn rest)] at hok
        simp only [] at hok
        rw [hback] at hok
        simp [bind_error_eq] at hok
      | ok b =>
        cases b with
        | true =>
          obtain ⟨wm, hwi, hhas, hL0⟩ := inline_back_spec fuel tt
            (sn :: rest) t2 L (List.cons_ne_nil sn rest) hok hback
          subst hL0
          rw [spliceArity]
          simp only [hwi, Yaml.get?]
          rw [show (Yaml.alookup "backends" wm).isSome
            = Yaml.ahas "backends" wm from rfl, hhas]
          rw [if_pos rfl]
        | false =>
          have hiso := pyInStr_false_getq _ _ hback
          cases rest with
          | nil =>
            obtain ⟨tm, steps, stepvm, entry, subtree, pargs, applied,
              sub_steps, newWic, htm, hal, hsv, hen, hsub, hpa, hap, hss,
              hLe, ht2⟩ := inline_one_spec fuel tt sn t2 L hok hback
            have htl : tt.tree.get? "steps" = some (.list steps) := by
              rw [htm]
              exact hal
            rw [spliceArity]
            rw [hiso]
            simp only [Bool.false_eq_true, if_false]
            rw [htl]
            simp only []
            rw [hsv]
            simp only []
            rw [show Yaml.get? (Yaml.map stepvm) sn.key = some entry from hen]
            simp only []
            rw [hsub, hpa]
            simp only []
            rw [hap]
            simp only []
            rw [hss, hLe]
          | cons r rs =>
            obtain ⟨steps, stepvm, entry, subtree, pargs, rec_t, hst, hsv,
              hen, hsub, hpa, hrec⟩ := inline_deep_spec fuel tt sn r rs t2 L
              hok hback
            rw [spliceArity]
            rw [hiso]
            simp only [Bool.false_eq_true, if_false]
            rw [hst]
            simp only []
            rw [hsv]
            simp only []
            rw [show Yaml.get? (Yaml.map stepvm) sn.key = some entry from hen]
            simp only []
            rw [hsub, hpa]
            simp only []
            exact ih ⟨⟨sn.key, tt.step_id.plugin_ns⟩, subtree⟩ (r :: rs)
              rec_t L hrec

/-- C8 applied: the concrete two-step splice. -/
theorem c8_returns_splice_arity_witness :
    spliceArity 3 ⟨⟨"root", "global"⟩,
      .map [("steps", .list [.map [("sub", .map
        [("subtree", .map [("steps", .list [.map [("A", .null)],
          .map [("B", .null)]])]),
         ("parentargs", .map [])])]])]⟩ [⟨"root", 0, "sub"⟩] = some 2 :=
  c8_returns_splice_arity 3
    ⟨⟨"root", "global"⟩,
      .map [("steps", .list [.map [("sub", .map
        [("subtree", .map [("steps", .list [.map [("A", .null)],
          .map [("B", .null)]])]),
         ("parentargs", .map [])])]])]⟩
    [⟨"root", 0, "sub"⟩]
    ⟨⟨"root", "global"⟩, .map
      [("steps", .list [.map [("A", .null)], .map [("B", .null)]]),
       ("wic", .map [("steps", .map [])])]⟩
    2 (by rfl)

end Wic
